import Mathlib

/-!
# m3log: the line codec of `src/c/src/m3log.c`

A shallow embedding of the C decoder `m3log_parse` and encoder `m3log_format`
together with the helpers they call, followed by theorems about them.

Conventions of the embedding.

* A C string is the list of its characters before the terminating NUL
  (`CStr`); one `Char` stands for one C `char`.  A nullable `char *` is an
  `Option CStr`.
* A pointer into a string is the suffix of the string it points at, so
  `strchr` returns a suffix and `p + 1` is `List.tail`.
* Storing a NUL through a pointer `p` into a string `s` shortens what `s`
  denotes to the characters before `p` (`nul_at`).
* Allocation is assumed to succeed, so `M3LOG_ERROR_MEMORY_ALLOCATION` is
  never produced.  `free` does not change the value of a pointer field; the
  liveness of allocations is not tracked by the record type.
-/

namespace M3log

/-! ## Data model (`src/c/include/m3log.h`) -/

/-- The characters of a C string, terminator excluded. -/
abbrev CStr := List Char

/-- Log levels, in the order of the C enumeration (`M3LOG_LEVEL_DEBUG = 0`). -/
inductive m3log_level_t where
  | M3LOG_LEVEL_DEBUG
  | M3LOG_LEVEL_INFO
  | M3LOG_LEVEL_WARN
  | M3LOG_LEVEL_ERROR
  | M3LOG_LEVEL_FATAL
  | M3LOG_LEVEL_UNKNOWN
  deriving DecidableEq, Repr

/-- Error codes, in the order of the C enumeration (`M3LOG_SUCCESS = 0`). -/
inductive m3log_error_t where
  | M3LOG_SUCCESS
  | M3LOG_ERROR_INVALID_FORMAT
  | M3LOG_ERROR_MEMORY_ALLOCATION
  | M3LOG_ERROR_INVALID_ARGUMENT
  | M3LOG_ERROR_BUFFER_TOO_SMALL
  deriving DecidableEq, Repr

open m3log_level_t m3log_error_t

/-- The integer value of an error code. -/
def m3log_error_t.toInt : m3log_error_t → Int
  | M3LOG_SUCCESS => 0
  | M3LOG_ERROR_INVALID_FORMAT => 1
  | M3LOG_ERROR_MEMORY_ALLOCATION => 2
  | M3LOG_ERROR_INVALID_ARGUMENT => 3
  | M3LOG_ERROR_BUFFER_TOO_SMALL => 4

/-- The tag list `m3log_tags_t`: `tags` is `none` for a NULL array pointer and
otherwise holds the `count` strings of the array. -/
structure m3log_tags_t where
  tags : Option (List CStr)
  deriving DecidableEq, Repr

/-- The field `count` of `m3log_tags_t`. -/
def m3log_tags_t.count (t : m3log_tags_t) : Nat :=
  match t.tags with
  | none => 0
  | some a => a.length

/-- The tags of a tag list as a plain list (empty for a NULL array). -/
def m3log_tags_t.toList (t : m3log_tags_t) : List CStr :=
  match t.tags with
  | none => []
  | some a => a

/-- The record `m3log_entry_t`. -/
structure m3log_entry_t where
  time : Option CStr
  tags : m3log_tags_t
  level : m3log_level_t
  content : Option CStr
  deriving DecidableEq, Repr

/-- The record after `memset(entry, 0, sizeof(m3log_entry_t))`. -/
def entry_zero : m3log_entry_t :=
  { time := none, tags := { tags := none }, level := M3LOG_LEVEL_DEBUG, content := none }

/-! ## C library functions used by the codec -/

/-- The function `isspace` in the "C" locale. -/
def isspace (c : Char) : Bool :=
  c == ' ' || c == '\t' || c == '\n' || c == '\x0b' || c == '\x0c' || c == '\r'

/-- The function `strchr(s, c)` for `c` other than NUL: the suffix of `s` that starts at the
first occurrence of `c`, or `none` (NULL). -/
def strchr : CStr → Char → Option CStr
  | [], _ => none
  | x :: xs, c => if x = c then some (x :: xs) else strchr xs c

/-- What the string `s` denotes once a NUL has been stored at the position
the pointer `p` (a suffix of `s`) points to. -/
def nul_at (s p : CStr) : CStr :=
  s.take (s.length - p.length)

/-- All tokens that repeated `strtok(_, " \t\n\r\f\v")` calls return: `cur` is the token
being read. -/
def strtok_all : CStr → CStr → List CStr
  | [], cur => if cur = [] then [] else [cur]
  | c :: rest, cur =>
    if isspace c then
      (if cur = [] then strtok_all rest [] else cur :: strtok_all rest [])
    else strtok_all rest (cur ++ [c])

/-! ## Helpers of `m3log.c` -/

/-- The function `m3log_level_to_string`. -/
def m3log_level_to_string : m3log_level_t → CStr
  | M3LOG_LEVEL_DEBUG => "DEBUG".toList
  | M3LOG_LEVEL_INFO => "INFO".toList
  | M3LOG_LEVEL_WARN => "WARN".toList
  | M3LOG_LEVEL_ERROR => "ERROR".toList
  | M3LOG_LEVEL_FATAL => "FATAL".toList
  | M3LOG_LEVEL_UNKNOWN => "UNKNOWN".toList

/-- The function `m3log_string_to_level`. -/
def m3log_string_to_level (level_str : Option CStr) : m3log_level_t :=
  match level_str with
  | none => M3LOG_LEVEL_UNKNOWN
  | some s =>
    if s = "DEBUG".toList then M3LOG_LEVEL_DEBUG
    else if s = "INFO".toList then M3LOG_LEVEL_INFO
    else if s = "WARN".toList then M3LOG_LEVEL_WARN
    else if s = "ERROR".toList then M3LOG_LEVEL_ERROR
    else if s = "FATAL".toList then M3LOG_LEVEL_FATAL
    else M3LOG_LEVEL_UNKNOWN

/-- The loop `while (end > start && isspace(*end)) end--` of `m3log_trim`, on the characters
after `*start`: trailing whitespace is dropped, `*start` itself is never examined. -/
def trim_tail : CStr → CStr
  | [] => []
  | c :: rest =>
    match trim_tail rest with
    | [] => if isspace c then [] else [c]
    | r => c :: r

/-- The function `m3log_trim` on a non-NULL string. -/
def m3log_trim (str : CStr) : CStr :=
  match str.dropWhile isspace with
  | [] => []
  | c :: rest => c :: trim_tail rest

/-- The counting loop of `m3log_parse_tags`: `in_run` tells that the previous character was
whitespace, in which case the inner `while` has already skipped the current one. -/
def count_tags : CStr → Bool → Nat → Nat
  | [], _, count => count
  | c :: rest, in_run, count =>
    if isspace c then count_tags rest true (if in_run then count else count + 1)
    else count_tags rest false count

/-- The function `m3log_parse_tags` on a non-NULL string. -/
def m3log_parse_tags (tags_str : CStr) : m3log_tags_t :=
  if tags_str = [] then { tags := none }
  else
    let count := count_tags tags_str false 1
    { tags := some ((strtok_all tags_str []).take count) }

/-- The function `m3log_free_tags`. -/
def m3log_free_tags (_tags : m3log_tags_t) : m3log_tags_t :=
  { tags := none }

/-! ## The decoder -/

/-- The function `m3log_parse`: the returned pair is the error code and the record `entry`
points to after the call (`none` when `entry` is NULL). -/
def m3log_parse (log_string : Option CStr) (entry : Option m3log_entry_t) :
    m3log_error_t × Option m3log_entry_t :=
  match log_string, entry with
  | none, _ => (M3LOG_ERROR_INVALID_ARGUMENT, entry)
  | some _, none => (M3LOG_ERROR_INVALID_ARGUMENT, none)
  | some log_copy, some _ =>
    let e := entry_zero
    -- timestamp
    match (if log_copy.head? = some '@' then
            (match strchr log_copy.tail ' ' with
             | some time_end =>
               some ({ e with time := some (nul_at log_copy.tail time_end) }, time_end.tail)
             | none => none)
          else some ({ e with time := none }, log_copy)) with
    | none => (M3LOG_ERROR_INVALID_FORMAT, some e)
    | some (e, time_part) =>
      -- tags
      match (match strchr time_part '[' with
             | some tags_part =>
               (match strchr tags_part ']' with
                | some tags_end =>
                  some ({ e with tags := m3log_parse_tags (nul_at tags_part.tail tags_end) },
                        tags_end.tail)
                | none => none)
             | none => some ({ e with tags := { tags := none } }, time_part)) with
      | none => (M3LOG_ERROR_INVALID_FORMAT, some e)
      | some (e, tags_part) =>
        -- level
        match (match strchr tags_part '#' with
               | some level_part =>
                 (match strchr level_part ':' with
                  | some level_end =>
                    let level_str := m3log_trim (nul_at level_part.tail level_end)
                    some ({ e with level := m3log_string_to_level (some level_str) },
                          some level_end.tail)
                  | none => none)
               | none =>
                 let content_part := tags_part
                 (match strchr content_part ':' with
                  | some content_sep =>
                    some ({ e with level := M3LOG_LEVEL_UNKNOWN }, some content_sep.tail)
                  | none => some ({ e with level := M3LOG_LEVEL_UNKNOWN }, some content_part))) with
        | none => (M3LOG_ERROR_INVALID_FORMAT, some { e with tags := m3log_free_tags e.tags })
        | some (e, content_part) =>
          -- content
          match content_part with
          | some cp => (M3LOG_SUCCESS, some { e with content := some (m3log_trim cp) })
          | none => (M3LOG_SUCCESS, some { e with content := some [] })

/-! ## The encoder -/

/-- The conversion `(int)n` of a `size_t` value to the 32-bit `int`: reduction modulo `2^32`
into the range `-2^31 .. 2^31 - 1`. -/
def int_cast (n : Nat) : Int :=
  (((n + 2 ^ 31) % 2 ^ 32 : Nat) : Int) - 2 ^ 31

/-- The expression `buffer_size - written` in the 64-bit unsigned type `size_t`. -/
def size_sub (buffer_size : Nat) (written : Int) : Nat :=
  (((buffer_size : Int) - written) % 2 ^ 64).toNat

/-- The memory `buffer` after the bytes `data` have been stored from offset `off` on. -/
def store (buffer : List Char) (off : Nat) (data : List Char) : List Char :=
  buffer.take off ++ data ++ buffer.drop (off + data.length)

/-- The call `snprintf(buffer + off, n, "%s", s)`: at most `n - 1` characters of `s` and a
terminating NUL are stored, nothing at all when `n` is 0; the value returned is the length
of `s`.  The result is the memory after the call and the value returned.  The value is the
one the C caller receives while `s` is at most INT_MAX bytes long; `snprintf_int` below is
the call for every length. -/
def snprintf (buffer : List Char) (off : Nat) (n : Nat) (s : CStr) : List Char × Int :=
  if n = 0 then (buffer, (s.length : Int))
  else (store buffer off (s.take (n - 1) ++ ['\x00']), (s.length : Int))

/-- The statement `written += snprintf(buffer + written, buffer_size - written, "%s", s)` on
the state `(buffer, written)`.  The counter `written` is an unbounded integer, equal to the
C `int` while the text written so far is at most INT_MAX bytes long; `append_field_int`
below is the statement on the C `int`, for every length. -/
def append_field (buffer_size : Nat) (st : List Char × Int) (s : CStr) : List Char × Int :=
  let r := snprintf st.1 st.2.toNat (size_sub buffer_size st.2) s
  (r.1, st.2 + r.2)

/-- The `for` loop of `m3log_format` over the tags still to be written; `Except.error` is the
early `return -M3LOG_ERROR_BUFFER_TOO_SMALL`, carrying the buffer at that point. -/
def format_tags (buffer_size : Nat) :
    List CStr → List Char × Int → Except (List Char) (List Char × Int)
  | [], st => Except.ok st
  | t :: rest, st =>
    let st := append_field buffer_size st (t ++ (if rest = [] then [] else [' ']))
    if st.2 ≥ int_cast buffer_size then Except.error st.1
    else format_tags buffer_size rest st

/-- The function `m3log_format`: `timestamp` is the string `m3log_generate_timestamp()` would
return during the call; `buffer` is the memory of `buffer_size` bytes the caller passes (or
`none` for NULL).  The result is the value returned and the buffer after the call.  It is
the result of the C function for every record whose full line is at most INT_MAX bytes long
(`m3log_format_int_eq`); `m3log_format_int` below has no such bound. -/
def m3log_format (timestamp : CStr) (entry : Option m3log_entry_t)
    (buffer : Option (List Char)) (buffer_size : Nat) : Int × Option (List Char) :=
  match entry, buffer with
  | none, _ => (-(M3LOG_ERROR_INVALID_ARGUMENT.toInt), buffer)
  | some _, none => (-(M3LOG_ERROR_INVALID_ARGUMENT.toInt), none)
  | some entry, some buffer =>
    if buffer_size = 0 then (-(M3LOG_ERROR_INVALID_ARGUMENT.toInt), some buffer)
    else
      let st : List Char × Int := (buffer, 0)
      let st :=
        match entry.time with
        | some (c :: time) => append_field buffer_size st ('@' :: (c :: time) ++ [' '])
        | _ => append_field buffer_size st ('@' :: timestamp ++ [' '])
      if st.2 ≥ int_cast buffer_size then (-(M3LOG_ERROR_BUFFER_TOO_SMALL.toInt), some st.1)
      else
        let st := append_field buffer_size st ['[']
        match format_tags buffer_size entry.tags.toList st with
        | Except.error buffer => (-(M3LOG_ERROR_BUFFER_TOO_SMALL.toInt), some buffer)
        | Except.ok st =>
          let st := append_field buffer_size st [']', ' ']
          if st.2 ≥ int_cast buffer_size then (-(M3LOG_ERROR_BUFFER_TOO_SMALL.toInt), some st.1)
          else
            let st :=
              if entry.level ≠ M3LOG_LEVEL_UNKNOWN then
                append_field buffer_size st ('#' :: m3log_level_to_string entry.level ++ [':', ' '])
              else append_field buffer_size st [':', ' ']
            if st.2 ≥ int_cast buffer_size then
              (-(M3LOG_ERROR_BUFFER_TOO_SMALL.toInt), some st.1)
            else
              let st :=
                match entry.content with
                | some content => append_field buffer_size st content
                | none => st
              if st.2 ≥ int_cast buffer_size then
                (-(M3LOG_ERROR_BUFFER_TOO_SMALL.toInt),
                  some (store st.1 (buffer_size - 1) ['\x00']))
              else (st.2, some st.1)

/-! ## Specification-side vocabulary -/

/-- The tags joined by exactly one space, with no trailing space. -/
def join_tags : List CStr → CStr
  | [] => []
  | [t] => t
  | t :: rest => t ++ ' ' :: join_tags rest

/-- A string with neither leading nor trailing whitespace. -/
def Trimmed (c : CStr) : Prop :=
  (∀ ch ∈ c.head?, isspace ch = false) ∧ (∀ ch ∈ c.getLast?, isspace ch = false)

instance (c : CStr) : Decidable (Trimmed c) := by
  unfold Trimmed
  infer_instance

/-- A tag the line format can carry: non-empty, no whitespace character, no `]`. -/
def GoodTag (t : CStr) : Prop :=
  t ≠ [] ∧ ∀ ch ∈ t, isspace ch = false ∧ ch ≠ ']'

instance (t : CStr) : Decidable (GoodTag t) := by
  unfold GoodTag
  infer_instance

/-- Reference trimming: every leading and every trailing whitespace character dropped. -/
def trim_spec (s : CStr) : CStr :=
  ((s.dropWhile isspace).reverse.dropWhile isspace).reverse

/-- The text that follows the first occurrence of `c` in `s` (empty when there is none). -/
def text_after (c : Char) (s : CStr) : CStr :=
  (s.dropWhile (fun x => x != c)).drop 1

/-- The text `R1` the tag search runs on: what follows the first space when the line starts
with `@`, the whole line otherwise. -/
def decode_R1 (line : CStr) : CStr :=
  if line.head? = some '@' then text_after ' ' line else line

/-- The text `R2` the level search runs on: what follows the first `]` after the first `[`
of `r1` when `r1` contains `[`, and `r1` otherwise. -/
def decode_R2 (r1 : CStr) : CStr :=
  if '[' ∈ r1 then text_after ']' (text_after '[' r1) else r1

/-- The text left of `r2` once the level stage has consumed its delimiters: what follows the
first `:` after the first `#` when `r2` contains `#`, what follows the first `:` when `r2`
contains `:` and no `#`, and `r2` itself otherwise. -/
def content_after (r2 : CStr) : CStr :=
  if '#' ∈ r2 then text_after ':' (text_after '#' r2)
  else if ':' ∈ r2 then text_after ':' r2 else r2

/-- The text that remains of a line after the last delimiter the decoder consumes. -/
def content_text (line : CStr) : CStr :=
  content_after (decode_R2 (decode_R1 line))

/-- Condition (a): the line starts with `@` and contains no space. -/
def CondA (line : CStr) : Prop :=
  line.head? = some '@' ∧ ' ' ∉ line

/-- Condition (b): `R1` contains `[` with no `]` after its first `[`. -/
def CondB (line : CStr) : Prop :=
  '[' ∈ decode_R1 line ∧ ']' ∉ text_after '[' (decode_R1 line)

/-- Condition (c): `R2` contains `#` with no `:` after its first `#`. -/
def CondC (line : CStr) : Prop :=
  '#' ∈ decode_R2 (decode_R1 line) ∧ ':' ∉ text_after '#' (decode_R2 (decode_R1 line))

/-- The timestamp `m3log_format` writes: that of the record when it is non-empty, the
generated one otherwise. -/
def time_text (timestamp : CStr) (time : Option CStr) : CStr :=
  match time with
  | some (c :: t) => c :: t
  | _ => timestamp

/-- The level field of a formatted line: `#NAME: ` for a named level, `: ` for UNKNOWN. -/
def level_text (level : m3log_level_t) : CStr :=
  if level ≠ M3LOG_LEVEL_UNKNOWN then '#' :: m3log_level_to_string level ++ [':', ' ']
  else [':', ' ']

/-- The full formatted line of a record: `@ts [t1 .. tn] ` followed by the level field and
the content (nothing for a NULL content). -/
def format_line (timestamp : CStr) (entry : m3log_entry_t) : CStr :=
  ['@'] ++ time_text timestamp entry.time ++ [' ', '['] ++ join_tags entry.tags.toList ++
    [']', ' '] ++ level_text entry.level ++ entry.content.getD []

/-- The largest value of the C type `int`. -/
def INT_MAX : Nat := 2147483647

/-- The error code `-M3LOG_ERROR_BUFFER_TOO_SMALL` as returned by `m3log_format`. -/
def ERR_BUFFER_TOO_SMALL : Int := -(M3LOG_ERROR_BUFFER_TOO_SMALL.toInt)

/-- The error code `-M3LOG_ERROR_INVALID_ARGUMENT` as returned by `m3log_format`. -/
def ERR_INVALID_ARGUMENT : Int := -(M3LOG_ERROR_INVALID_ARGUMENT.toInt)

/-- Encoding a record into `buffer` and decoding the bytes written: `none` when the encoder
fails, otherwise the result of `m3log_parse` on the first `n` bytes of the buffer, `n` being
the number of bytes the encoder reports. -/
def format_then_parse (timestamp : CStr) (entry : m3log_entry_t) (buffer : List Char)
    (buffer_size : Nat) : Option (m3log_error_t × Option m3log_entry_t) :=
  match m3log_format timestamp (some entry) (some buffer) buffer_size with
  | (n, some b) =>
    if 0 ≤ n then some (m3log_parse (some (b.take n.toNat)) (some entry_zero)) else none
  | (_, none) => none

/-! ## Stages of the encoder (proof devices) -/

/-- Lines 195-206 of `m3log_format`: the content and the final check. -/
def format_from_content (buffer_size : Nat) (entry : m3log_entry_t) (st : List Char × Int) :
    Int × Option (List Char) :=
  let st :=
    match entry.content with
    | some content => append_field buffer_size st content
    | none => st
  if st.2 ≥ int_cast buffer_size then
    (-(M3LOG_ERROR_BUFFER_TOO_SMALL.toInt), some (store st.1 (buffer_size - 1) ['\x00']))
  else (st.2, some st.1)

/-- Lines 183-206 of `m3log_format`: from the level field on. -/
def format_from_level (buffer_size : Nat) (entry : m3log_entry_t) (st : List Char × Int) :
    Int × Option (List Char) :=
  let st :=
    if entry.level ≠ M3LOG_LEVEL_UNKNOWN then
      append_field buffer_size st ('#' :: m3log_level_to_string entry.level ++ [':', ' '])
    else append_field buffer_size st [':', ' ']
  if st.2 ≥ int_cast buffer_size then (-(M3LOG_ERROR_BUFFER_TOO_SMALL.toInt), some st.1)
  else format_from_content buffer_size entry st

/-- Lines 176-206 of `m3log_format`: from the closing bracket on. -/
def format_from_close (buffer_size : Nat) (entry : m3log_entry_t) (st : List Char × Int) :
    Int × Option (List Char) :=
  let st := append_field buffer_size st [']', ' ']
  if st.2 ≥ int_cast buffer_size then (-(M3LOG_ERROR_BUFFER_TOO_SMALL.toInt), some st.1)
  else format_from_level buffer_size entry st

/-! ## Stages of the decoder (proof devices) -/

/-- Lines 102-138 of `m3log_parse`: level and content extraction from `tags_part`. -/
def parse_from_level (e : m3log_entry_t) (tags_part : CStr) :
    m3log_error_t × Option m3log_entry_t :=
  match (match strchr tags_part '#' with
         | some level_part =>
           (match strchr level_part ':' with
            | some level_end =>
              let level_str := m3log_trim (nul_at level_part.tail level_end)
              some ({ e with level := m3log_string_to_level (some level_str) },
                    some level_end.tail)
            | none => none)
         | none =>
           let content_part := tags_part
           (match strchr content_part ':' with
            | some content_sep =>
              some ({ e with level := M3LOG_LEVEL_UNKNOWN }, some content_sep.tail)
            | none => some ({ e with level := M3LOG_LEVEL_UNKNOWN }, some content_part))) with
  | none => (M3LOG_ERROR_INVALID_FORMAT, some { e with tags := m3log_free_tags e.tags })
  | some (e, content_part) =>
    match content_part with
    | some cp => (M3LOG_SUCCESS, some { e with content := some (m3log_trim cp) })
    | none => (M3LOG_SUCCESS, some { e with content := some [] })

/-- Lines 81-138 of `m3log_parse`: tag, level and content extraction from `time_part`. -/
def parse_from_tags (e : m3log_entry_t) (time_part : CStr) :
    m3log_error_t × Option m3log_entry_t :=
  match (match strchr time_part '[' with
         | some tags_part =>
           (match strchr tags_part ']' with
            | some tags_end =>
              some ({ e with tags := m3log_parse_tags (nul_at tags_part.tail tags_end) },
                    tags_end.tail)
            | none => none)
         | none => some ({ e with tags := { tags := none } }, time_part)) with
  | none => (M3LOG_ERROR_INVALID_FORMAT, some e)
  | some (e, tags_part) => parse_from_level e tags_part

/-! ## Invariants of the encoder (proof devices) -/

/-- The state of the encoder after the text `p` has been appended to a buffer of `size`
bytes: the counter is the length of `p`, and the buffer holds the first `size - 1`
characters of `p` (all of `p` when it is shorter) followed by a NUL. -/
def Inv (size : Nat) (st : List Char × Int) (p : CStr) : Prop :=
  st.2 = (p.length : Int) ∧ st.1.length = size ∧
  st.1.take (min p.length (size - 1)) = p.take (min p.length (size - 1)) ∧
  st.1[min p.length (size - 1)]? = some '\x00'

/-- What `m3log_format` leaves behind, for a record whose full line is `S`: the buffer
keeps its size; when `S` fits below the `int` value of the capacity the length of `S` is
returned and the buffer holds `S` and a NUL; otherwise the error is returned and, when the
capacity is representable as an `int`, the buffer holds the first `size - 1` characters of
`S` and a final NUL. -/
def FormatPost (size : Nat) (S : CStr) (r : Int × Option (List Char)) : Prop :=
  ∃ b, r.2 = some b ∧ b.length = size ∧
    ((S.length : Int) < int_cast size →
      r.1 = (S.length : Int) ∧ b.take S.length = S ∧ b[S.length]? = some '\x00') ∧
    (int_cast size ≤ (S.length : Int) →
      r.1 = ERR_BUFFER_TOO_SMALL ∧
      (int_cast size = (size : Int) →
        b.take (size - 1) = S.take (size - 1) ∧ b[size - 1]? = some '\x00'))

/-! ## Specification-side vocabulary, continued -/

/-- Reference tokenizing: the maximal runs of non-whitespace characters of `s`, from left to
right. -/
def tokens_spec (s : CStr) : List CStr :=
  (s.splitOnP isspace).filter (fun t => t ≠ [])

/-- The number of maximal runs of whitespace characters of `s`: the positions holding a
whitespace character that is the first of the string or follows a non-whitespace one. -/
def ws_run_count (s : CStr) : Nat :=
  (if s.head?.any isspace then 1 else 0) +
    (s.zip s.tail).countP (fun p => isspace p.2 && !isspace p.1)

/-- A tag the tokenizer gives back unchanged: non-empty, no whitespace character. -/
def PlainTag (t : CStr) : Prop :=
  t ≠ [] ∧ ∀ ch ∈ t, isspace ch = false

instance (t : CStr) : Decidable (PlainTag t) := by
  unfold PlainTag
  infer_instance

/-! ## Record construction -/

/-- The function `m3log_create_entry`: `timestamp` is the string
`m3log_generate_timestamp()` returns during the call, `tags` the caller's array (`none` for
NULL) whose entries may be NULL.  An index past the end of the array, which the C code must
not be given, reads as NULL. -/
def m3log_create_entry (timestamp : CStr) (content : Option CStr) (level : m3log_level_t)
    (tags : Option (List (Option CStr))) (tag_count : Nat) : Option m3log_entry_t :=
  match content with
  | none => none
  | some content =>
    let entry : m3log_entry_t :=
      { entry_zero with time := some timestamp, level := level, content := some content }
    match tags with
    | some arr =>
      if tag_count > 0 then
        some { entry with
          tags := { tags := some ((List.range tag_count).map (fun i =>
            match arr.getD i none with
            | some t => t
            | none => [])) } }
      else some { entry with tags := { tags := none } }
    | none => some { entry with tags := { tags := none } }

/-! ## The `snprintf` calls of the encoder -/

/-- A `snprintf(buffer + written, buffer_size - written, ..)` call made in state `st`: the
running count `written` at the call and the size argument it is given. -/
def snprintf_call (buffer_size : Nat) (st : List Char × Int) : Int × Nat :=
  (st.2, size_sub buffer_size st.2)

/-- The `snprintf` calls made by the `for` loop of `m3log_format`, in order. -/
def format_tags_calls (buffer_size : Nat) : List CStr → List Char × Int → List (Int × Nat)
  | [], _ => []
  | t :: rest, st =>
    snprintf_call buffer_size st ::
      (if (append_field buffer_size st (t ++ (if rest = [] then [] else [' ']))).2 ≥
          int_cast buffer_size then []
       else format_tags_calls buffer_size rest
         (append_field buffer_size st (t ++ (if rest = [] then [] else [' ']))))

/-- All `snprintf` calls `m3log_format` makes on a non-null record and buffer, in order,
following the same checks and early returns. -/
def m3log_format_calls (timestamp : CStr) (entry : m3log_entry_t) (buffer : List Char)
    (buffer_size : Nat) : List (Int × Nat) :=
  if buffer_size = 0 then []
  else
    let st0 : List Char × Int := (buffer, 0)
    let st1 := append_field buffer_size st0 ('@' :: time_text timestamp entry.time ++ [' '])
    snprintf_call buffer_size st0 ::
      (if st1.2 ≥ int_cast buffer_size then []
       else
        let st2 := append_field buffer_size st1 ['[']
        snprintf_call buffer_size st1 ::
          (format_tags_calls buffer_size entry.tags.toList st2 ++
            (match format_tags buffer_size entry.tags.toList st2 with
             | Except.error _ => []
             | Except.ok st3 =>
               let st4 := append_field buffer_size st3 [']', ' ']
               snprintf_call buffer_size st3 ::
                 (if st4.2 ≥ int_cast buffer_size then []
                  else
                   let st5 := append_field buffer_size st4 (level_text entry.level)
                   snprintf_call buffer_size st4 ::
                     (if st5.2 ≥ int_cast buffer_size then []
                      else
                       match entry.content with
                       | some _ => [snprintf_call buffer_size st5]
                       | none => [])))))

/-- A call whose running count lies within the buffer and whose size argument is the exact
remaining room, so that the window it may write ends at the end of the buffer. -/
def CallInBounds (buffer_size : Nat) (c : Int × Nat) : Prop :=
  0 ≤ c.1 ∧ c.1 ≤ (buffer_size : Int) ∧ (c.2 : Int) = (buffer_size : Int) - c.1 ∧
    c.1.toNat + c.2 = buffer_size

instance (buffer_size : Nat) (c : Int × Nat) : Decidable (CallInBounds buffer_size c) := by
  unfold CallInBounds
  infer_instance

/-! ## The allocations of the decoder -/

/-- The allocator: `next` is the address the next allocation returns and `live` lists the
addresses allocated and not yet released, the most recent first. -/
structure Heap where
  next : Nat
  live : List Nat
  deriving DecidableEq, Repr

/-- A successful `malloc` or `strdup`: the address returned and the allocator after it. -/
def Heap.alloc (h : Heap) : Nat × Heap :=
  (h.next, { next := h.next + 1, live := h.next :: h.live })

/-- The call `free(p)`. -/
def Heap.free (h : Heap) (p : Nat) : Heap :=
  { h with live := h.live.erase p }

/-- The pointer fields of an `m3log_entry_t`: the timestamp, the tag array, the strings
`tags[0 .. count-1]` and the content. -/
structure entry_ptrs where
  time : Option Nat
  tags : Option Nat
  tag_strs : List Nat
  content : Option Nat
  deriving DecidableEq, Repr

/-- The pointer fields after `memset(entry, 0, sizeof(m3log_entry_t))`. -/
def entry_ptrs_zero : entry_ptrs :=
  { time := none, tags := none, tag_strs := [], content := none }

/-- Every address stored in the pointer fields of an entry. -/
def entry_ptrs.all (e : entry_ptrs) : List Nat :=
  e.time.toList ++ e.tags.toList ++ e.tag_strs ++ e.content.toList

/-- The loop `tags[i++] = strdup(token)` of `m3log_parse_tags` over the tokens it stores. -/
def strdup_each : List CStr → Heap → List Nat × Heap
  | [], h => ([], h)
  | _ :: rest, h => ((h.alloc).1 :: (strdup_each rest (h.alloc).2).1,
                     (strdup_each rest (h.alloc).2).2)

/-- The allocations of `m3log_parse_tags`: the array, the working copy `tags_copy`, one
string per stored token, then `free(tags_copy)`.  The result is the array pointer, the
strings stored and the allocator. -/
def m3log_parse_tags_heap (tags_str : CStr) (h : Heap) : (Option Nat × List Nat) × Heap :=
  if tags_str = [] then ((none, []), h)
  else
    let count := count_tags tags_str false 1
    let tags := h.alloc
    let tags_copy := tags.2.alloc
    let strs := strdup_each ((strtok_all tags_str []).take count) tags_copy.2
    ((some tags.1, strs.1), strs.2.free tags_copy.1)

/-- The loop `free(tags->tags[i])` of `m3log_free_tags`. -/
def free_each : List Nat → Heap → Heap
  | [], h => h
  | p :: ps, h => free_each ps (h.free p)

/-- The releases of `m3log_free_tags`: each string, then the array, when the array is
non-null. -/
def m3log_free_tags_heap (tags : Option Nat) (tag_strs : List Nat) (h : Heap) : Heap :=
  match tags with
  | some arr => (free_each tag_strs h).free arr
  | none => h

/-- The release `if (entry->time) free(entry->time)`. -/
def free_time (time : Option Nat) (h : Heap) : Heap :=
  match time with
  | some t => h.free t
  | none => h

/-- Lines 102-138 of `m3log_parse` with their allocations: `log_copy` is the address of the
working copy. -/
def parse_heap_from_level (log_copy : Nat) (e : entry_ptrs) (tags_part : CStr) (h : Heap) :
    m3log_error_t × entry_ptrs × Heap :=
  match strchr tags_part '#' with
  | some level_part =>
    (match strchr level_part ':' with
     | some _ =>
       (M3LOG_SUCCESS, { e with content := some (h.alloc).1 }, (h.alloc).2.free log_copy)
     | none =>
       (M3LOG_ERROR_INVALID_FORMAT, { e with tags := none, tag_strs := [] },
         m3log_free_tags_heap e.tags e.tag_strs (free_time e.time (h.free log_copy))))
  | none =>
    (M3LOG_SUCCESS, { e with content := some (h.alloc).1 }, (h.alloc).2.free log_copy)

/-- Lines 81-138 of `m3log_parse` with their allocations. -/
def parse_heap_from_tags (log_copy : Nat) (e : entry_ptrs) (time_part : CStr) (h : Heap) :
    m3log_error_t × entry_ptrs × Heap :=
  match strchr time_part '[' with
  | some tags_part =>
    (match strchr tags_part ']' with
     | some tags_end =>
       let r := m3log_parse_tags_heap (nul_at tags_part.tail tags_end) h
       parse_heap_from_level log_copy { e with tags := r.1.1, tag_strs := r.1.2 }
         tags_end.tail r.2
     | none => (M3LOG_ERROR_INVALID_FORMAT, e, free_time e.time (h.free log_copy)))
  | none => parse_heap_from_level log_copy { e with tags := none, tag_strs := [] } time_part h

/-- The function `m3log_parse` on a non-null line and entry, with its allocations: the
result is the error code, the pointer fields of the entry and the allocator after the
call. -/
def m3log_parse_heap (log_string : CStr) (h : Heap) : m3log_error_t × entry_ptrs × Heap :=
  let log_copy := h.alloc
  if log_string.head? = some '@' then
    (match strchr log_string.tail ' ' with
     | some time_end =>
       parse_heap_from_tags log_copy.1
         { entry_ptrs_zero with time := some (log_copy.2.alloc).1 } time_end.tail
         (log_copy.2.alloc).2
     | none => (M3LOG_ERROR_INVALID_FORMAT, entry_ptrs_zero, log_copy.2.free log_copy.1))
  else parse_heap_from_tags log_copy.1 entry_ptrs_zero log_string log_copy.2

/-! ## The C++ encoder (`src/cpp/m3log.cc`) -/

/-- The enumeration `LogLevel` of `m3log.hh`. -/
inductive LogLevel where
  | DEBUG
  | INFO
  | WARN
  | ERROR
  | FATAL
  deriving DecidableEq, Repr

/-- The method `Logger::levelToString` on the five values of `LogLevel`. -/
def Logger.levelToString : LogLevel → List Char
  | LogLevel.DEBUG => "DEBUG".toList
  | LogLevel.INFO => "INFO".toList
  | LogLevel.WARN => "WARN".toList
  | LogLevel.ERROR => "ERROR".toList
  | LogLevel.FATAL => "FATAL".toList

/-- The method `Logger::escapeMessage`: `std::regex_replace` of every match of the one-character
pattern `"\n"` by the two characters backslash and `n`. -/
def Logger.escapeMessage : List Char → List Char
  | [] => []
  | c :: rest =>
    if c = '\n' then '\\' :: 'n' :: Logger.escapeMessage rest
    else c :: Logger.escapeMessage rest

/-- The `for` loop of `Logger::format` over the tags still to be written: each tag, followed
by a space unless it is the last. -/
def Logger.format_tags : List (List Char) → List Char
  | [] => []
  | t :: rest => t ++ (if rest = [] then [] else [' ']) ++ Logger.format_tags rest

/-- The output of `std::setfill('0') << std::setw(3) << n`: the decimal digits of `n`, padded
on the left with `0` to three characters. -/
def Logger.put_ms (n : Nat) : List Char :=
  List.replicate (3 - (Nat.toDigits 10 n).length) '0' ++ Nat.toDigits 10 n

/-- The method `Logger::generateTimestamp`: `date_time` is what
`std::put_time(std::gmtime(&t), "%Y-%m-%dT%H:%M:%S")` writes for the current time and
`epoch_ms` the milliseconds elapsed since the epoch; the result is `date_time`, a dot, the
milliseconds of the current second in three digits, and `Z`. -/
def Logger.generateTimestamp (date_time : List Char) (epoch_ms : Nat) : List Char :=
  date_time ++ ['.'] ++ Logger.put_ms (epoch_ms % 1000) ++ ['Z']

/-- The method `Logger::format(level, tags, message)`: `timestamp` is the string
`generateTimestamp()` returns during the call. -/
def Logger.format (timestamp : List Char) (level : LogLevel) (tags : List (List Char))
    (message : List Char) : List Char :=
  let ss := ['@'] ++ timestamp ++ [' ']
  let ss := if tags ≠ [] then ss ++ ['['] ++ Logger.format_tags tags ++ [']', ' '] else ss
  let ss := ss ++ ['#'] ++ Logger.levelToString level ++ [':', ' ']
  ss ++ Logger.escapeMessage message

/-- The C level of the same name as a C++ level. -/
def LogLevel.toC : LogLevel → m3log_level_t
  | LogLevel.DEBUG => M3LOG_LEVEL_DEBUG
  | LogLevel.INFO => M3LOG_LEVEL_INFO
  | LogLevel.WARN => M3LOG_LEVEL_WARN
  | LogLevel.ERROR => M3LOG_LEVEL_ERROR
  | LogLevel.FATAL => M3LOG_LEVEL_FATAL

/-- Reference escaping: every newline replaced by the two characters backslash and `n`, every
other character kept. -/
def escape_spec (message : List Char) : List Char :=
  message.flatMap (fun c => if c = '\n' then ['\\', 'n'] else [c])

/-- The C record holding the timestamp, tags, level and message given to `Logger::format`. -/
def record_of (timestamp : CStr) (level : LogLevel) (tags : List CStr) (message : CStr) :
    m3log_entry_t :=
  { time := some timestamp, tags := { tags := some tags }, level := level.toC,
    content := some message }

/-- The line `m3log_format` leaves in the buffer: its first `n` bytes, `n` being the value
returned, or `none` when the encoder fails. -/
def format_output (timestamp : CStr) (entry : m3log_entry_t) (buffer : List Char)
    (buffer_size : Nat) : Option CStr :=
  match m3log_format timestamp (some entry) (some buffer) buffer_size with
  | (n, some b) => if 0 ≤ n then some (b.take n.toNat) else none
  | (_, none) => none

/-! ## The encoder with the counter `written` as a C `int` -/

/-- The call `snprintf(buffer + off, n, "%s", s)` with the value the caller receives in an
`int`: the length of `s` when it is at most INT_MAX, and -1 when it is larger (the call then
fails with EOVERFLOW, in POSIX and in glibc).  The bytes stored are those of `snprintf`;
those a failing call leaves are not fixed by POSIX, the model keeps the truncated output
there, and what is proved of a failing call is the value returned only. -/
def snprintf_int (buffer : List Char) (off : Nat) (n : Nat) (s : CStr) : List Char × Int :=
  if s.length ≤ INT_MAX then snprintf buffer off n s
  else ((snprintf buffer off n s).1, -1)

/-- The statement `written += snprintf(buffer + written, buffer_size - written, "%s", s)` with
`written` a C `int`.  The result is `none` where the statement has undefined behaviour: the
pointer `buffer + written` outside the buffer (a negative counter, or one above the
capacity), or a sum above INT_MAX. -/
def append_field_int (buffer_size : Nat) (st : List Char × Int) (s : CStr) :
    Option (List Char × Int) :=
  if st.2 < 0 ∨ (buffer_size : Int) < st.2 then none
  else
    let r := snprintf_int st.1 st.2.toNat (size_sub buffer_size st.2) s
    if (INT_MAX : Int) < st.2 + r.2 then none else some (r.1, st.2 + r.2)

/-- The `for` loop of `m3log_format` over the tags still to be written, with `written` a C
`int`; `Except.error` is the early `return -M3LOG_ERROR_BUFFER_TOO_SMALL`. -/
def format_tags_int (buffer_size : Nat) :
    List CStr → List Char × Int → Option (Except (List Char) (List Char × Int))
  | [], st => some (Except.ok st)
  | t :: rest, st =>
    (append_field_int buffer_size st (t ++ (if rest = [] then [] else [' ']))).bind fun st =>
      if st.2 ≥ int_cast buffer_size then some (Except.error st.1)
      else format_tags_int buffer_size rest st

/-- Lines 195-206 of `m3log_format` with `written` a C `int`: the content and the final
check. -/
def format_from_content_int (buffer_size : Nat) (entry : m3log_entry_t)
    (st : List Char × Int) : Option (Int × Option (List Char)) :=
  (match entry.content with
   | some content => append_field_int buffer_size st content
   | none => some st).bind fun st =>
    if st.2 ≥ int_cast buffer_size then
      some (-(M3LOG_ERROR_BUFFER_TOO_SMALL.toInt),
        some (store st.1 (buffer_size - 1) ['\x00']))
    else some (st.2, some st.1)

/-- Lines 183-206 of `m3log_format` with `written` a C `int`: from the level field on. -/
def format_from_level_int (buffer_size : Nat) (entry : m3log_entry_t)
    (st : List Char × Int) : Option (Int × Option (List Char)) :=
  (if entry.level ≠ M3LOG_LEVEL_UNKNOWN then
    append_field_int buffer_size st ('#' :: m3log_level_to_string entry.level ++ [':', ' '])
   else append_field_int buffer_size st [':', ' ']).bind fun st =>
    if st.2 ≥ int_cast buffer_size then
      some (-(M3LOG_ERROR_BUFFER_TOO_SMALL.toInt), some st.1)
    else format_from_content_int buffer_size entry st

/-- Lines 176-206 of `m3log_format` with `written` a C `int`: from the closing bracket
on. -/
def format_from_close_int (buffer_size : Nat) (entry : m3log_entry_t)
    (st : List Char × Int) : Option (Int × Option (List Char)) :=
  (append_field_int buffer_size st [']', ' ']).bind fun st =>
    if st.2 ≥ int_cast buffer_size then
      some (-(M3LOG_ERROR_BUFFER_TOO_SMALL.toInt), some st.1)
    else format_from_level_int buffer_size entry st

/-- The function `m3log_format` with `written` a C `int` and `snprintf` returning an `int`:
the arguments are those of `m3log_format`, the result is `none` where the call has undefined
behaviour and otherwise the value returned and the buffer after the call. -/
def m3log_format_int (timestamp : CStr) (entry : Option m3log_entry_t)
    (buffer : Option (List Char)) (buffer_size : Nat) : Option (Int × Option (List Char)) :=
  match entry, buffer with
  | none, _ => some (-(M3LOG_ERROR_INVALID_ARGUMENT.toInt), buffer)
  | some _, none => some (-(M3LOG_ERROR_INVALID_ARGUMENT.toInt), none)
  | some entry, some buffer =>
    if buffer_size = 0 then some (-(M3LOG_ERROR_INVALID_ARGUMENT.toInt), some buffer)
    else
      let st : List Char × Int := (buffer, 0)
      (match entry.time with
       | some (c :: time) => append_field_int buffer_size st ('@' :: (c :: time) ++ [' '])
       | _ => append_field_int buffer_size st ('@' :: timestamp ++ [' '])).bind fun st =>
        if st.2 ≥ int_cast buffer_size then
          some (-(M3LOG_ERROR_BUFFER_TOO_SMALL.toInt), some st.1)
        else
          (append_field_int buffer_size st ['[']).bind fun st =>
            (format_tags_int buffer_size entry.tags.toList st).bind fun r =>
              match r with
              | Except.error buffer =>
                some (-(M3LOG_ERROR_BUFFER_TOO_SMALL.toInt), some buffer)
              | Except.ok st => format_from_close_int buffer_size entry st

/-! ## The codec unfolded into its stages -/

theorem m3log_format_stages (timestamp : CStr) (entry : m3log_entry_t) (buffer : List Char)
    (buffer_size : Nat) :
    m3log_format timestamp (some entry) (some buffer) buffer_size =
      if buffer_size = 0 then (-(M3LOG_ERROR_INVALID_ARGUMENT.toInt), some buffer)
      else
        let st := append_field buffer_size (buffer, 0)
          ('@' :: time_text timestamp entry.time ++ [' '])
        if st.2 ≥ int_cast buffer_size then (-(M3LOG_ERROR_BUFFER_TOO_SMALL.toInt), some st.1)
        else
          match format_tags buffer_size entry.tags.toList
              (append_field buffer_size st ['[']) with
          | Except.error buffer => (-(M3LOG_ERROR_BUFFER_TOO_SMALL.toInt), some buffer)
          | Except.ok st => format_from_close buffer_size entry st := by
  obtain ⟨time, tags, level, content⟩ := entry
  cases time with
  | none => rfl
  | some t => cases t <;> rfl

theorem m3log_parse_stages (log_copy : CStr) (e0 : m3log_entry_t) :
    m3log_parse (some log_copy) (some e0) =
      match (if log_copy.head? = some '@' then
              (match strchr log_copy.tail ' ' with
               | some time_end =>
                 some ({ entry_zero with time := some (nul_at log_copy.tail time_end) },
                       time_end.tail)
               | none => none)
            else some ({ entry_zero with time := none }, log_copy)) with
      | none => (M3LOG_ERROR_INVALID_FORMAT, some entry_zero)
      | some (e, time_part) => parse_from_tags e time_part := rfl

/-! ## Lemmas on the C library functions -/

theorem strchr_eq_none_iff (s : CStr) (c : Char) : strchr s c = none ↔ c ∉ s := by
  induction s with
  | nil => simp [strchr]
  | cons x xs ih =>
    by_cases h : x = c
    · simp [strchr, h]
    · simp [strchr, h, ih, Ne.symm h]

theorem strchr_append (p q : CStr) (c : Char) (h : c ∉ p) :
    strchr (p ++ c :: q) c = some (c :: q) := by
  induction p with
  | nil => simp [strchr]
  | cons x xs ih =>
    have hx : x ≠ c := fun e => h (by simp [e])
    have hxs : c ∉ xs := fun e => h (by simp [e])
    simp [strchr, hx, ih hxs]

theorem strchr_eq_some (s r : CStr) (c : Char) (h : strchr s c = some r) :
    ∃ p q, s = p ++ c :: q ∧ c ∉ p ∧ r = c :: q := by
  induction s with
  | nil => simp [strchr] at h
  | cons x xs ih =>
    by_cases hx : x = c
    · simp [strchr, hx] at h
      exact ⟨[], xs, by simp [hx], by simp, h.symm⟩
    · simp [strchr, hx] at h
      obtain ⟨p, q, h1, h2, h3⟩ := ih h
      exact ⟨x :: p, q, by simp [h1], by simp [h2, Ne.symm hx], h3⟩

theorem nul_at_append (p r : CStr) : nul_at (p ++ r) r = p := by
  simp [nul_at]

/-- The split of a string at the first occurrence of a character. -/
theorem split_unique (c : Char) (p q p' q' : CStr) (h : p ++ c :: q = p' ++ c :: q')
    (hp : c ∉ p) (hp' : c ∉ p') : p = p' ∧ q = q' := by
  induction p generalizing p' with
  | nil =>
    cases p' with
    | nil => simpa using h
    | cons y ys =>
      simp at h
      exact absurd (by simp [h.1]) hp'
  | cons x xs ih =>
    cases p' with
    | nil =>
      simp at h
      exact absurd (by simp [h.1]) hp
    | cons y ys =>
      simp at h
      have := ih ys h.2 (fun e => hp (by simp [e])) (fun e => hp' (by simp [e]))
      simp [h.1, this.1, this.2]

/-! ## Lemmas on trimming -/

theorem trim_tail_cons (c : Char) (rest : CStr) :
    trim_tail (c :: rest) =
      match trim_tail rest with
      | [] => if isspace c then [] else [c]
      | r => c :: r := rfl

theorem trim_tail_eq_self (r : CStr) (h : ∀ ch, r.getLast? = some ch → isspace ch = false) :
    trim_tail r = r := by
  induction r with
  | nil => rfl
  | cons c rest ih =>
    cases rest with
    | nil =>
      have : isspace c = false := h c (by simp)
      simp [trim_tail, this]
    | cons d rest' =>
      have hh : trim_tail (d :: rest') = d :: rest' :=
        ih (fun ch hc => h ch (by simpa [List.getLast?_cons_cons] using hc))
      rw [trim_tail_cons, hh]

theorem m3log_trim_of_Trimmed (c : CStr) (h : Trimmed c) : m3log_trim c = c := by
  cases c with
  | nil => rfl
  | cons x rest =>
    have hx : isspace x = false := h.1 x (by simp)
    have ht : trim_tail rest = rest := by
      apply trim_tail_eq_self
      intro ch hc
      cases rest with
      | nil => simp at hc
      | cons d rest' => exact h.2 ch (by simpa [List.getLast?_cons_cons] using hc)
    simp [m3log_trim, List.dropWhile, hx, ht]

theorem m3log_trim_cons_space (w : Char) (s : CStr) (h : isspace w = true) :
    m3log_trim (w :: s) = m3log_trim s := by
  simp [m3log_trim, List.dropWhile, h]

/-! ## Lemmas on tag tokenizing -/

theorem strtok_all_append (t rest cur : CStr) (h : ∀ ch ∈ t, isspace ch = false) :
    strtok_all (t ++ rest) cur = strtok_all rest (cur ++ t) := by
  induction t generalizing cur with
  | nil => simp
  | cons x xs ih =>
    have hx : isspace x = false := h x (by simp)
    have := ih (cur ++ [x]) (fun ch hc => h ch (by simp [hc]))
    simp [strtok_all, hx, this]

theorem strtok_all_join (tags : List CStr)
    (h : ∀ t ∈ tags, t ≠ [] ∧ ∀ ch ∈ t, isspace ch = false) :
    strtok_all (join_tags tags) [] = tags := by
  induction tags with
  | nil => simp [join_tags, strtok_all]
  | cons t rest ih =>
    have ht := h t (by simp)
    cases rest with
    | nil =>
      have := strtok_all_append t [] [] ht.2
      simp at this
      simp [join_tags, this, strtok_all, ht.1]
    | cons t' rest' =>
      have ih' := ih (fun u hu => h u (by simp [hu]))
      have := strtok_all_append t (' ' :: join_tags (t' :: rest')) [] ht.2
      simp [join_tags] at this ⊢
      rw [this]
      simp [strtok_all, isspace, ht.1]
      simpa [join_tags] using ih'

theorem strtok_all_length_le (s cur : CStr) (in_run : Bool) (k : Nat)
    (h : cur ≠ [] → in_run = false) :
    (strtok_all s cur).length + k ≤ count_tags s in_run k + 1 := by
  induction s generalizing cur in_run k with
  | nil =>
    by_cases hc : cur = []
    · simp [strtok_all, count_tags, hc]
    · simp [strtok_all, count_tags, hc]
      omega
  | cons c rest ih =>
    by_cases hs : isspace c = true
    · by_cases hc : cur = []
      · cases in_run with
        | true =>
          have := ih [] true k (by simp)
          simpa [strtok_all, count_tags, hs, hc] using this
        | false =>
          have := ih [] true (k + 1) (by simp)
          simp [strtok_all, count_tags, hs, hc]
          omega
      · have hr := h hc
        have := ih [] true (k + 1) (by simp)
        simp [strtok_all, count_tags, hs, hc, hr]
        omega
    · have := ih (cur ++ [c]) false k (by simp)
      simp [strtok_all, count_tags, hs]
      simpa using this

/-- The guard `i < count` of `m3log_parse_tags` never drops a token. -/
theorem m3log_parse_tags_eq (s : CStr) :
    m3log_parse_tags s = if s = [] then { tags := none } else { tags := some (strtok_all s []) } := by
  unfold m3log_parse_tags
  split
  · rfl
  · have := strtok_all_length_le s [] false 1 (by simp)
    simp only []
    rw [List.take_of_length_le (by omega)]

/-! ## Lemmas on the stages of the decoder -/

theorem parse_from_level_hash (e : m3log_entry_t) (pre name rest : CStr)
    (h1 : '#' ∉ pre) (h2 : ':' ∉ name) :
    parse_from_level e (pre ++ '#' :: (name ++ ':' :: rest)) =
      (M3LOG_SUCCESS, some { e with level := m3log_string_to_level (some (m3log_trim name)),
                                    content := some (m3log_trim rest) }) := by
  have h3 : strchr ('#' :: (name ++ ':' :: rest)) ':' = some (':' :: rest) := by
    have := strchr_append ('#' :: name) rest ':' (by simp [h2])
    simpa using this
  simp only [parse_from_level, strchr_append pre _ '#' h1, h3, List.tail_cons, nul_at_append]

theorem parse_from_level_unterminated (e : m3log_entry_t) (pre q : CStr)
    (h1 : '#' ∉ pre) (h2 : ':' ∉ q) :
    parse_from_level e (pre ++ '#' :: q) =
      (M3LOG_ERROR_INVALID_FORMAT, some { e with tags := { tags := none } }) := by
  have h3 : strchr ('#' :: q) ':' = none := by
    rw [strchr_eq_none_iff]
    simp [h2]
  simp only [parse_from_level, strchr_append pre _ '#' h1, h3, m3log_free_tags]

theorem parse_from_level_colon (e : m3log_entry_t) (pre rest : CStr)
    (h1 : '#' ∉ pre ++ ':' :: rest) (h2 : ':' ∉ pre) :
    parse_from_level e (pre ++ ':' :: rest) =
      (M3LOG_SUCCESS, some { e with level := M3LOG_LEVEL_UNKNOWN,
                                    content := some (m3log_trim rest) }) := by
  have h3 := (strchr_eq_none_iff (pre ++ ':' :: rest) '#').2 h1
  simp only [parse_from_level, h3, strchr_append pre _ ':' h2, List.tail_cons]

theorem parse_from_level_plain (e : m3log_entry_t) (s : CStr)
    (h1 : '#' ∉ s) (h2 : ':' ∉ s) :
    parse_from_level e s =
      (M3LOG_SUCCESS, some { e with level := M3LOG_LEVEL_UNKNOWN,
                                    content := some (m3log_trim s) }) := by
  have h3 := (strchr_eq_none_iff s '#').2 h1
  have h4 := (strchr_eq_none_iff s ':').2 h2
  simp only [parse_from_level, h3, h4]

theorem parse_from_tags_bracket (e : m3log_entry_t) (pre inner rest : CStr)
    (h1 : '[' ∉ pre) (h2 : ']' ∉ inner) :
    parse_from_tags e (pre ++ '[' :: (inner ++ ']' :: rest)) =
      parse_from_level { e with tags := m3log_parse_tags inner } rest := by
  have h3 : strchr ('[' :: (inner ++ ']' :: rest)) ']' = some (']' :: rest) := by
    have := strchr_append ('[' :: inner) rest ']' (by simp [h2])
    simpa using this
  simp only [parse_from_tags, strchr_append pre _ '[' h1, h3, List.tail_cons, nul_at_append]

theorem parse_from_tags_unterminated (e : m3log_entry_t) (pre q : CStr)
    (h1 : '[' ∉ pre) (h2 : ']' ∉ q) :
    parse_from_tags e (pre ++ '[' :: q) = (M3LOG_ERROR_INVALID_FORMAT, some e) := by
  have h3 : strchr ('[' :: q) ']' = none := by
    rw [strchr_eq_none_iff]
    simp [h2]
  simp only [parse_from_tags, strchr_append pre _ '[' h1, h3]

theorem parse_from_tags_none (e : m3log_entry_t) (s : CStr) (h1 : '[' ∉ s) :
    parse_from_tags e s = parse_from_level { e with tags := { tags := none } } s := by
  have h3 := (strchr_eq_none_iff s '[').2 h1
  simp only [parse_from_tags, h3]

theorem m3log_parse_at (ts r1 : CStr) (e0 : m3log_entry_t) (h : ' ' ∉ ts) :
    m3log_parse (some ('@' :: (ts ++ ' ' :: r1))) (some e0) =
      parse_from_tags { entry_zero with time := some ts } r1 := by
  simp only [m3log_parse_stages, List.head?_cons, List.tail_cons, if_true,
    strchr_append ts r1 ' ' h, nul_at_append]

theorem m3log_parse_at_unterminated (rest : CStr) (e0 : m3log_entry_t) (h : ' ' ∉ rest) :
    m3log_parse (some ('@' :: rest)) (some e0) =
      (M3LOG_ERROR_INVALID_FORMAT, some entry_zero) := by
  have h3 := (strchr_eq_none_iff rest ' ').2 h
  simp only [m3log_parse_stages, List.head?_cons, List.tail_cons, if_true, h3]

theorem m3log_parse_no_at (line : CStr) (e0 : m3log_entry_t) (h : line.head? ≠ some '@') :
    m3log_parse (some line) (some e0) = parse_from_tags entry_zero line := by
  simp only [m3log_parse_stages, h, if_false]
  rfl

theorem join_tags_no_bracket (tags : List CStr) (h : ∀ t ∈ tags, GoodTag t) :
    ']' ∉ join_tags tags := by
  induction tags with
  | nil => simp [join_tags]
  | cons t rest ih =>
    have ht : ']' ∉ t := fun hm => ((h t (by simp)).2 _ hm).2 rfl
    cases rest with
    | nil => simpa [join_tags] using ht
    | cons t' rest' =>
      have := ih (fun u hu => h u (by simp [hu]))
      simp only [join_tags, List.mem_append, List.mem_cons, not_or]
      exact ⟨ht, by decide, this⟩

theorem m3log_parse_tags_join (tags : List CStr) (h : ∀ t ∈ tags, GoodTag t) :
    (m3log_parse_tags (join_tags tags)).toList = tags := by
  rw [m3log_parse_tags_eq]
  have hs := strtok_all_join tags (fun t ht => ⟨(h t ht).1, fun ch hc => ((h t ht).2 ch hc).1⟩)
  split
  · rename_i h0
    rw [h0] at hs
    simpa [m3log_tags_t.toList, strtok_all] using hs
  · simpa [m3log_tags_t.toList] using hs

theorem level_name_facts (L : m3log_level_t) (hL : L ≠ M3LOG_LEVEL_UNKNOWN) :
    ':' ∉ m3log_level_to_string L ∧
    m3log_string_to_level (some (m3log_trim (m3log_level_to_string L))) = L := by
  cases L <;> first | exact absurd rfl hL | decide

theorem parse_line_named (ts : CStr) (tags : List CStr) (L : m3log_level_t) (c : CStr)
    (e0 : m3log_entry_t) (hts : ' ' ∉ ts) (htags : ∀ t ∈ tags, GoodTag t)
    (hL : L ≠ M3LOG_LEVEL_UNKNOWN) (hc : Trimmed c) :
    ∃ e, m3log_parse
        (some ('@' :: (ts ++ ' ' :: ([] ++ '[' :: (join_tags tags ++ ']' ::
          ([' '] ++ '#' :: (m3log_level_to_string L ++ ':' :: (' ' :: c))))))))
        (some e0) = (M3LOG_SUCCESS, some e) ∧
      e.time = some ts ∧ e.tags.toList = tags ∧ e.level = L ∧ e.content = some c := by
  obtain ⟨hn1, hn2⟩ := level_name_facts L hL
  rw [m3log_parse_at _ _ _ hts,
    parse_from_tags_bracket _ [] _ _ (by simp) (join_tags_no_bracket tags htags),
    parse_from_level_hash _ [' '] _ _ (by decide) hn1]
  refine ⟨_, rfl, rfl, ?_, ?_, ?_⟩
  · exact m3log_parse_tags_join tags htags
  · exact hn2
  · simp only [m3log_trim_cons_space ' ' c (by decide), m3log_trim_of_Trimmed c hc]

theorem parse_line_unknown (ts : CStr) (tags : List CStr) (c : CStr)
    (e0 : m3log_entry_t) (hts : ' ' ∉ ts) (htags : ∀ t ∈ tags, GoodTag t)
    (hc : Trimmed c) (hh : '#' ∉ c) :
    ∃ e, m3log_parse
        (some ('@' :: (ts ++ ' ' :: ([] ++ '[' :: (join_tags tags ++ ']' ::
          ([' '] ++ ':' :: (' ' :: c)))))))
        (some e0) = (M3LOG_SUCCESS, some e) ∧
      e.time = some ts ∧ e.tags.toList = tags ∧ e.level = M3LOG_LEVEL_UNKNOWN ∧
      e.content = some c := by
  rw [m3log_parse_at _ _ _ hts,
    parse_from_tags_bracket _ [] _ _ (by simp) (join_tags_no_bracket tags htags),
    parse_from_level_colon _ [' '] _ (by simp [hh]) (by decide)]
  refine ⟨_, rfl, rfl, ?_, rfl, ?_⟩
  · exact m3log_parse_tags_join tags htags
  · simp only [m3log_trim_cons_space ' ' c (by decide), m3log_trim_of_Trimmed c hc]

/-! ## Theorems: the decoder -/

/-- C1: a line of the canonical shape `@ts [t1 .. tn] #N: c` (no space in `ts`, every tag
non-empty and free of whitespace and `]`, `N` one of the five level names, `c` without
leading or trailing whitespace) decodes successfully to exactly `ts`, the tags in order, the
level named `N` and `c`. -/
theorem m3log_parse_canonical (ts : CStr) (tags : List CStr) (L : m3log_level_t) (c : CStr)
    (e0 : m3log_entry_t) (hts : ' ' ∉ ts) (htags : ∀ t ∈ tags, GoodTag t)
    (hL : L ≠ M3LOG_LEVEL_UNKNOWN) (hc : Trimmed c) :
    ∃ e, m3log_parse
        (some (['@'] ++ ts ++ [' ', '['] ++ join_tags tags ++ [']', ' ', '#'] ++
          m3log_level_to_string L ++ [':', ' '] ++ c)) (some e0) = (M3LOG_SUCCESS, some e) ∧
      e.time = some ts ∧ e.tags.toList = tags ∧ e.level = L ∧ e.content = some c := by
  have hline : ['@'] ++ ts ++ [' ', '['] ++ join_tags tags ++ [']', ' ', '#'] ++
      m3log_level_to_string L ++ [':', ' '] ++ c =
      '@' :: (ts ++ ' ' :: ([] ++ '[' :: (join_tags tags ++ ']' ::
        ([' '] ++ '#' :: (m3log_level_to_string L ++ ':' :: (' ' :: c)))))) := by
    simp
  rw [hline]
  exact parse_line_named ts tags L c e0 hts htags hL hc

/-- C1, witness: the line `@2024-01-01T00:00:00Z [alpha beta] #ERROR: disk full`. -/
theorem m3log_parse_canonical_witness :
    ∃ e, m3log_parse (some "@2024-01-01T00:00:00Z [alpha beta] #ERROR: disk full".toList)
        (some entry_zero) = (M3LOG_SUCCESS, some e) ∧
      e.time = some "2024-01-01T00:00:00Z".toList ∧
      e.tags.toList = ["alpha".toList, "beta".toList] ∧
      e.level = M3LOG_LEVEL_ERROR ∧ e.content = some "disk full".toList :=
  m3log_parse_canonical "2024-01-01T00:00:00Z".toList ["alpha".toList, "beta".toList]
    M3LOG_LEVEL_ERROR "disk full".toList entry_zero (by decide) (by decide) (by decide)
    (by decide)

/-! ### Reference trimming -/

theorem reverse_dropWhile_cons (p : Char → Bool) (c : Char) (rest : CStr) :
    ((c :: rest).reverse.dropWhile p).reverse =
      if (rest.reverse.dropWhile p).reverse = [] then (if p c then [] else [c])
      else c :: (rest.reverse.dropWhile p).reverse := by
  induction rest using List.reverseRecOn with
  | nil => by_cases h : p c = true <;> simp [List.dropWhile, h]
  | append_singleton r x ih =>
    by_cases hx : p x = true
    · have e1 : ((c :: (r ++ [x])).reverse.dropWhile p) = ((c :: r).reverse.dropWhile p) := by
        simp [List.dropWhile, hx]
      have e2 : ((r ++ [x]).reverse.dropWhile p) = (r.reverse.dropWhile p) := by
        simp [List.dropWhile, hx]
      rw [e1, e2, ih]
    · have e1 : ((c :: (r ++ [x])).reverse.dropWhile p) = x :: (r.reverse ++ [c]) := by
        simp [List.dropWhile, hx]
      have e2 : ((r ++ [x]).reverse.dropWhile p) = x :: r.reverse := by
        simp [List.dropWhile, hx]
      rw [e1, e2]
      simp

theorem trim_tail_cons_if (c : Char) (rest : CStr) :
    trim_tail (c :: rest) =
      if trim_tail rest = [] then (if isspace c then [] else [c]) else c :: trim_tail rest := by
  rw [trim_tail_cons]
  cases trim_tail rest <;> simp

theorem trim_tail_eq (r : CStr) : trim_tail r = (r.reverse.dropWhile isspace).reverse := by
  induction r with
  | nil => rfl
  | cons c rest ih => rw [trim_tail_cons_if, reverse_dropWhile_cons, ih]

/-- The in-place `m3log_trim` computes the reference trimming. -/
theorem m3log_trim_eq_spec (s : CStr) : m3log_trim s = trim_spec s := by
  unfold m3log_trim trim_spec
  have hd := List.head?_dropWhile_not isspace s
  cases h : s.dropWhile isspace with
  | nil => rfl
  | cons c rest =>
    rw [h] at hd
    simp only [List.head?_cons] at hd
    rw [reverse_dropWhile_cons, ← trim_tail_eq]
    by_cases ht : trim_tail rest = []
    · simp [ht, hd]
    · simp [ht]

/-! ### Splitting at the first occurrence -/

theorem exists_first_split (c : Char) (s : CStr) (h : c ∈ s) :
    ∃ p q, s = p ++ c :: q ∧ c ∉ p := by
  cases hs : strchr s c with
  | none => exact absurd h ((strchr_eq_none_iff s c).1 hs)
  | some r =>
    obtain ⟨p, q, h1, h2, _⟩ := strchr_eq_some s r c hs
    exact ⟨p, q, h1, h2⟩

theorem text_after_split (c : Char) (p q : CStr) (h : c ∉ p) :
    text_after c (p ++ c :: q) = q := by
  induction p with
  | nil => simp [text_after, List.dropWhile]
  | cons x xs ih =>
    have hx : x ≠ c := fun e => h (by simp [e])
    have := ih (fun e => h (by simp [e]))
    unfold text_after at this ⊢
    rw [List.cons_append, List.dropWhile_cons_of_pos (by simpa using hx)]
    exact this

/-! ## Theorems: the decoder, continued -/

/-- C3: a line with none of `@`, `[`, `#` decodes successfully with no timestamp, no tags,
level UNKNOWN, and as content the trimmed whole line when it has no `:`, the trimmed text
after its first `:` otherwise. -/
theorem m3log_parse_plain (line : CStr) (e0 : m3log_entry_t)
    (h1 : '@' ∉ line) (h2 : '[' ∉ line) (h3 : '#' ∉ line) :
    m3log_parse (some line) (some e0) =
      (M3LOG_SUCCESS, some { time := none, tags := { tags := none },
                             level := M3LOG_LEVEL_UNKNOWN,
                             content := some (trim_spec
                               (if ':' ∈ line then text_after ':' line else line)) }) := by
  have hh : line.head? ≠ some '@' := by
    intro hc
    exact h1 (List.mem_of_mem_head? hc)
  rw [m3log_parse_no_at line e0 hh, parse_from_tags_none _ _ h2]
  by_cases hc : ':' ∈ line
  · obtain ⟨p, q, hpq, hp⟩ := exists_first_split ':' line hc
    rw [if_pos hc]
    subst hpq
    rw [parse_from_level_colon _ p q h3 hp, text_after_split ':' p q hp, m3log_trim_eq_spec]
    rfl
  · rw [if_neg hc, parse_from_level_plain _ _ h3 hc, m3log_trim_eq_spec]
    rfl

/-- C3, witness: the line `  label: hello world ` decodes to content `hello world`. -/
theorem m3log_parse_plain_witness :
    m3log_parse (some "  label: hello world ".toList) (some entry_zero) =
      (M3LOG_SUCCESS, some { time := none, tags := { tags := none },
                             level := M3LOG_LEVEL_UNKNOWN,
                             content := some "hello world".toList }) :=
  m3log_parse_plain "  label: hello world ".toList entry_zero (by decide) (by decide)
    (by decide)

/-! ### Outcome of the stages -/

theorem parse_from_level_code (e : m3log_entry_t) (r2 : CStr) :
    ((parse_from_level e r2).1 = M3LOG_SUCCESS ∧
        ¬('#' ∈ r2 ∧ ':' ∉ text_after '#' r2)) ∨
    ((parse_from_level e r2).1 = M3LOG_ERROR_INVALID_FORMAT ∧
        ('#' ∈ r2 ∧ ':' ∉ text_after '#' r2)) := by
  by_cases hh : '#' ∈ r2
  · obtain ⟨p, q, hpq, hp⟩ := exists_first_split '#' r2 hh
    subst hpq
    rw [text_after_split '#' p q hp]
    by_cases hc : ':' ∈ q
    · obtain ⟨name, rest, hq, hname⟩ := exists_first_split ':' q hc
      subst hq
      rw [parse_from_level_hash e p name rest hp hname]
      exact Or.inl ⟨rfl, fun h => h.2 hc⟩
    · rw [parse_from_level_unterminated e p q hp hc]
      exact Or.inr ⟨rfl, hh, hc⟩
  · left
    refine ⟨?_, fun h => hh h.1⟩
    by_cases hc : ':' ∈ r2
    · obtain ⟨p, q, hpq, hp⟩ := exists_first_split ':' r2 hc
      subst hpq
      rw [parse_from_level_colon e p q hh hp]
    · rw [parse_from_level_plain e r2 hh hc]

theorem parse_from_tags_code (e : m3log_entry_t) (r1 : CStr) :
    ((parse_from_tags e r1).1 = M3LOG_SUCCESS ∧
        ¬('[' ∈ r1 ∧ ']' ∉ text_after '[' r1) ∧
        ¬('#' ∈ decode_R2 r1 ∧ ':' ∉ text_after '#' (decode_R2 r1))) ∨
    ((parse_from_tags e r1).1 = M3LOG_ERROR_INVALID_FORMAT ∧
        (('[' ∈ r1 ∧ ']' ∉ text_after '[' r1) ∨
         ('#' ∈ decode_R2 r1 ∧ ':' ∉ text_after '#' (decode_R2 r1)))) := by
  by_cases hb : '[' ∈ r1
  · obtain ⟨p, q, hpq, hp⟩ := exists_first_split '[' r1 hb
    subst hpq
    have hR2 : decode_R2 (p ++ '[' :: q) = text_after ']' q := by
      rw [decode_R2, if_pos hb, text_after_split '[' p q hp]
    rw [hR2, text_after_split '[' p q hp]
    by_cases hc : ']' ∈ q
    · obtain ⟨inner, rest, hq, hinner⟩ := exists_first_split ']' q hc
      subst hq
      rw [parse_from_tags_bracket e p inner rest hp hinner, text_after_split ']' inner rest hinner]
      rcases parse_from_level_code { e with tags := m3log_parse_tags inner } rest with h | h
      · exact Or.inl ⟨h.1, fun hh => hh.2 hc, h.2⟩
      · exact Or.inr ⟨h.1, Or.inr h.2⟩
    · rw [parse_from_tags_unterminated e p q hp hc]
      exact Or.inr ⟨rfl, Or.inl ⟨hb, hc⟩⟩
  · have hR2 : decode_R2 r1 = r1 := by rw [decode_R2, if_neg hb]
    rw [hR2, parse_from_tags_none e r1 hb]
    rcases parse_from_level_code { e with tags := { tags := none } } r1 with h | h
    · exact Or.inl ⟨h.1, fun hh => hb hh.1, h.2⟩
    · exact Or.inr ⟨h.1, Or.inr h.2⟩

theorem head_at_cases (line : CStr) (h : line.head? = some '@') :
    (∃ rest, line = '@' :: rest ∧ ' ' ∉ rest) ∨
    (∃ ts r1, line = '@' :: (ts ++ ' ' :: r1) ∧ ' ' ∉ ts) := by
  cases line with
  | nil => simp at h
  | cons x rest =>
    simp only [List.head?_cons, Option.some.injEq] at h
    subst h
    by_cases hs : ' ' ∈ rest
    · obtain ⟨ts, r1, h1, h2⟩ := exists_first_split ' ' rest hs
      exact Or.inr ⟨ts, r1, by rw [h1], h2⟩
    · exact Or.inl ⟨rest, rfl, hs⟩

theorem text_after_at (ts r1 : CStr) (h : ' ' ∉ ts) :
    text_after ' ' ('@' :: (ts ++ ' ' :: r1)) = r1 := by
  have := text_after_split ' ' ('@' :: ts) r1 (by simp [h])
  simpa using this

/-- C4: with a non-null line and entry, `m3log_parse` returns M3LOG_SUCCESS or
M3LOG_ERROR_INVALID_FORMAT, and the latter exactly when (a) the line starts with `@` and has
no space, or (b) `R1` has a `[` with no `]` after its first `[`, or (c) `R2` has a `#` with no
`:` after its first `#`; the colons inside a timestamp do not terminate a level name. -/
theorem m3log_parse_invalid_format_iff (line : CStr) (e0 : m3log_entry_t) :
    ((m3log_parse (some line) (some e0)).1 = M3LOG_SUCCESS ∨
      (m3log_parse (some line) (some e0)).1 = M3LOG_ERROR_INVALID_FORMAT) ∧
    ((m3log_parse (some line) (some e0)).1 = M3LOG_ERROR_INVALID_FORMAT ↔
      CondA line ∨ CondB line ∨ CondC line) ∧
    (m3log_parse (some "@2024-01-01T00:00:00Z [alpha beta] #ERROR disk full".toList)
      (some e0)).1 = M3LOG_ERROR_INVALID_FORMAT := by
  refine ⟨?_, ?_, by rw [m3log_parse_stages]; decide⟩
  · by_cases hh : line.head? = some '@'
    · rcases head_at_cases line hh with ⟨rest, h1, h2⟩ | ⟨ts, r1, h1, h2⟩
      · subst h1
        rw [m3log_parse_at_unterminated rest e0 h2]
        exact Or.inr rfl
      · subst h1
        rw [m3log_parse_at ts r1 e0 h2]
        rcases parse_from_tags_code { entry_zero with time := some ts } r1 with h | h
        · exact Or.inl h.1
        · exact Or.inr h.1
    · rw [m3log_parse_no_at line e0 hh]
      rcases parse_from_tags_code entry_zero line with h | h
      · exact Or.inl h.1
      · exact Or.inr h.1
  · unfold CondA CondB CondC
    by_cases hh : line.head? = some '@'
    · rcases head_at_cases line hh with ⟨rest, h1, h2⟩ | ⟨ts, r1, h1, h2⟩
      · subst h1
        rw [m3log_parse_at_unterminated rest e0 h2]
        have : ' ' ∉ '@' :: rest := by simp [h2]
        simp [this]
      · subst h1
        have hR1 : decode_R1 ('@' :: (ts ++ ' ' :: r1)) = r1 := by
          rw [decode_R1, if_pos hh, text_after_at ts r1 h2]
        have hsp : ' ' ∈ '@' :: (ts ++ ' ' :: r1) := by simp
        rw [m3log_parse_at ts r1 e0 h2, hR1]
        rcases parse_from_tags_code { entry_zero with time := some ts } r1 with h | h
        · rw [h.1]
          simp [hsp, h.2.1, h.2.2]
        · rw [h.1]
          simp only [true_iff]
          rcases h.2 with hb | hc
          · exact Or.inr (Or.inl hb)
          · exact Or.inr (Or.inr hc)
    · have hR1 : decode_R1 line = line := by rw [decode_R1, if_neg hh]
      rw [m3log_parse_no_at line e0 hh, hR1]
      rcases parse_from_tags_code entry_zero line with h | h
      · rw [h.1]
        simp [hh, h.2.1, h.2.2]
      · rw [h.1]
        simp only [true_iff]
        rcases h.2 with hb | hc
        · exact Or.inr (Or.inl hb)
        · exact Or.inr (Or.inr hc)

/-! ### The record handed to a stage only supplies the fields already built -/

theorem parse_from_level_shape (s : CStr) :
    ∃ r : Option (m3log_level_t × CStr), ∀ e : m3log_entry_t,
      parse_from_level e s =
        match r with
        | some (l, c) => (M3LOG_SUCCESS, some { e with level := l, content := some c })
        | none => (M3LOG_ERROR_INVALID_FORMAT, some { e with tags := { tags := none } }) := by
  by_cases hh : '#' ∈ s
  · obtain ⟨p, q, hpq, hp⟩ := exists_first_split '#' s hh
    subst hpq
    by_cases hc : ':' ∈ q
    · obtain ⟨name, rest, hq, hname⟩ := exists_first_split ':' q hc
      subst hq
      exact ⟨some (_, _), fun e => parse_from_level_hash e p name rest hp hname⟩
    · exact ⟨none, fun e => parse_from_level_unterminated e p q hp hc⟩
  · by_cases hc : ':' ∈ s
    · obtain ⟨p, q, hpq, hp⟩ := exists_first_split ':' s hc
      subst hpq
      exact ⟨some (_, _), fun e => parse_from_level_colon e p q hh hp⟩
    · exact ⟨some (_, _), fun e => parse_from_level_plain e s hh hc⟩

theorem parse_from_tags_shape (s : CStr) :
    ∃ r : Option (m3log_tags_t × m3log_level_t × CStr), ∀ e : m3log_entry_t,
      match r with
      | some (t, l, c) =>
        parse_from_tags e s =
          (M3LOG_SUCCESS, some { time := e.time, tags := t, level := l, content := some c })
      | none => (parse_from_tags e s).1 = M3LOG_ERROR_INVALID_FORMAT := by
  by_cases hb : '[' ∈ s
  · obtain ⟨p, q, hpq, hp⟩ := exists_first_split '[' s hb
    subst hpq
    by_cases hc : ']' ∈ q
    · obtain ⟨inner, rest, hq, hinner⟩ := exists_first_split ']' q hc
      subst hq
      obtain ⟨r, hr⟩ := parse_from_level_shape rest
      cases r with
      | none =>
        refine ⟨none, fun e => ?_⟩
        show (parse_from_tags e _).1 = _
        rw [parse_from_tags_bracket e p inner rest hp hinner, hr]
      | some lc =>
        refine ⟨some (m3log_parse_tags inner, lc.1, lc.2), fun e => ?_⟩
        show parse_from_tags e _ = _
        rw [parse_from_tags_bracket e p inner rest hp hinner, hr]
    · refine ⟨none, fun e => ?_⟩
      show (parse_from_tags e _).1 = _
      rw [parse_from_tags_unterminated e p q hp hc]
  · obtain ⟨r, hr⟩ := parse_from_level_shape s
    cases r with
    | none =>
      refine ⟨none, fun e => ?_⟩
      show (parse_from_tags e _).1 = _
      rw [parse_from_tags_none e s hb, hr]
    | some lc =>
      refine ⟨some ({ tags := none }, lc.1, lc.2), fun e => ?_⟩
      show parse_from_tags e _ = _
      rw [parse_from_tags_none e s hb, hr]

/-- When a stage succeeds from one record it succeeds from any other, with the same tags,
level and content and with the timestamp of the record it was given. -/
theorem parse_from_tags_indep (s : CStr) (e1 e2 x : m3log_entry_t)
    (h : parse_from_tags e1 s = (M3LOG_SUCCESS, some x)) :
    x.time = e1.time ∧
    ∃ y, parse_from_tags e2 s = (M3LOG_SUCCESS, some y) ∧ y.time = e2.time ∧
      y.tags = x.tags ∧ y.level = x.level ∧ y.content = x.content := by
  obtain ⟨r, hr⟩ := parse_from_tags_shape s
  cases r with
  | none =>
    have := hr e1
    simp only [h] at this
    exact absurd this (by decide)
  | some tlc =>
    have h1 := hr e1
    have h2 := hr e2
    simp only at h1 h2
    rw [h1] at h
    simp only [Prod.mk.injEq, Option.some.injEq, true_and] at h
    subst h
    exact ⟨rfl, _, h2, rfl, rfl, rfl, rfl⟩

theorem takeWhile_ne_append (c : Char) (p q : CStr) (h : c ∉ p) :
    (p ++ c :: q).takeWhile (fun x => x != c) = p := by
  induction p with
  | nil => simp [List.takeWhile]
  | cons x xs ih =>
    have hx : x ≠ c := fun e => h (by simp [e])
    rw [List.cons_append, List.takeWhile_cons_of_pos (by simpa using hx),
      ih (fun e => h (by simp [e]))]

/-- C5: on success, a line that does not start with `@` has no timestamp (wherever else `@`
occurs); a line that starts with `@` has as timestamp the text strictly between that `@` and
the first space, and its tags, level and content are determined by the text after that first
space alone: any other `@`-line with the same remainder gives the same three fields, and so
does the remainder decoded on its own when it does not itself start with `@`. -/
theorem m3log_parse_time (line : CStr) (e0 e : m3log_entry_t)
    (h : m3log_parse (some line) (some e0) = (M3LOG_SUCCESS, some e)) :
    (line.head? ≠ some '@' → e.time = none) ∧
    (line.head? = some '@' →
      e.time = some ((line.drop 1).takeWhile (fun x => x != ' ')) ∧
      (∀ (line2 : CStr) (e2 : m3log_entry_t), line2.head? = some '@' → ' ' ∈ line2 →
        text_after ' ' line2 = text_after ' ' line →
        ∃ y, m3log_parse (some line2) (some e2) = (M3LOG_SUCCESS, some y) ∧
          y.tags = e.tags ∧ y.level = e.level ∧ y.content = e.content) ∧
      ((text_after ' ' line).head? ≠ some '@' →
        ∃ y, m3log_parse (some (text_after ' ' line)) (some e0) = (M3LOG_SUCCESS, some y) ∧
          y.time = none ∧ y.tags = e.tags ∧ y.level = e.level ∧ y.content = e.content)) := by
  constructor
  · intro hh
    rw [m3log_parse_no_at line e0 hh] at h
    exact (parse_from_tags_indep line entry_zero entry_zero e h).1
  · intro hh
    rcases head_at_cases line hh with ⟨rest, h1, h2⟩ | ⟨ts, r1, h1, h2⟩
    · subst h1
      rw [m3log_parse_at_unterminated rest e0 h2] at h
      simp at h
    · subst h1
      rw [m3log_parse_at ts r1 e0 h2] at h
      rw [text_after_at ts r1 h2]
      refine ⟨?_, ?_, ?_⟩
      · rw [(parse_from_tags_indep r1 _ entry_zero e h).1]
        simp only [List.drop_succ_cons, List.drop_zero, takeWhile_ne_append ' ' ts r1 h2]
      · intro line2 e2 hh2 hsp heq
        rcases head_at_cases line2 hh2 with ⟨rest, h1, h2'⟩ | ⟨ts2, r2, h1, h2'⟩
        · subst h1
          exact absurd hsp (by simp [h2'])
        · subst h1
          rw [text_after_at ts2 r2 h2'] at heq
          subst heq
          rw [m3log_parse_at ts2 r2 e2 h2']
          obtain ⟨y, hy, _, hy2⟩ :=
            (parse_from_tags_indep r2 _ { entry_zero with time := some ts2 } e h).2
          exact ⟨y, hy, hy2⟩
      · intro hh1
        rw [m3log_parse_no_at r1 e0 hh1]
        obtain ⟨y, hy, hy1, hy2⟩ := (parse_from_tags_indep r1 _ entry_zero e h).2
        exact ⟨y, hy, hy1, hy2⟩

/-- C5, witness: `[x] #INFO: hi` decodes successfully and has no timestamp. -/
theorem m3log_parse_time_witness :
    m3log_parse (some "[x] #INFO: hi".toList) (some entry_zero) =
      (M3LOG_SUCCESS, some { time := none, tags := { tags := some ["x".toList] },
                             level := M3LOG_LEVEL_INFO, content := some "hi".toList }) ∧
    (⟨none, ⟨some ["x".toList]⟩, M3LOG_LEVEL_INFO, some "hi".toList⟩ : m3log_entry_t).time
      = none :=
  ⟨by decide,
   (m3log_parse_time "[x] #INFO: hi".toList entry_zero
      { time := none, tags := { tags := some ["x".toList] },
        level := M3LOG_LEVEL_INFO, content := some "hi".toList } (by decide)).1 (by decide)⟩

/-! ## Lemmas on the encoder -/

theorem int_cast_le (n : Nat) : int_cast n ≤ (n : Int) := by
  unfold int_cast
  have := Nat.mod_le (n + 2 ^ 31) (2 ^ 32)
  omega

theorem int_cast_of_le (n : Nat) (h : n ≤ INT_MAX) : int_cast n = (n : Int) := by
  unfold int_cast
  unfold INT_MAX at h
  have : (n + 2 ^ 31) % 2 ^ 32 = n + 2 ^ 31 := Nat.mod_eq_of_lt (by omega)
  omega

theorem size_sub_eq (size w : Nat) (h1 : size < 2 ^ 64) (h2 : w ≤ size) :
    size_sub size (w : Int) = size - w := by
  unfold size_sub
  have e1 : ((size : Int) - (w : Int)) = ((size - w : Nat) : Int) := by omega
  have e2 : (((size - w : Nat) : Int) % 2 ^ 64) = ((size - w : Nat) : Int) :=
    Int.emod_eq_of_lt (by omega) (by omega)
  rw [e1, e2]
  simp

theorem append_field_written (size : Nat) (st : List Char × Int) (s : CStr) :
    (append_field size st s).2 = st.2 + (s.length : Int) := by
  unfold append_field snprintf
  split <;> rfl

theorem append_field_lt (size : Nat) (buf : List Char) (p s : CStr)
    (hsize : size < 2 ^ 64) (hlen : buf.length = size) (hp : p.length < size)
    (htake : buf.take p.length = p) :
    Inv size (append_field size (buf, (p.length : Int)) s) (p ++ s) := by
  have hw : size_sub size (p.length : Int) = size - p.length :=
    size_sub_eq size p.length hsize (by omega)
  have hne : size - p.length ≠ 0 := by omega
  have hm : (s.take (size - p.length - 1)).length = min (size - p.length - 1) s.length :=
    List.length_take _ _
  have hbuf : (append_field size (buf, (p.length : Int)) s).1 =
      p ++ (s.take (size - p.length - 1) ++
        '\x00' :: buf.drop (p.length + ((s.take (size - p.length - 1)).length + 1))) := by
    simp only [append_field, snprintf, hw, hne, if_false, store, Int.toNat_ofNat, htake,
      List.length_append, List.length_singleton, List.append_assoc, List.singleton_append]
  have hidx : min (p ++ s).length (size - 1) =
      p.length + (s.take (size - p.length - 1)).length := by
    rw [hm, List.length_append]
    omega
  have htk : s.take (s.take (size - p.length - 1)).length = s.take (size - p.length - 1) := by
    rw [hm]
    rcases Nat.le_total (size - p.length - 1) s.length with h | h
    · rw [Nat.min_eq_left h]
    · rw [Nat.min_eq_right h, List.take_of_length_le h, List.take_of_length_le (le_refl _)]
  refine ⟨?_, ?_, ?_, ?_⟩
  · rw [append_field_written]
    simp
  · rw [hbuf]
    simp only [List.length_append, List.length_cons, List.length_drop, hm]
    omega
  · rw [hidx, hbuf, List.take_append, List.take_append, List.take_left' rfl, htk]
  · rw [hidx, hbuf, List.getElem?_append_right (by omega), Nat.add_sub_cancel_left,
      List.getElem?_append_right (le_refl _), Nat.sub_self]
    exact List.getElem?_cons_zero

theorem append_field_first (size : Nat) (buf : List Char) (s : CStr)
    (hsize : size < 2 ^ 64) (hlen : buf.length = size) (hpos : 0 < size) :
    Inv size (append_field size (buf, 0) s) s := by
  have := append_field_lt size buf [] s hsize hlen (by simpa using hpos) (by simp)
  simpa using this

theorem append_field_inv (size : Nat) (st : List Char × Int) (p s : CStr)
    (hsize : size < 2 ^ 64) (hpos : 0 < size) (h : Inv size st p) (hp : p.length ≤ size) :
    Inv size (append_field size st s) (p ++ s) := by
  obtain ⟨h1, h2, h3, h4⟩ := h
  rcases Nat.lt_or_ge p.length size with hlt | hge
  · have hmin : min p.length (size - 1) = p.length := by omega
    rw [hmin, List.take_of_length_le (le_refl _)] at h3
    have := append_field_lt size st.1 p s hsize h2 hlt h3
    rw [← h1] at this
    exact this
  · have heq : p.length = size := by omega
    have hw : size_sub size st.2 = 0 := by
      rw [h1, size_sub_eq size p.length hsize hp]
      omega
    have hst : append_field size st s = (st.1, st.2 + (s.length : Int)) := by
      simp [append_field, snprintf, hw]
    have hmin : min p.length (size - 1) = size - 1 := by omega
    have hmin2 : min (p ++ s).length (size - 1) = size - 1 := by
      rw [List.length_append]
      omega
    rw [hmin] at h3 h4
    rw [hst]
    refine ⟨?_, h2, ?_, ?_⟩
    · simp [h1]
    · rw [hmin2, h3, List.take_append_of_le_length (by omega)]
    · rw [hmin2]
      exact h4

theorem post_fail (size : Nat) (st : List Char × Int) (p t : CStr)
    (h : Inv size st p) (hk : int_cast size ≤ (p.length : Int)) :
    FormatPost size (p ++ t) (-(M3LOG_ERROR_BUFFER_TOO_SMALL.toInt), some st.1) := by
  obtain ⟨_, h2, h3, h4⟩ := h
  refine ⟨st.1, rfl, h2, ?_, ?_⟩
  · intro hlt
    rw [List.length_append] at hlt
    omega
  · intro _
    refine ⟨rfl, fun heq => ?_⟩
    have hmin : min p.length (size - 1) = size - 1 := by omega
    rw [hmin] at h3 h4
    exact ⟨by rw [h3, List.take_append_of_le_length (by omega)], h4⟩

theorem post_ok (size : Nat) (st : List Char × Int) (S : CStr)
    (h : Inv size st S) (hk : (S.length : Int) < int_cast size) :
    FormatPost size S (st.2, some st.1) := by
  obtain ⟨h1, h2, h3, h4⟩ := h
  have hle := int_cast_le size
  have hmin : min S.length (size - 1) = S.length := by omega
  rw [hmin] at h3 h4
  rw [List.take_of_length_le (le_refl _)] at h3
  refine ⟨st.1, rfl, h2, fun _ => ⟨h1, h3, h4⟩, fun hge => ?_⟩
  omega

theorem post_fail_store (size : Nat) (st : List Char × Int) (S : CStr) (hpos : 0 < size)
    (h : Inv size st S) (hk : int_cast size ≤ (S.length : Int)) :
    FormatPost size S
      (-(M3LOG_ERROR_BUFFER_TOO_SMALL.toInt), some (store st.1 (size - 1) ['\x00'])) := by
  obtain ⟨_, h2, h3, _⟩ := h
  have hlen : (store st.1 (size - 1) ['\x00']).length = size := by
    simp only [store, List.length_append, List.length_take, List.length_drop,
      List.length_singleton]
    omega
  have htk : (store st.1 (size - 1) ['\x00']).take (size - 1) = st.1.take (size - 1) := by
    simp only [store, List.append_assoc]
    rw [List.take_append_of_le_length (by simp [h2]), List.take_take, Nat.min_self]
  have hnul : (store st.1 (size - 1) ['\x00'])[size - 1]? = some '\x00' := by
    simp only [store, List.append_assoc]
    rw [List.getElem?_append_right (by simp [h2])]
    simp [h2]
  refine ⟨_, rfl, hlen, fun hlt => ?_, fun _ => ⟨rfl, fun heq => ?_⟩⟩
  · omega
  · have hmin : min S.length (size - 1) = size - 1 := by omega
    rw [hmin] at h3
    exact ⟨by rw [htk, h3], hnul⟩

theorem format_from_content_post (size : Nat) (entry : m3log_entry_t)
    (st : List Char × Int) (p : CStr) (hsize : size < 2 ^ 64) (hpos : 0 < size)
    (h : Inv size st p) (hp : (p.length : Int) < int_cast size) :
    FormatPost size (p ++ entry.content.getD []) (format_from_content size entry st) := by
  have hle := int_cast_le size
  have hI : Inv size
      (match entry.content with
       | some content => append_field size st content
       | none => st) (p ++ entry.content.getD []) := by
    cases entry.content with
    | none => simpa using h
    | some c => exact append_field_inv size st p c hsize hpos h (by omega)
  by_cases hc : (match entry.content with
       | some content => append_field size st content
       | none => st).2 ≥ int_cast size
  · simp only [format_from_content, hc, if_true]
    exact post_fail_store size _ _ hpos hI (by rw [← hI.1]; exact hc)
  · simp only [format_from_content, hc, if_false]
    exact post_ok size _ _ hI (by rw [← hI.1]; omega)

theorem format_from_level_post (size : Nat) (entry : m3log_entry_t)
    (st : List Char × Int) (p : CStr) (hsize : size < 2 ^ 64) (hpos : 0 < size)
    (h : Inv size st p) (hp : (p.length : Int) < int_cast size) :
    FormatPost size (p ++ (level_text entry.level ++ entry.content.getD []))
      (format_from_level size entry st) := by
  have hle := int_cast_le size
  have hst : (if entry.level ≠ M3LOG_LEVEL_UNKNOWN then
      append_field size st ('#' :: m3log_level_to_string entry.level ++ [':', ' '])
    else append_field size st [':', ' ']) = append_field size st (level_text entry.level) := by
    unfold level_text
    split <;> rfl
  have hI := append_field_inv size st p (level_text entry.level) hsize hpos h (by omega)
  by_cases hc : (append_field size st (level_text entry.level)).2 ≥ int_cast size
  · simp only [format_from_level, hst, hc, if_true]
    rw [← List.append_assoc]
    exact post_fail size _ _ _ hI (by rw [← hI.1]; exact hc)
  · simp only [format_from_level, hst, hc, if_false]
    rw [← List.append_assoc]
    exact format_from_content_post size entry _ _ hsize hpos hI (by rw [← hI.1]; omega)

theorem format_from_close_post (size : Nat) (entry : m3log_entry_t)
    (st : List Char × Int) (p : CStr) (hsize : size < 2 ^ 64) (hpos : 0 < size)
    (h : Inv size st p) (hp : p.length ≤ size) :
    FormatPost size (p ++ ([']', ' '] ++ (level_text entry.level ++ entry.content.getD [])))
      (format_from_close size entry st) := by
  have hI := append_field_inv size st p [']', ' '] hsize hpos h hp
  by_cases hc : (append_field size st [']', ' ']).2 ≥ int_cast size
  · simp only [format_from_close, hc, if_true]
    rw [← List.append_assoc]
    exact post_fail size _ _ _ hI (by rw [← hI.1]; exact hc)
  · simp only [format_from_close, hc, if_false]
    rw [← List.append_assoc]
    exact format_from_level_post size entry _ _ hsize hpos hI (by rw [← hI.1]; omega)

theorem join_tags_cons (t : CStr) (rest : List CStr) :
    join_tags (t :: rest) = (t ++ (if rest = [] then [] else [' '])) ++ join_tags rest := by
  cases rest <;> simp [join_tags]

theorem format_tags_post (size : Nat) (hsize : size < 2 ^ 64) (hpos : 0 < size)
    (tags : List CStr) (st : List Char × Int) (p tail : CStr)
    (h : Inv size st p) (hp : p.length ≤ size) :
    match format_tags size tags st with
    | Except.error b =>
      FormatPost size (p ++ (join_tags tags ++ tail))
        (-(M3LOG_ERROR_BUFFER_TOO_SMALL.toInt), some b)
    | Except.ok st2 =>
      Inv size st2 (p ++ join_tags tags) ∧ (p ++ join_tags tags).length ≤ size := by
  induction tags generalizing st p with
  | nil => simpa [format_tags, join_tags] using And.intro h hp
  | cons t rest ih =>
    have hle := int_cast_le size
    have hI := append_field_inv size st p (t ++ (if rest = [] then [] else [' ']))
      hsize hpos h hp
    rw [join_tags_cons]
    by_cases hc : (append_field size st (t ++ (if rest = [] then [] else [' ']))).2 ≥
        int_cast size
    · simp only [format_tags, hc, if_true]
      have := post_fail size _ _ (join_tags rest ++ tail) hI (by rw [← hI.1]; exact hc)
      simpa only [List.append_assoc] using this
    · simp only [format_tags, hc, if_false]
      have := ih _ _ hI (by have := hI.1; omega)
      simpa only [List.append_assoc] using this

/-- The encoder meets `FormatPost` for the full line of the record, on every buffer of
`buffer_size` bytes, `buffer_size` being a non-zero `size_t` value. -/
theorem m3log_format_post (timestamp : CStr) (entry : m3log_entry_t) (buffer : List Char)
    (size : Nat) (hsize : size < 2 ^ 64) (hpos : 0 < size) (hlen : buffer.length = size) :
    FormatPost size (format_line timestamp entry)
      (m3log_format timestamp (some entry) (some buffer) size) := by
  have hle := int_cast_le size
  have hline : format_line timestamp entry =
      ('@' :: time_text timestamp entry.time ++ [' ']) ++ (['['] ++
        (join_tags entry.tags.toList ++
          ([']', ' '] ++ (level_text entry.level ++ entry.content.getD [])))) := by
    simp [format_line]
  have h0 : size ≠ 0 := by omega
  have hI := append_field_first size buffer ('@' :: time_text timestamp entry.time ++ [' '])
    hsize hlen hpos
  rw [m3log_format_stages, if_neg h0, hline]
  by_cases hc : (append_field size (buffer, 0)
      ('@' :: time_text timestamp entry.time ++ [' '])).2 ≥ int_cast size
  · simp only [hc, if_true]
    exact post_fail size _ _ _ hI (by rw [← hI.1]; exact hc)
  · simp only [hc, if_false]
    have hI2 := append_field_inv size _ _ ['['] hsize hpos hI (by have := hI.1; omega)
    have hp2 : ('@' :: time_text timestamp entry.time ++ [' '] ++ ['[']).length ≤ size := by
      have := hI.1
      rw [List.length_append, List.length_singleton]
      omega
    have := format_tags_post size hsize hpos entry.tags.toList _ _
      ([']', ' '] ++ (level_text entry.level ++ entry.content.getD [])) hI2 hp2
    cases hft : format_tags size entry.tags.toList
        (append_field size (append_field size (buffer, 0)
          ('@' :: time_text timestamp entry.time ++ [' '])) ['[']) with
    | error b =>
      rw [hft] at this
      simpa only [List.append_assoc] using this
    | ok st2 =>
      rw [hft] at this
      have := format_from_close_post size entry st2 _ hsize hpos this.1 this.2
      simpa only [List.append_assoc] using this

/-- When the full line fits below the `int` value of the capacity, the encoder returns its
length and leaves the line, NUL-terminated, at the start of the buffer. -/
theorem m3log_format_fits (timestamp : CStr) (entry : m3log_entry_t) (buffer : List Char)
    (size : Nat) (hsize : size < 2 ^ 64) (hlen : buffer.length = size)
    (hfit : ((format_line timestamp entry).length : Int) < int_cast size) :
    ∃ b, m3log_format timestamp (some entry) (some buffer) size =
        (((format_line timestamp entry).length : Int), some b) ∧
      b.length = size ∧
      b.take (format_line timestamp entry).length = format_line timestamp entry ∧
      b[(format_line timestamp entry).length]? = some '\x00' := by
  have hpos : 0 < size := by
    have := int_cast_le size
    omega
  obtain ⟨b, h1, h2, h3, _⟩ := m3log_format_post timestamp entry buffer size hsize hpos hlen
  obtain ⟨h4, h5, h6⟩ := h3 hfit
  exact ⟨b, Prod.ext h4 h1, h2, h5, h6⟩

/-- The value returned by the encoder on a buffer of `size` bytes. -/
theorem m3log_format_ret (timestamp : CStr) (entry : m3log_entry_t) (buffer : List Char)
    (size : Nat) (hsize : size < 2 ^ 64) (hpos : 0 < size) (hlen : buffer.length = size) :
    (m3log_format timestamp (some entry) (some buffer) size).1 =
      if ((format_line timestamp entry).length : Int) < int_cast size then
        ((format_line timestamp entry).length : Int)
      else ERR_BUFFER_TOO_SMALL := by
  obtain ⟨b, _, _, h3, h4⟩ := m3log_format_post timestamp entry buffer size hsize hpos hlen
  split
  · rename_i h
    exact (h3 h).1
  · rename_i h
    exact (h4 (by omega)).1

/-! ## Theorems: the encoder -/

/-- C6: a buffer of `2^31` bytes is far larger than the 14-byte line `@t [] #INFO: x`, yet
`m3log_format` returns `-M3LOG_ERROR_BUFFER_TOO_SMALL`: the check `written >= (int)buffer_size`
compares against the capacity converted to `int`. -/
theorem m3log_format_rejects_large_buffer :
    (format_line "now".toList
        { time := some "t".toList, tags := { tags := none }, level := M3LOG_LEVEL_INFO,
          content := some "x".toList }).length = 14 ∧
    (m3log_format "now".toList
        (some { time := some "t".toList, tags := { tags := none }, level := M3LOG_LEVEL_INFO,
                content := some "x".toList })
        (some (List.replicate 2147483648 'x')) 2147483648).1 = -4 := by
  refine ⟨by decide, ?_⟩
  rw [m3log_format_ret _ _ _ _ (by norm_num) (by norm_num) (List.length_replicate _ _)]
  have h1 : int_cast 2147483648 = -2147483648 := by
    unfold int_cast
    norm_num
  have h2 : (format_line "now".toList
        { time := some "t".toList, tags := { tags := none }, level := M3LOG_LEVEL_INFO,
          content := some "x".toList }).length = 14 := by decide
  rw [h1, h2]
  decide

/-- C10: `m3log_format` returns `-M3LOG_ERROR_INVALID_ARGUMENT` for a NULL entry, a NULL
buffer or a zero capacity and leaves the buffer as it was; `m3log_parse` returns
`M3LOG_ERROR_INVALID_ARGUMENT` for a NULL line or a NULL entry and leaves the entry as it
was. -/
theorem invalid_argument_no_effect :
    ERR_INVALID_ARGUMENT = -3 ∧
    (∀ (timestamp : CStr) (buffer : Option (List Char)) (size : Nat),
      m3log_format timestamp none buffer size = (ERR_INVALID_ARGUMENT, buffer)) ∧
    (∀ (timestamp : CStr) (entry : Option m3log_entry_t) (size : Nat),
      m3log_format timestamp entry none size = (ERR_INVALID_ARGUMENT, none)) ∧
    (∀ (timestamp : CStr) (entry : Option m3log_entry_t) (buffer : Option (List Char)),
      m3log_format timestamp entry buffer 0 = (ERR_INVALID_ARGUMENT, buffer)) ∧
    (∀ (entry : Option m3log_entry_t),
      m3log_parse none entry = (M3LOG_ERROR_INVALID_ARGUMENT, entry)) ∧
    (∀ (line : Option CStr),
      m3log_parse line none = (M3LOG_ERROR_INVALID_ARGUMENT, none)) := by
  refine ⟨rfl, fun _ _ _ => rfl, ?_, ?_, fun _ => rfl, ?_⟩
  · intro timestamp entry size
    cases entry <;> rfl
  · intro timestamp entry buffer
    cases entry <;> cases buffer <;> rfl
  · intro line
    cases line <;> rfl

theorem m3log_format_first_check (timestamp : CStr) (entry : m3log_entry_t)
    (buffer : List Char) (size : Nat) (hpos : 0 < size)
    (h : int_cast size ≤ (('@' :: time_text timestamp entry.time ++ [' ']).length : Int)) :
    m3log_format timestamp (some entry) (some buffer) size =
      (ERR_BUFFER_TOO_SMALL,
        some (append_field size (buffer, 0)
          ('@' :: time_text timestamp entry.time ++ [' '])).1) := by
  have h0 : size ≠ 0 := by omega
  have hc : (append_field size (buffer, 0)
      ('@' :: time_text timestamp entry.time ++ [' '])).2 ≥ int_cast size := by
    rw [append_field_written]
    simpa using h
  rw [m3log_format_stages, if_neg h0]
  simp only [hc, if_true]
  rfl

theorem append_field_first_last (size : Nat) (buffer : List Char) (s : CStr)
    (hsize : size < 2 ^ 64) (hs : s.length + 1 < size) :
    ((append_field size (buffer, 0) s).1)[size - 1]? = buffer[size - 1]? := by
  have hw : size_sub size 0 = size := by
    have := size_sub_eq size 0 hsize (by omega)
    simpa using this
  have hne : size ≠ 0 := by omega
  have htk : s.take (size - 1) = s := List.take_of_length_le (by omega)
  have hb : (append_field size (buffer, 0) s).1 =
      (s ++ ['\x00']) ++ buffer.drop (s.length + 1) := by
    simp only [append_field, snprintf, hw, hne, if_false, store, Int.toNat_zero, htk,
      List.take_zero, List.nil_append, List.length_append, List.length_singleton,
      Nat.zero_add]
  rw [hb, List.getElem?_append_right (by simp; omega), List.getElem?_drop]
  congr 1
  simp only [List.length_append, List.length_singleton]
  omega

/-- C9: with a buffer of `2^31` bytes filled with `x`, `m3log_format` returns
`-M3LOG_ERROR_BUFFER_TOO_SMALL` from its first check after writing only `@t ` and a NUL: the
final byte of the buffer is still `x`, not the terminator. -/
theorem m3log_format_large_buffer_unterminated :
    ∃ b, m3log_format "now".toList
        (some { time := some "t".toList, tags := { tags := none }, level := M3LOG_LEVEL_INFO,
                content := some "x".toList })
        (some (List.replicate 2147483648 'x')) 2147483648 = (-4, some b) ∧
      b[2147483648 - 1]? = some 'x' := by
  have h1 : int_cast 2147483648 = -2147483648 := by
    unfold int_cast
    norm_num
  refine ⟨_, m3log_format_first_check _ _ _ _ (by norm_num) ?_, ?_⟩
  · rw [h1]
    exact le_trans (by norm_num) (Int.natCast_nonneg _)
  · rw [append_field_first_last _ _ _ (by norm_num) (by
      show ('@' :: "t".toList ++ [' ']).length + 1 < 2147483648
      norm_num), List.getElem?_replicate]
    norm_num

/-- On an error return with a capacity representable as an `int`, the buffer ends in a NUL
and holds before it a prefix of the full line. -/
theorem m3log_format_truncated (timestamp : CStr) (entry : m3log_entry_t)
    (buffer : List Char) (size : Nat) (hpos : 0 < size) (hmax : size ≤ INT_MAX)
    (hlen : buffer.length = size)
    (herr : (m3log_format timestamp (some entry) (some buffer) size).1 =
      ERR_BUFFER_TOO_SMALL) :
    ∃ b, (m3log_format timestamp (some entry) (some buffer) size).2 = some b ∧
      b.length = size ∧ b[size - 1]? = some '\x00' ∧
      b.take (size - 1) <+: format_line timestamp entry := by
  have hk := int_cast_of_le size hmax
  have hsize : size < 2 ^ 64 := by
    unfold INT_MAX at hmax
    omega
  obtain ⟨b, h1, h2, h3, h4⟩ := m3log_format_post timestamp entry buffer size hsize hpos hlen
  have hge : int_cast size ≤ ((format_line timestamp entry).length : Int) := by
    by_contra hlt
    have := (h3 (by omega)).1
    rw [herr] at this
    have hneg : ERR_BUFFER_TOO_SMALL = -4 := rfl
    omega
  obtain ⟨h5, h6⟩ := (h4 hge).2 hk
  exact ⟨b, h1, h2, h6, by rw [h5]; exact List.take_prefix _ _⟩

/-- C7, counterexample: with level UNKNOWN and content `#UNKNOWN` the output
`@t [] : #UNKNOWN` contains the text `#UNKNOWN`. -/
theorem m3log_format_unknown_counterexample :
    ∃ b, m3log_format "now".toList
        (some { time := some "t".toList, tags := { tags := none },
                level := M3LOG_LEVEL_UNKNOWN, content := some "#UNKNOWN".toList })
        (some (List.replicate 32 'x')) 32 = (16, some b) ∧
      b.take 16 = "@t [] : #UNKNOWN".toList ∧ "#UNKNOWN".toList <:+: b.take 16 :=
  ⟨"@t [] : #UNKNOWN".toList ++ '\x00' :: List.replicate 15 'x',
    by decide, by decide, by decide⟩

/-- C7, amended: for a record with level UNKNOWN and a capacity above the line length and at
most INT_MAX, `m3log_format` writes `@ts [tags] : content`, `ts` being the record's timestamp
when it is non-empty and the generated one otherwise; the output starts with `@`, contains
`#UNKNOWN` only if the written timestamp, a tag or the content contains `#`, contains no `#`
when none of them does, and for no tags and content `ok` contains `[] : ok`. -/
theorem m3log_format_unknown (timestamp : CStr) (entry : m3log_entry_t) (buffer : List Char)
    (size : Nat) (hlevel : entry.level = M3LOG_LEVEL_UNKNOWN) (hlen : buffer.length = size)
    (hmax : size ≤ INT_MAX)
    (hfit : (['@'] ++ time_text timestamp entry.time ++ [' ', '['] ++
      join_tags entry.tags.toList ++ [']', ' ', ':', ' '] ++ entry.content.getD []).length
        < size) :
    (∀ t, entry.time = some t → t ≠ [] → time_text timestamp entry.time = t) ∧
    (entry.time = none ∨ entry.time = some [] → time_text timestamp entry.time = timestamp) ∧
    ∃ S b, S = ['@'] ++ time_text timestamp entry.time ++ [' ', '['] ++
        join_tags entry.tags.toList ++ [']', ' ', ':', ' '] ++ entry.content.getD [] ∧
      m3log_format timestamp (some entry) (some buffer) size = ((S.length : Int), some b) ∧
      b.take S.length = S ∧ b[S.length]? = some '\x00' ∧
      S.head? = some '@' ∧
      ("#UNKNOWN".toList <:+: S →
        '#' ∈ time_text timestamp entry.time ∨ '#' ∈ join_tags entry.tags.toList ∨
          '#' ∈ entry.content.getD []) ∧
      ('#' ∉ time_text timestamp entry.time → '#' ∉ join_tags entry.tags.toList →
        '#' ∉ entry.content.getD [] → '#' ∉ S) ∧
      (entry.tags.toList = [] → entry.content = some "ok".toList →
        "[] : ok".toList <:+: S) := by
  have hS : format_line timestamp entry = ['@'] ++ time_text timestamp entry.time ++
      [' ', '['] ++ join_tags entry.tags.toList ++ [']', ' ', ':', ' '] ++
      entry.content.getD [] := by
    simp [format_line, level_text, hlevel]
  have hno : '#' ∉ time_text timestamp entry.time → '#' ∉ join_tags entry.tags.toList →
      '#' ∉ entry.content.getD [] →
      '#' ∉ ['@'] ++ time_text timestamp entry.time ++ [' ', '['] ++
        join_tags entry.tags.toList ++ [']', ' ', ':', ' '] ++ entry.content.getD [] := by
    intro h1 h2 h3
    simp [h1, h2, h3]
  refine ⟨?_, ?_, ?_⟩
  · intro t ht hne
    cases t with
    | nil => exact absurd rfl hne
    | cons c t' => rw [ht]; rfl
  · rintro (h | h) <;> rw [h] <;> rfl
  · have hfit2 : ((format_line timestamp entry).length : Int) < int_cast size := by
      rw [int_cast_of_le size hmax, hS]
      exact_mod_cast hfit
    obtain ⟨b, h1, _, h3, h4⟩ := m3log_format_fits timestamp entry buffer size
      (by unfold INT_MAX at hmax; omega) hlen hfit2
    rw [hS] at h1 h3 h4
    refine ⟨_, b, rfl, h1, h3, h4, by simp, ?_, hno, ?_⟩
    · intro hin
      by_contra hcon
      simp only [not_or] at hcon
      have hmem : '#' ∈ ['@'] ++ time_text timestamp entry.time ++ [' ', '['] ++
          join_tags entry.tags.toList ++ [']', ' ', ':', ' '] ++ entry.content.getD [] :=
        hin.subset (by decide)
      exact hno hcon.1 hcon.2.1 hcon.2.2 hmem
    · intro ht hc
      rw [ht, hc]
      exact ⟨'@' :: time_text timestamp entry.time ++ [' '], [], by simp [join_tags]⟩

/-- C7, witness: level UNKNOWN, no tags, content `ok`, an empty timestamp and 32 bytes. -/
theorem m3log_format_unknown_witness :
    ∃ S b, S = "@now [] : ok".toList ∧
      m3log_format "now".toList
        (some { time := some [], tags := { tags := none }, level := M3LOG_LEVEL_UNKNOWN,
                content := some "ok".toList })
        (some (List.replicate 32 'x')) 32 = ((S.length : Int), some b) ∧
      "[] : ok".toList <:+: S ∧ '#' ∉ S := by
  obtain ⟨S, b, h1, h2, _, _, _, _, h7, h8⟩ :=
    (m3log_format_unknown "now".toList
      { time := some [], tags := { tags := none }, level := M3LOG_LEVEL_UNKNOWN,
        content := some "ok".toList }
      (List.replicate 32 'x') 32 rfl (by decide) (by decide) (by decide)).2.2
  exact ⟨S, b, h1, h2, h8 rfl rfl, h7 (by decide) (by decide) (by decide)⟩

/-! ## Theorems: round trip -/

/-- C13: `m3log_string_to_level` inverts `m3log_level_to_string` on the five named levels, and
a string maps to a level other than UNKNOWN exactly when it is one of `DEBUG`, `INFO`, `WARN`,
`ERROR`, `FATAL`, letter for letter; `info`, `INFO ` with a trailing space, the empty string
and the null pointer map to UNKNOWN. -/
theorem level_table_exact :
    m3log_string_to_level (some (m3log_level_to_string M3LOG_LEVEL_DEBUG)) = M3LOG_LEVEL_DEBUG ∧
    m3log_string_to_level (some (m3log_level_to_string M3LOG_LEVEL_INFO)) = M3LOG_LEVEL_INFO ∧
    m3log_string_to_level (some (m3log_level_to_string M3LOG_LEVEL_WARN)) = M3LOG_LEVEL_WARN ∧
    m3log_string_to_level (some (m3log_level_to_string M3LOG_LEVEL_ERROR)) = M3LOG_LEVEL_ERROR ∧
    m3log_string_to_level (some (m3log_level_to_string M3LOG_LEVEL_FATAL)) = M3LOG_LEVEL_FATAL ∧
    (∀ s : CStr, m3log_string_to_level (some s) ≠ M3LOG_LEVEL_UNKNOWN ↔
      s = "DEBUG".toList ∨ s = "INFO".toList ∨ s = "WARN".toList ∨ s = "ERROR".toList ∨
        s = "FATAL".toList) ∧
    m3log_string_to_level (some "info".toList) = M3LOG_LEVEL_UNKNOWN ∧
    m3log_string_to_level (some "INFO ".toList) = M3LOG_LEVEL_UNKNOWN ∧
    m3log_string_to_level (some []) = M3LOG_LEVEL_UNKNOWN ∧
    m3log_string_to_level none = M3LOG_LEVEL_UNKNOWN := by
  refine ⟨by decide, by decide, by decide, by decide, by decide, ?_, by decide, by decide,
    by decide, rfl⟩
  intro s
  unfold m3log_string_to_level
  constructor
  · intro h
    by_contra hn
    simp only [not_or] at hn
    have h2 : (if s = "DEBUG".toList then M3LOG_LEVEL_DEBUG
        else if s = "INFO".toList then M3LOG_LEVEL_INFO
        else if s = "WARN".toList then M3LOG_LEVEL_WARN
        else if s = "ERROR".toList then M3LOG_LEVEL_ERROR
        else if s = "FATAL".toList then M3LOG_LEVEL_FATAL
        else M3LOG_LEVEL_UNKNOWN) ≠ M3LOG_LEVEL_UNKNOWN := h
    rw [if_neg hn.1, if_neg hn.2.1, if_neg hn.2.2.1, if_neg hn.2.2.2.1,
      if_neg hn.2.2.2.2] at h2
    exact h2 rfl
  · rintro (h | h | h | h | h) <;> subst h <;> decide

/-! ## Lemmas on tokens -/

theorem strtok_all_eq_split (s cur : CStr) :
    strtok_all s cur =
      ((s.splitOnP isspace).modifyHead (fun x => cur ++ x)).filter (fun t => t ≠ []) := by
  induction s generalizing cur with
  | nil =>
    by_cases hc : cur = [] <;> simp [strtok_all, List.splitOnP_nil, hc]
  | cons c rest ih =>
    rw [List.splitOnP_cons]
    by_cases hs : isspace c = true
    · have h0 := ih []
      have hid : (fun x : List Char => [] ++ x) = id := by
        funext x
        simp
      rw [hid, List.modifyHead_id] at h0
      simp only [id] at h0
      by_cases hc : cur = []
      · simp [strtok_all, hs, hc, h0]
      · simp [strtok_all, hs, hc, h0]
    · have h1 := ih (cur ++ [c])
      have hf : ((fun x : List Char => cur ++ x) ∘ (fun x => c :: x)) =
          (fun x : List Char => cur ++ [c] ++ x) := by
        funext x
        simp
      have hl : strtok_all (c :: rest) cur = strtok_all rest (cur ++ [c]) := by
        simp only [strtok_all, if_neg hs]
      rw [hl, if_neg hs, h1, List.modifyHead_modifyHead, hf]

theorem strtok_all_eq_tokens_spec (s : CStr) : strtok_all s [] = tokens_spec s := by
  have h := strtok_all_eq_split s []
  have hid : (fun x : List Char => [] ++ x) = id := by
    funext x
    simp
  rw [hid, List.modifyHead_id] at h
  exact h

theorem strtok_all_tokens (s cur : CStr) (hcur : ∀ ch ∈ cur, isspace ch = false) :
    ∀ t ∈ strtok_all s cur,
      t ≠ [] ∧ ∀ ch ∈ t, isspace ch = false ∧ (ch ∈ cur ∨ ch ∈ s) := by
  induction s generalizing cur with
  | nil =>
    intro t ht
    by_cases hc : cur = []
    · simp [strtok_all, hc] at ht
    · simp only [strtok_all, hc, if_false, List.mem_singleton] at ht
      subst ht
      exact ⟨hc, fun ch hch => ⟨hcur ch hch, Or.inl hch⟩⟩
  | cons c rest ih =>
    intro t ht
    by_cases hs : isspace c = true
    · by_cases hc : cur = []
      · simp only [strtok_all, hs, hc, if_true] at ht
        obtain ⟨h1, h2⟩ := ih [] (by simp) t ht
        refine ⟨h1, fun ch hch => ⟨(h2 ch hch).1, Or.inr ?_⟩⟩
        rcases (h2 ch hch).2 with h | h
        · simp at h
        · exact List.mem_cons_of_mem _ h
      · simp only [strtok_all, hs, hc, if_true, if_false, List.mem_cons] at ht
        rcases ht with ht | ht
        · subst ht
          exact ⟨hc, fun ch hch => ⟨hcur ch hch, Or.inl hch⟩⟩
        · obtain ⟨h1, h2⟩ := ih [] (by simp) t ht
          refine ⟨h1, fun ch hch => ⟨(h2 ch hch).1, Or.inr ?_⟩⟩
          rcases (h2 ch hch).2 with h | h
          · simp at h
          · exact List.mem_cons_of_mem _ h
    · have hs' : isspace c = false := by simpa using hs
      simp only [strtok_all, hs, if_false] at ht
      have hcur' : ∀ ch ∈ cur ++ [c], isspace ch = false := by
        intro ch hch
        rcases List.mem_append.1 hch with h | h
        · exact hcur ch h
        · simp at h
          rw [h]
          exact hs'
      obtain ⟨h1, h2⟩ := ih (cur ++ [c]) hcur' t ht
      refine ⟨h1, fun ch hch => ⟨(h2 ch hch).1, ?_⟩⟩
      rcases (h2 ch hch).2 with h | h
      · rcases List.mem_append.1 h with h | h
        · exact Or.inl h
        · simp at h
          exact Or.inr (by simp [h])
      · exact Or.inr (List.mem_cons_of_mem _ h)

theorem m3log_parse_tags_toList (s : CStr) : (m3log_parse_tags s).toList = strtok_all s [] := by
  rw [m3log_parse_tags_eq]
  split
  · rename_i h
    subst h
    rfl
  · rfl

theorem m3log_parse_tags_count (s : CStr) :
    (m3log_parse_tags s).count = (strtok_all s []).length := by
  rw [m3log_parse_tags_eq]
  split
  · rename_i h
    subst h
    rfl
  · rfl

/-- When the encoder succeeds it has written the full line, NUL-terminated, and returns its
length. -/
theorem m3log_format_ok (timestamp : CStr) (entry : m3log_entry_t) (buffer : List Char)
    (size : Nat) (hsize : size < 2 ^ 64) (hlen : buffer.length = size)
    (hok : 0 ≤ (m3log_format timestamp (some entry) (some buffer) size).1) :
    ∃ b, m3log_format timestamp (some entry) (some buffer) size =
        (((format_line timestamp entry).length : Int), some b) ∧
      b.take (format_line timestamp entry).length = format_line timestamp entry ∧
      b[(format_line timestamp entry).length]? = some '\x00' := by
  have hpos : 0 < size := by
    rcases Nat.eq_zero_or_pos size with h0 | h0
    · rw [m3log_format_stages, if_pos h0] at hok
      have hn : ¬ (0 : Int) ≤ -3 := by decide
      exact absurd hok hn
    · exact h0
  obtain ⟨b, h1, _, h3, h4⟩ := m3log_format_post timestamp entry buffer size hsize hpos hlen
  have hfit : ((format_line timestamp entry).length : Int) < int_cast size := by
    by_contra hge
    have := (h4 (by omega)).1
    rw [this] at hok
    exact absurd hok (by decide)
  obtain ⟨h5, h6, h7⟩ := h3 hfit
  exact ⟨b, Prod.ext h5 h1, h6, h7⟩

/-! ## Theorems: tags -/

theorem parse_from_level_keeps (e : m3log_entry_t) (s : CStr) (x : m3log_entry_t)
    (h : parse_from_level e s = (M3LOG_SUCCESS, some x)) :
    x.time = e.time ∧ x.tags = e.tags ∧ ∃ cp, x.content = some (m3log_trim cp) := by
  by_cases hh : '#' ∈ s
  · obtain ⟨p, q, hpq, hp⟩ := exists_first_split '#' s hh
    subst hpq
    by_cases hc : ':' ∈ q
    · obtain ⟨name, rest, hq, hname⟩ := exists_first_split ':' q hc
      subst hq
      rw [parse_from_level_hash e p name rest hp hname] at h
      simp only [Prod.mk.injEq, Option.some.injEq, true_and] at h
      subst h
      exact ⟨rfl, rfl, rest, rfl⟩
    · rw [parse_from_level_unterminated e p q hp hc] at h
      simp at h
  · by_cases hc : ':' ∈ s
    · obtain ⟨p, q, hpq, hp⟩ := exists_first_split ':' s hc
      subst hpq
      rw [parse_from_level_colon e p q hh hp] at h
      simp only [Prod.mk.injEq, Option.some.injEq, true_and] at h
      subst h
      exact ⟨rfl, rfl, q, rfl⟩
    · rw [parse_from_level_plain e s hh hc] at h
      simp only [Prod.mk.injEq, Option.some.injEq, true_and] at h
      subst h
      exact ⟨rfl, rfl, s, rfl⟩

theorem parse_from_tags_fields (e : m3log_entry_t) (r1 : CStr) (x : m3log_entry_t)
    (h : parse_from_tags e r1 = (M3LOG_SUCCESS, some x)) :
    x.tags.toList =
      (if '[' ∈ r1 then
        strtok_all ((text_after '[' r1).takeWhile (fun c => c != ']')) [] else []) ∧
    ∃ cp, x.content = some (m3log_trim cp) := by
  by_cases hb : '[' ∈ r1
  · obtain ⟨p, q, hpq, hp⟩ := exists_first_split '[' r1 hb
    subst hpq
    rw [if_pos hb, text_after_split '[' p q hp]
    by_cases hc : ']' ∈ q
    · obtain ⟨inner, rest, hq, hinner⟩ := exists_first_split ']' q hc
      subst hq
      rw [parse_from_tags_bracket e p inner rest hp hinner] at h
      obtain ⟨_, h2, h3⟩ := parse_from_level_keeps _ rest x h
      rw [takeWhile_ne_append ']' inner rest hinner, h2]
      exact ⟨m3log_parse_tags_toList inner, h3⟩
    · rw [parse_from_tags_unterminated e p q hp hc] at h
      simp at h
  · rw [parse_from_tags_none e r1 hb] at h
    obtain ⟨_, h2, h3⟩ := parse_from_level_keeps _ r1 x h
    rw [if_neg hb, h2]
    exact ⟨rfl, h3⟩

theorem m3log_parse_fields (line : CStr) (e0 e : m3log_entry_t)
    (h : m3log_parse (some line) (some e0) = (M3LOG_SUCCESS, some e)) :
    e.tags.toList =
      (if '[' ∈ decode_R1 line then
        strtok_all ((text_after '[' (decode_R1 line)).takeWhile (fun c => c != ']')) []
       else []) ∧
    ∃ cp, e.content = some (m3log_trim cp) := by
  by_cases hh : line.head? = some '@'
  · rcases head_at_cases line hh with ⟨rest, h1, h2⟩ | ⟨ts, r1, h1, h2⟩
    · subst h1
      rw [m3log_parse_at_unterminated rest e0 h2] at h
      simp at h
    · subst h1
      have hR1 : decode_R1 ('@' :: (ts ++ ' ' :: r1)) = r1 := by
        rw [decode_R1, if_pos hh, text_after_at ts r1 h2]
      rw [m3log_parse_at ts r1 e0 h2] at h
      rw [hR1]
      exact parse_from_tags_fields _ r1 e h
  · have hR1 : decode_R1 line = line := by rw [decode_R1, if_neg hh]
    rw [m3log_parse_no_at line e0 hh] at h
    rw [hR1]
    exact parse_from_tags_fields _ line e h

theorem getLast?_cons_ne_nil (c : Char) (l : CStr) (h : l ≠ []) :
    (c :: l).getLast? = l.getLast? := by
  cases l with
  | nil => exact absurd rfl h
  | cons d l' => exact List.getLast?_cons_cons

theorem trim_tail_last (r : CStr) : ∀ ch ∈ (trim_tail r).getLast?, isspace ch = false := by
  induction r with
  | nil => simp [trim_tail]
  | cons c rest ih =>
    rw [trim_tail_cons_if]
    by_cases ht : trim_tail rest = []
    · rw [if_pos ht]
      by_cases hs : isspace c = true
      · simp [hs]
      · simp only [hs, if_false]
        intro ch hch
        simp at hch
        rw [← hch]
        simpa using hs
    · rw [if_neg ht]
      intro ch hch
      rw [getLast?_cons_ne_nil _ _ ht] at hch
      exact ih ch hch

theorem m3log_trim_Trimmed (s : CStr) : Trimmed (m3log_trim s) := by
  unfold m3log_trim
  have hd := List.head?_dropWhile_not isspace s
  cases h : s.dropWhile isspace with
  | nil => exact ⟨by simp, by simp⟩
  | cons c rest =>
    rw [h] at hd
    simp only [List.head?_cons] at hd
    refine ⟨?_, ?_⟩
    · intro ch hch
      simp at hch
      rw [← hch]
      exact hd
    · intro ch hch
      by_cases ht : trim_tail rest = []
      · simp [ht] at hch
        rw [← hch]
        exact hd
      · simp only [] at hch
        rw [getLast?_cons_ne_nil _ _ ht] at hch
        exact trim_tail_last rest ch hch

theorem m3log_trim_whitespace (ws : CStr) (h : ∀ ch ∈ ws, isspace ch = true) :
    m3log_trim ws = [] := by
  have : ws.dropWhile isspace = [] := by
    rw [List.dropWhile_eq_nil_iff]
    exact h
  simp [m3log_trim, this]

theorem not_mem_whitespace (ws : CStr) (h : ∀ ch ∈ ws, isspace ch = true) (c : Char)
    (hc : isspace c = false) : c ∉ ws := by
  intro hm
  have := h c hm
  rw [hc] at this
  exact absurd this (by decide)

/-- C12: on success the returned tags are the maximal runs of non-whitespace characters of
the text between the first `[` of the remainder `R1` and the first `]` after it, in order,
and there are none when `R1` has no `[`; every returned tag is non-empty and has no
whitespace and no `]`; `[]` and `[   ]` give no tag and `[a a]` gives `a` twice. -/
theorem m3log_parse_tags_runs (line : CStr) (e0 e : m3log_entry_t)
    (h : m3log_parse (some line) (some e0) = (M3LOG_SUCCESS, some e)) :
    ('[' ∈ decode_R1 line →
      e.tags.toList =
        tokens_spec ((text_after '[' (decode_R1 line)).takeWhile (fun c => c != ']'))) ∧
    ('[' ∉ decode_R1 line → e.tags.toList = []) ∧
    (∀ t ∈ e.tags.toList, GoodTag t) ∧
    (m3log_parse (some "[]".toList) (some e0)).2.map (fun x => x.tags.toList) = some [] ∧
    (m3log_parse (some "[   ]".toList) (some e0)).2.map (fun x => x.tags.toList) = some [] ∧
    (m3log_parse (some "[a a]".toList) (some e0)).2.map (fun x => x.tags.toList) =
      some ["a".toList, "a".toList] := by
  obtain ⟨h1, _⟩ := m3log_parse_fields line e0 e h
  refine ⟨?_, ?_, ?_, ?_, ?_, ?_⟩
  · intro hb
    rw [h1, if_pos hb, strtok_all_eq_tokens_spec]
  · intro hb
    rw [h1, if_neg hb]
  · intro t ht
    rw [h1] at ht
    by_cases hb : '[' ∈ decode_R1 line
    · rw [if_pos hb] at ht
      obtain ⟨h2, h3⟩ := strtok_all_tokens _ [] (by simp) t ht
      refine ⟨h2, fun ch hch => ⟨(h3 ch hch).1, ?_⟩⟩
      rcases (h3 ch hch).2 with hm | hm
      · simp at hm
      · have := List.mem_takeWhile_imp hm
        simpa using this
    · rw [if_neg hb] at ht
      simp at ht
  · rw [m3log_parse_stages]
    decide
  · rw [m3log_parse_stages]
    decide
  · rw [m3log_parse_stages]
    decide

/-- C12, witness: `@t [a  b a] #INFO: x` gives the three tags `a`, `b`, `a`. -/
theorem m3log_parse_tags_runs_witness :
    ({ time := some "t".toList,
       tags := { tags := some ["a".toList, "b".toList, "a".toList] },
       level := M3LOG_LEVEL_INFO, content := some "x".toList } : m3log_entry_t).tags.toList =
      tokens_spec "a  b a".toList :=
  (m3log_parse_tags_runs "@t [a  b a] #INFO: x".toList entry_zero
    { time := some "t".toList, tags := { tags := some ["a".toList, "b".toList, "a".toList] },
      level := M3LOG_LEVEL_INFO, content := some "x".toList } (by decide)).1 (by decide)

/-! ## Theorems: level and content -/

/-- C14: a line that does not start with `@`, has no `[`, and reads `pre # name : rest` with
no `#` in `pre` and no `:` in `name` decodes successfully to the level named by the trimmed
`name` (UNKNOWN when it is no level name) and the trimmed `rest`, whatever `rest` holds;
`pre` is dropped.  So `# INFO :x` gives INFO, a later `#ERROR:` stays in the content, and
`#BOGUS: x` and `#: x` give UNKNOWN. -/
theorem m3log_parse_first_hash (pre name rest : CStr) (e0 : m3log_entry_t)
    (h1 : (pre ++ ['#'] ++ name ++ [':'] ++ rest).head? ≠ some '@')
    (h2 : '[' ∉ pre ++ ['#'] ++ name ++ [':'] ++ rest)
    (h3 : '#' ∉ pre) (h4 : ':' ∉ name) :
    m3log_parse (some (pre ++ ['#'] ++ name ++ [':'] ++ rest)) (some e0) =
      (M3LOG_SUCCESS,
        some { time := none, tags := { tags := none },
               level := m3log_string_to_level (some (trim_spec name)),
               content := some (trim_spec rest) }) ∧
    m3log_parse (some "# INFO :x".toList) (some e0) =
      (M3LOG_SUCCESS, some { time := none, tags := { tags := none },
                             level := M3LOG_LEVEL_INFO, content := some "x".toList }) ∧
    m3log_parse (some "#BOGUS: x".toList) (some e0) =
      (M3LOG_SUCCESS, some { time := none, tags := { tags := none },
                             level := M3LOG_LEVEL_UNKNOWN, content := some "x".toList }) ∧
    m3log_parse (some "#: x".toList) (some e0) =
      (M3LOG_SUCCESS, some { time := none, tags := { tags := none },
                             level := M3LOG_LEVEL_UNKNOWN, content := some "x".toList }) := by
  refine ⟨?_, by rw [m3log_parse_stages]; decide, by rw [m3log_parse_stages]; decide,
    by rw [m3log_parse_stages]; decide⟩
  have hline : pre ++ ['#'] ++ name ++ [':'] ++ rest = pre ++ '#' :: (name ++ ':' :: rest) := by
    simp
  rw [hline] at h1 h2 ⊢
  rw [m3log_parse_no_at _ e0 h1, parse_from_tags_none _ _ h2,
    parse_from_level_hash _ pre name rest h3 h4, m3log_trim_eq_spec, m3log_trim_eq_spec]
  rfl

/-- C14, witness: in `x #INFO: a #ERROR: b` the first `#` gives the level and the later
`#ERROR:` is part of the content. -/
theorem m3log_parse_first_hash_witness :
    m3log_parse (some "x #INFO: a #ERROR: b".toList) (some entry_zero) =
      (M3LOG_SUCCESS, some { time := none, tags := { tags := none },
                             level := M3LOG_LEVEL_INFO,
                             content := some "a #ERROR: b".toList }) :=
  (m3log_parse_first_hash "x ".toList "INFO".toList " a #ERROR: b".toList entry_zero
    (by decide) (by decide) (by decide) (by decide)).1

/-! ### The content the decoder returns -/

theorem parse_from_level_content (e : m3log_entry_t) (r2 : CStr)
    (h : ¬('#' ∈ r2 ∧ ':' ∉ text_after '#' r2)) :
    ∃ x, parse_from_level e r2 = (M3LOG_SUCCESS, some x) ∧
      x.content = some (m3log_trim (content_after r2)) := by
  unfold content_after
  by_cases hh : '#' ∈ r2
  · obtain ⟨p, q, hpq, hp⟩ := exists_first_split '#' r2 hh
    subst hpq
    have hc : ':' ∈ q := by
      by_contra hc
      exact h ⟨hh, by rw [text_after_split '#' p q hp]; exact hc⟩
    obtain ⟨name, rest, hq, hname⟩ := exists_first_split ':' q hc
    subst hq
    rw [if_pos hh, text_after_split '#' p _ hp, text_after_split ':' name rest hname,
      parse_from_level_hash e p name rest hp hname]
    exact ⟨_, rfl, rfl⟩
  · rw [if_neg hh]
    by_cases hc : ':' ∈ r2
    · obtain ⟨p, q, hpq, hp⟩ := exists_first_split ':' r2 hc
      subst hpq
      rw [if_pos hc, text_after_split ':' p q hp, parse_from_level_colon e p q hh hp]
      exact ⟨_, rfl, rfl⟩
    · rw [if_neg hc, parse_from_level_plain e r2 hh hc]
      exact ⟨_, rfl, rfl⟩

theorem parse_from_tags_content (e : m3log_entry_t) (r1 : CStr)
    (hb : ¬('[' ∈ r1 ∧ ']' ∉ text_after '[' r1))
    (hc : ¬('#' ∈ decode_R2 r1 ∧ ':' ∉ text_after '#' (decode_R2 r1))) :
    ∃ x, parse_from_tags e r1 = (M3LOG_SUCCESS, some x) ∧
      x.content = some (m3log_trim (content_after (decode_R2 r1))) := by
  by_cases h1 : '[' ∈ r1
  · obtain ⟨p, q, hpq, hp⟩ := exists_first_split '[' r1 h1
    subst hpq
    have h2 : ']' ∈ q := by
      by_contra h2
      exact hb ⟨h1, by rw [text_after_split '[' p q hp]; exact h2⟩
    obtain ⟨inner, rest, hq, hinner⟩ := exists_first_split ']' q h2
    subst hq
    have hR2 : decode_R2 (p ++ '[' :: (inner ++ ']' :: rest)) = rest := by
      rw [decode_R2, if_pos h1, text_after_split '[' p _ hp,
        text_after_split ']' inner rest hinner]
    rw [hR2] at hc ⊢
    rw [parse_from_tags_bracket e p inner rest hp hinner]
    exact parse_from_level_content _ rest hc
  · have hR2 : decode_R2 r1 = r1 := by rw [decode_R2, if_neg h1]
    rw [hR2] at hc ⊢
    rw [parse_from_tags_none e r1 h1]
    exact parse_from_level_content _ r1 hc

/-- A line with none of the three defects decodes successfully, and the content is the
trimmed text after the last delimiter consumed. -/
theorem m3log_parse_content (line : CStr) (e0 : m3log_entry_t)
    (ha : ¬CondA line) (hb : ¬CondB line) (hc : ¬CondC line) :
    ∃ x, m3log_parse (some line) (some e0) = (M3LOG_SUCCESS, some x) ∧
      x.content = some (m3log_trim (content_text line)) := by
  unfold CondB at hb
  unfold CondC at hc
  unfold content_text
  by_cases hh : line.head? = some '@'
  · rcases head_at_cases line hh with ⟨rest, h1, h2⟩ | ⟨ts, r1, h1, h2⟩
    · subst h1
      exact absurd ⟨hh, by simp [h2]⟩ ha
    · subst h1
      have hR1 : decode_R1 ('@' :: (ts ++ ' ' :: r1)) = r1 := by
        rw [decode_R1, if_pos hh, text_after_at ts r1 h2]
      rw [hR1] at hb hc ⊢
      rw [m3log_parse_at ts r1 e0 h2]
      exact parse_from_tags_content _ r1 hb hc
  · have hR1 : decode_R1 line = line := by rw [decode_R1, if_neg hh]
    rw [hR1] at hb hc ⊢
    rw [m3log_parse_no_at line e0 hh]
    exact parse_from_tags_content _ line hb hc

/-- A line that decodes successfully has none of the three defects. -/
theorem m3log_parse_success_conds (line : CStr) (e0 e : m3log_entry_t)
    (h : m3log_parse (some line) (some e0) = (M3LOG_SUCCESS, some e)) :
    ¬CondA line ∧ ¬CondB line ∧ ¬CondC line := by
  unfold CondA CondB CondC
  by_cases hh : line.head? = some '@'
  · rcases head_at_cases line hh with ⟨rest, h1, h2⟩ | ⟨ts, r1, h1, h2⟩
    · subst h1
      rw [m3log_parse_at_unterminated rest e0 h2] at h
      simp at h
    · subst h1
      have hR1 : decode_R1 ('@' :: (ts ++ ' ' :: r1)) = r1 := by
        rw [decode_R1, if_pos hh, text_after_at ts r1 h2]
      rw [m3log_parse_at ts r1 e0 h2] at h
      rw [hR1]
      rcases parse_from_tags_code { entry_zero with time := some ts } r1 with k | k
      · exact ⟨fun c => c.2 (by simp), k.2.1, k.2.2⟩
      · rw [h] at k
        exact absurd k.1 (by simp)
  · have hR1 : decode_R1 line = line := by rw [decode_R1, if_neg hh]
    rw [m3log_parse_no_at line e0 hh] at h
    rw [hR1]
    rcases parse_from_tags_code entry_zero line with k | k
    · exact ⟨fun c => hh c.1, k.2.1, k.2.2⟩
    · rw [h] at k
      exact absurd k.1 (by simp)

/-- C15: on success the content is non-null and has neither leading nor trailing whitespace
(trimming it again changes nothing); it is the trimmed text that remains after the last
delimiter consumed, hence the empty string when that text is only whitespace; every line
with none of the three defects (a), (b), (c) whose remaining text is only whitespace decodes
successfully with the empty string as content, whatever timestamp, tags and level precede
it; so do `#INFO:` ++ `ws`, `[a]` ++ `ws` and the line `ws` itself for whitespace `ws`, the
empty line included. -/
theorem m3log_parse_content_trimmed (line : CStr) (e0 e : m3log_entry_t)
    (h : m3log_parse (some line) (some e0) = (M3LOG_SUCCESS, some e)) :
    (∃ c, e.content = some c ∧ Trimmed c ∧ trim_spec c = c) ∧
    e.content = some (trim_spec (content_text line)) ∧
    ((∀ ch ∈ content_text line, isspace ch = true) → e.content = some []) ∧
    (∀ (line2 : CStr) (e2 : m3log_entry_t),
      ¬CondA line2 → ¬CondB line2 → ¬CondC line2 →
      (∀ ch ∈ content_text line2, isspace ch = true) →
      ∃ y, m3log_parse (some line2) (some e2) = (M3LOG_SUCCESS, some y) ∧
        y.content = some []) ∧
    (∀ ws : CStr, (∀ ch ∈ ws, isspace ch = true) →
      m3log_parse (some ("#INFO:".toList ++ ws)) (some e0) =
        (M3LOG_SUCCESS, some { time := none, tags := { tags := none },
                               level := M3LOG_LEVEL_INFO, content := some [] }) ∧
      m3log_parse (some ("[a]".toList ++ ws)) (some e0) =
        (M3LOG_SUCCESS, some { time := none, tags := { tags := some ["a".toList] },
                               level := M3LOG_LEVEL_UNKNOWN, content := some [] }) ∧
      m3log_parse (some ws) (some e0) =
        (M3LOG_SUCCESS, some { time := none, tags := { tags := none },
                               level := M3LOG_LEVEL_UNKNOWN, content := some [] })) ∧
    m3log_parse (some []) (some e0) =
      (M3LOG_SUCCESS, some { time := none, tags := { tags := none },
                             level := M3LOG_LEVEL_UNKNOWN, content := some [] }) := by
  have hcontent : e.content = some (m3log_trim (content_text line)) := by
    obtain ⟨ha, hb, hc⟩ := m3log_parse_success_conds line e0 e h
    obtain ⟨x, hx, hxc⟩ := m3log_parse_content line e0 ha hb hc
    rw [h] at hx
    have hex : e = x := by
      have := (Prod.mk.inj hx).2
      exact Option.some.inj this
    rw [hex]
    exact hxc
  refine ⟨?_, ?_, ?_, ?_, ?_, by rw [m3log_parse_stages]; decide⟩
  · have ht := m3log_trim_Trimmed (content_text line)
    exact ⟨_, hcontent, ht, by rw [← m3log_trim_eq_spec, m3log_trim_of_Trimmed _ ht]⟩
  · rw [hcontent, m3log_trim_eq_spec]
  · intro hws
    rw [hcontent, m3log_trim_whitespace _ hws]
  · intro line2 e2 ha hb hc hws
    obtain ⟨y, hy, hyc⟩ := m3log_parse_content line2 e2 ha hb hc
    exact ⟨y, hy, by rw [hyc, m3log_trim_whitespace _ hws]⟩
  · intro ws hws
    have hat := not_mem_whitespace ws hws '@' (by decide)
    have hbr := not_mem_whitespace ws hws '[' (by decide)
    have hha := not_mem_whitespace ws hws '#' (by decide)
    have hco := not_mem_whitespace ws hws ':' (by decide)
    have htr := m3log_trim_whitespace ws hws
    refine ⟨?_, ?_, ?_⟩
    · have hl : "#INFO:".toList ++ ws = [] ++ '#' :: ("INFO".toList ++ ':' :: ws) := rfl
      rw [hl, m3log_parse_no_at _ e0 (by simp),
        parse_from_tags_none _ _ (by simp [hbr]),
        parse_from_level_hash _ [] _ ws (by simp) (by decide), htr]
      rfl
    · have hl : "[a]".toList ++ ws = [] ++ '[' :: ("a".toList ++ ']' :: ws) := rfl
      rw [hl, m3log_parse_no_at _ e0 (by simp),
        parse_from_tags_bracket _ [] _ ws (by simp) (by decide),
        parse_from_level_plain _ ws hha hco, htr]
      rfl
    · have hh : ws.head? ≠ some '@' := fun hc => hat (List.mem_of_mem_head? hc)
      rw [m3log_parse_no_at _ e0 hh, parse_from_tags_none _ _ hbr,
        parse_from_level_plain _ ws hha hco, htr]
      rfl

/-- C15, witness: the line `@t [a] #INFO:` followed by two spaces decodes successfully to
the empty content, and the remaining text there is the two spaces. -/
theorem m3log_parse_content_trimmed_witness :
    m3log_parse (some "@t [a] #INFO:  ".toList) (some entry_zero) =
      (M3LOG_SUCCESS, some { time := some "t".toList, tags := { tags := some ["a".toList] },
                             level := M3LOG_LEVEL_INFO, content := some [] }) ∧
    content_text "@t [a] #INFO:  ".toList = "  ".toList ∧
    (some [] : Option CStr) = some (trim_spec (content_text "@t [a] #INFO:  ".toList)) :=
  ⟨by decide, by decide,
   (m3log_parse_content_trimmed "@t [a] #INFO:  ".toList entry_zero
    { time := some "t".toList, tags := { tags := some ["a".toList] },
      level := M3LOG_LEVEL_INFO, content := some [] }
    (by decide)).2.1⟩

/-! ## Theorems: record construction -/

/-- C17: `m3log_create_entry` returns NULL for a NULL content; otherwise it returns a record
with that content, that level and the generated timestamp, whose tag list has exactly `n`
entries when the array is non-null and `n > 0` and none otherwise, entry `i` being
`tags[i]`, or the empty string when `tags[i]` is NULL. -/
theorem m3log_create_entry_fields (timestamp c : CStr) (level : m3log_level_t)
    (tags : Option (List (Option CStr))) (n : Nat)
    (harr : ∀ arr, tags = some arr → n ≤ arr.length) :
    m3log_create_entry timestamp none level tags n = none ∧
    ∃ e, m3log_create_entry timestamp (some c) level tags n = some e ∧
      e.content = some c ∧ e.level = level ∧ e.time = some timestamp ∧
      (∀ arr, tags = some arr → 0 < n →
        e.tags.count = n ∧
        ∀ i, i < n → e.tags.toList[i]? =
          some (match arr[i]? with
                | some (some t) => t
                | _ => [])) ∧
      (tags = none ∨ n = 0 → e.tags.count = 0 ∧ e.tags.toList = []) := by
  refine ⟨rfl, ?_⟩
  cases tags with
  | none =>
    refine ⟨_, rfl, rfl, rfl, rfl, ?_, fun _ => ⟨rfl, rfl⟩⟩
    intro arr h
    simp at h
  | some arr =>
    have hle := harr arr rfl
    by_cases hn : n > 0
    · have hcr : m3log_create_entry timestamp (some c) level (some arr) n =
          some { time := some timestamp,
                 tags := { tags := some ((List.range n).map (fun i =>
                   match arr.getD i none with
                   | some t => t
                   | none => [])) },
                 level := level, content := some c } := by
        simp only [m3log_create_entry, hn, if_true]
      refine ⟨_, hcr, rfl, rfl, rfl, ?_, ?_⟩
      · intro arr2 h2 _
        simp only [Option.some.injEq] at h2
        subst h2
        refine ⟨by simp [m3log_tags_t.count], ?_⟩
        intro i hi
        have hi2 : i < arr.length := by omega
        simp only [m3log_tags_t.toList, List.getElem?_map, List.getElem?_range hi,
          Option.map_some', List.getD_eq_getElem?_getD, List.getElem?_eq_getElem hi2,
          Option.getD_some]
        cases arr[i] <;> rfl
      · rintro (h | h)
        · simp at h
        · omega
    · have h0 : n = 0 := by omega
      have hcr : m3log_create_entry timestamp (some c) level (some arr) n =
          some { time := some timestamp, tags := { tags := none },
                 level := level, content := some c } := by
        simp only [m3log_create_entry, hn, if_false]
      refine ⟨_, hcr, rfl, rfl, rfl, ?_, fun _ => ⟨rfl, rfl⟩⟩
      intro _ _ hpos
      omega

/-- C17, witness: three tags of which the second is NULL. -/
theorem m3log_create_entry_fields_witness :
    m3log_create_entry "now".toList (some "hi".toList) M3LOG_LEVEL_WARN
        (some [some "a".toList, none, some "b".toList]) 3 =
      some { time := some "now".toList,
             tags := { tags := some ["a".toList, [], "b".toList] },
             level := M3LOG_LEVEL_WARN, content := some "hi".toList } ∧
    ∃ e, m3log_create_entry "now".toList (some "hi".toList) M3LOG_LEVEL_WARN
        (some [some "a".toList, none, some "b".toList]) 3 = some e ∧
      e.content = some "hi".toList ∧ e.level = M3LOG_LEVEL_WARN ∧
      e.time = some "now".toList := by
  obtain ⟨e, h1, h2, h3, h4, _⟩ :=
    (m3log_create_entry_fields "now".toList "hi".toList M3LOG_LEVEL_WARN
      (some [some "a".toList, none, some "b".toList]) 3
      (by intro arr h; simp only [Option.some.injEq] at h; subst h; decide)).2
  exact ⟨by decide, e, h1, h2, h3, h4⟩

/-! ## Theorems: round trip with level UNKNOWN -/

theorem count_tags_eq (s : CStr) (r : Bool) (k : Nat) :
    count_tags s r k =
      k + (s.zip s.tail).countP (fun p => isspace p.2 && !isspace p.1) +
        (if r then 0 else if s.head?.any isspace then 1 else 0) := by
  induction s generalizing r k with
  | nil => cases r <;> simp [count_tags]
  | cons c rest ih =>
    cases rest with
    | nil =>
      by_cases hs : isspace c = true <;> cases r <;> simp [count_tags, hs]
    | cons d rest' =>
      by_cases hs : isspace c = true
      · have h1 := ih true (if r = true then k else k + 1)
        simp only [List.tail_cons] at h1
        simp only [count_tags, hs, if_true, List.tail_cons, List.zip_cons_cons,
          List.countP_cons, List.head?_cons, Option.any_some] at h1 ⊢
        rw [h1]
        cases r <;> (simp; try omega)
      · have h1 := ih false k
        simp only [List.tail_cons] at h1
        have hs' : isspace c = false := by simpa using hs
        simp only [count_tags, hs', List.tail_cons, List.zip_cons_cons,
          List.countP_cons, List.head?_cons, Option.any_some] at h1 ⊢
        rw [h1]
        cases r <;> by_cases hd : isspace d = true <;> simp [hd] <;> omega

/-- C20: in `m3log_parse_tags` the capacity computed first is 1 plus the number of maximal
whitespace runs of the input, the number of whitespace-separated tokens never exceeds it, so
the guard `i < count` drops no token, and the tags and the count returned are all the tokens
and their true number. -/
theorem m3log_parse_tags_capacity (s : CStr) :
    count_tags s false 1 = 1 + ws_run_count s ∧
    (tokens_spec s).length ≤ count_tags s false 1 ∧
    (strtok_all s []).take (count_tags s false 1) = strtok_all s [] ∧
    strtok_all s [] = tokens_spec s ∧
    (m3log_parse_tags s).toList = tokens_spec s ∧
    (m3log_parse_tags s).count = (tokens_spec s).length := by
  have hle := strtok_all_length_le s [] false 1 (by simp)
  have heq := strtok_all_eq_tokens_spec s
  refine ⟨?_, ?_, ?_, heq, ?_, ?_⟩
  · rw [count_tags_eq, ws_run_count]
    simp only [Bool.false_eq_true, if_false]
    omega
  · rw [← heq]
    omega
  · exact List.take_of_length_le (by omega)
  · rw [m3log_parse_tags_toList, heq]
  · rw [m3log_parse_tags_count, heq]

/-! ## Theorems: the windows of the encoder -/

theorem snprintf_call_in_bounds (size : Nat) (st : List Char × Int) (w : Nat)
    (hsize : size < 2 ^ 64) (h : st.2 = (w : Int)) (hw : w ≤ size) :
    CallInBounds size (snprintf_call size st) := by
  unfold CallInBounds snprintf_call
  simp only [h, size_sub_eq size w hsize hw, Int.toNat_ofNat]
  omega

theorem format_tags_calls_in_bounds (size : Nat) (hsize : size < 2 ^ 64) (hpos : 0 < size)
    (tags : List CStr) (st : List Char × Int) (p : CStr)
    (h : Inv size st p) (hp : p.length ≤ size) :
    ∀ c ∈ format_tags_calls size tags st, CallInBounds size c := by
  induction tags generalizing st p with
  | nil =>
    intro c hc
    simp [format_tags_calls] at hc
  | cons t rest ih =>
    intro c hc
    have hle := int_cast_le size
    have hI := append_field_inv size st p (t ++ (if rest = [] then [] else [' ']))
      hsize hpos h hp
    simp only [format_tags_calls, List.mem_cons] at hc
    rcases hc with hc | hc
    · rw [hc]
      exact snprintf_call_in_bounds size st p.length hsize h.1 hp
    · by_cases hchk : (append_field size st (t ++ (if rest = [] then [] else [' ']))).2 ≥
          int_cast size
      · rw [if_pos hchk] at hc
        simp at hc
      · rw [if_neg hchk] at hc
        exact ih _ _ hI (by have := hI.1; omega) c hc

/-- C19: for a capacity between 1 and INT_MAX, at every `snprintf` call of `m3log_format`
the running count is between 0 and the capacity, the size argument is the capacity minus the
count without wrap-around, and the window offered ends exactly at the end of the buffer; the
call writing `] ` after an empty tag list is among them. -/
theorem m3log_format_calls_in_bounds (timestamp : CStr) (entry : m3log_entry_t)
    (buffer : List Char) (size : Nat) (hpos : 0 < size) (hmax : size ≤ INT_MAX)
    (hlen : buffer.length = size) :
    ∀ c ∈ m3log_format_calls timestamp entry buffer size, CallInBounds size c := by
  have hsize : size < 2 ^ 64 := by
    unfold INT_MAX at hmax
    omega
  have hle := int_cast_le size
  have h0 : size ≠ 0 := by omega
  have hI1 := append_field_first size buffer ('@' :: time_text timestamp entry.time ++ [' '])
    hsize hlen hpos
  intro c hc
  simp only [m3log_format_calls, if_neg h0, List.mem_cons] at hc
  rcases hc with hc | hc
  · rw [hc]
    exact snprintf_call_in_bounds size _ 0 hsize rfl (by omega)
  by_cases hc1 : (append_field size (buffer, 0)
      ('@' :: time_text timestamp entry.time ++ [' '])).2 ≥ int_cast size
  · rw [if_pos hc1] at hc
    simp at hc
  rw [if_neg hc1] at hc
  have hp1 : ('@' :: time_text timestamp entry.time ++ [' ']).length ≤ size := by
    have := hI1.1
    omega
  have hI2 := append_field_inv size _ _ ['['] hsize hpos hI1 hp1
  have hp2 : ('@' :: time_text timestamp entry.time ++ [' '] ++ ['[']).length ≤ size := by
    have := hI1.1
    rw [List.length_append, List.length_singleton]
    omega
  simp only [List.mem_cons, List.mem_append] at hc
  rcases hc with hc | hc | hc
  · rw [hc]
    exact snprintf_call_in_bounds size _ _ hsize hI1.1 hp1
  · exact format_tags_calls_in_bounds size hsize hpos _ _ _ hI2 hp2 c hc
  have hpost := format_tags_post size hsize hpos entry.tags.toList _ _ [] hI2 hp2
  cases hft : format_tags size entry.tags.toList
      (append_field size (append_field size (buffer, 0)
        ('@' :: time_text timestamp entry.time ++ [' '])) ['[']) with
  | error b =>
    rw [hft] at hc
    simp at hc
  | ok st3 =>
    rw [hft] at hc hpost
    obtain ⟨hI3, hp3⟩ := hpost
    simp only [List.mem_cons] at hc
    rcases hc with hc | hc
    · rw [hc]
      exact snprintf_call_in_bounds size _ _ hsize hI3.1 hp3
    have hI4 := append_field_inv size _ _ [']', ' '] hsize hpos hI3 hp3
    by_cases hc4 : (append_field size st3 [']', ' ']).2 ≥ int_cast size
    · rw [if_pos hc4] at hc
      simp at hc
    rw [if_neg hc4] at hc
    have hp4 : (('@' :: time_text timestamp entry.time ++ [' '] ++ ['['] ++
        join_tags entry.tags.toList) ++ [']', ' ']).length ≤ size := by
      have := hI4.1
      omega
    simp only [List.mem_cons] at hc
    rcases hc with hc | hc
    · rw [hc]
      exact snprintf_call_in_bounds size _ _ hsize hI4.1 hp4
    have hI5 := append_field_inv size _ _ (level_text entry.level) hsize hpos hI4 hp4
    by_cases hc5 : (append_field size (append_field size st3 [']', ' '])
        (level_text entry.level)).2 ≥ int_cast size
    · rw [if_pos hc5] at hc
      simp at hc
    rw [if_neg hc5] at hc
    cases hcont : entry.content with
    | none =>
      rw [hcont] at hc
      simp at hc
    | some content =>
      rw [hcont] at hc
      simp only [List.mem_singleton] at hc
      rw [hc]
      exact snprintf_call_in_bounds size _ _ hsize hI5.1 (by have := hI5.1; omega)

/-- C19, witness: with no tags and a capacity of 4 the calls are made at counts 0, 3 and 4
with size arguments 4, 1 and 0: the unchecked `] ` call after `[` gets an empty window. -/
theorem m3log_format_calls_in_bounds_witness :
    m3log_format_calls "now".toList
        { time := some "t".toList, tags := { tags := none }, level := M3LOG_LEVEL_INFO,
          content := some "x".toList } (List.replicate 4 'x') 4 = [(0, 4), (3, 1), (4, 0)] ∧
    ∀ c ∈ m3log_format_calls "now".toList
        { time := some "t".toList, tags := { tags := none }, level := M3LOG_LEVEL_INFO,
          content := some "x".toList } (List.replicate 4 'x') 4, CallInBounds 4 c :=
  ⟨by decide,
   m3log_format_calls_in_bounds "now".toList
     { time := some "t".toList, tags := { tags := none }, level := M3LOG_LEVEL_INFO,
       content := some "x".toList } (List.replicate 4 'x') 4 (by decide) (by decide)
     (by decide)⟩

/-! ## Theorems: the allocations of the decoder -/

theorem strdup_each_eq (toks : List CStr) (h : Heap) :
    strdup_each toks h =
      (List.range' h.next toks.length,
        { next := h.next + toks.length,
          live := (List.range' h.next toks.length).reverse ++ h.live }) := by
  induction toks generalizing h with
  | nil => simp [strdup_each]
  | cons t rest ih =>
    simp only [strdup_each, ih, Heap.alloc, List.length_cons, List.range'_succ,
      List.reverse_cons, List.append_assoc, List.singleton_append, Prod.mk.injEq,
      Heap.mk.injEq, and_true, true_and]
    omega

theorem heap_free_append (nx p : Nat) (F M : List Nat) (hp : p ∉ F) :
    Heap.free { next := nx, live := F ++ M } p = { next := nx, live := F ++ M.erase p } := by
  simp only [Heap.free, List.erase_append_right _ hp]

theorem free_each_reverse (ps M : List Nat) (nx : Nat) (hnd : ps.Nodup) :
    free_each ps { next := nx, live := ps.reverse ++ M } = { next := nx, live := M } := by
  induction ps generalizing M with
  | nil => rfl
  | cons p ps ih =>
    have hp : p ∉ ps.reverse := by
      rw [List.mem_reverse]
      exact (List.nodup_cons.1 hnd).1
    have e1 : Heap.free { next := nx, live := (p :: ps).reverse ++ M } p =
        { next := nx, live := ps.reverse ++ M } := by
      rw [List.reverse_cons, List.append_assoc, heap_free_append nx p _ _ hp]
      simp
    rw [free_each, e1]
    exact ih M (List.nodup_cons.1 hnd).2

theorem m3log_parse_tags_heap_eq (s : CStr) (h : Heap) :
    m3log_parse_tags_heap s h =
      if s = [] then ((none, []), h)
      else
        ((some h.next,
          List.range' (h.next + 2) ((strtok_all s []).take (count_tags s false 1)).length),
         { next := h.next + 2 + ((strtok_all s []).take (count_tags s false 1)).length,
           live := (List.range' (h.next + 2)
             ((strtok_all s []).take (count_tags s false 1)).length).reverse ++
               h.next :: h.live }) := by
  unfold m3log_parse_tags_heap
  split
  · rfl
  · have hp : h.next + 1 ∉ (List.range' (h.next + 1 + 1)
        ((strtok_all s []).take (count_tags s false 1)).length).reverse := by
      rw [List.mem_reverse, List.mem_range'_1]
      omega
    simp only [strdup_each_eq, Heap.alloc]
    rw [heap_free_append _ _ _ _ hp]
    simp

/-- The releases on the failure path of the level search give back exactly what the call
had allocated: `F` holds the tag strings and the tag array, then come the timestamp and the
working copy. -/
theorem level_fail_cleanup (copy nx : Nat) (time tags : Option Nat) (strs F L : List Nat)
    (hF : (tags = none ∧ F = []) ∨
      (∃ arr, tags = some arr ∧ F = strs.reverse ++ [arr] ∧ arr ∉ strs ∧ strs.Nodup))
    (hc : copy ∉ F) (ht : ∀ t ∈ time, t ≠ copy ∧ t ∉ F) :
    m3log_free_tags_heap tags strs
      (free_time time (Heap.free { next := nx, live := F ++ (time.toList ++ copy :: L) } copy))
      = { next := nx, live := L } := by
  have e1 : free_time time
      (Heap.free { next := nx, live := F ++ (time.toList ++ copy :: L) } copy) =
      { next := nx, live := F ++ L } := by
    rw [heap_free_append nx copy _ _ hc]
    cases time with
    | none => simp [free_time]
    | some t =>
      obtain ⟨h1, h2⟩ := ht t rfl
      simp only [free_time, Option.toList_some, List.singleton_append]
      rw [List.erase_cons_tail (by simpa using h1), List.erase_cons_head,
        heap_free_append nx t _ _ h2, List.erase_cons_head]
  rw [e1]
  rcases hF with ⟨h1, h2⟩ | ⟨arr, h1, h2, h3, h4⟩
  · subst h1 h2
    rfl
  · subst h1 h2
    simp only [m3log_free_tags_heap, List.append_assoc, List.singleton_append]
    rw [free_each_reverse strs (arr :: L) nx h4]
    simp [Heap.free]

theorem parse_heap_from_level_fail (copy : Nat) (e : entry_ptrs) (s : CStr) (h : Heap)
    (F L : List Nat) (hlive : h.live = F ++ (e.time.toList ++ copy :: L))
    (hF : (e.tags = none ∧ F = []) ∨
      (∃ arr, e.tags = some arr ∧ F = e.tag_strs.reverse ++ [arr] ∧ arr ∉ e.tag_strs ∧
        e.tag_strs.Nodup))
    (hc : copy ∉ F) (ht : ∀ t ∈ e.time, t ≠ copy ∧ t ∉ F)
    (hfail : (parse_heap_from_level copy e s h).1 = M3LOG_ERROR_INVALID_FORMAT) :
    (parse_heap_from_level copy e s h).2.2.live = L ∧
    (parse_heap_from_level copy e s h).2.1 = { e with tags := none, tag_strs := [] } := by
  have hh : h = { next := h.next, live := F ++ (e.time.toList ++ copy :: L) } := by
    cases h
    simp only [Heap.mk.injEq, true_and]
    exact hlive
  cases h1 : strchr s '#' with
  | none =>
    simp [parse_heap_from_level, h1] at hfail
  | some lp =>
    cases h2 : strchr lp ':' with
    | some le =>
      simp [parse_heap_from_level, h1, h2] at hfail
    | none =>
      have hres : parse_heap_from_level copy e s h =
          (M3LOG_ERROR_INVALID_FORMAT, { e with tags := none, tag_strs := [] },
            m3log_free_tags_heap e.tags e.tag_strs (free_time e.time (h.free copy))) := by
        simp only [parse_heap_from_level, h1, h2]
      have hcl := level_fail_cleanup copy h.next e.time e.tags e.tag_strs F L hF hc ht
      rw [← hh] at hcl
      rw [hres, hcl]
      exact ⟨rfl, rfl⟩

theorem parse_heap_from_tags_fail (copy : Nat) (e : entry_ptrs) (s : CStr) (h : Heap)
    (L : List Nat) (hlive : h.live = e.time.toList ++ copy :: L)
    (he : e.tags = none ∧ e.tag_strs = [])
    (hc : copy < h.next) (ht : ∀ t ∈ e.time, t ≠ copy ∧ t < h.next)
    (hfail : (parse_heap_from_tags copy e s h).1 = M3LOG_ERROR_INVALID_FORMAT) :
    (parse_heap_from_tags copy e s h).2.2.live = L ∧
    (parse_heap_from_tags copy e s h).2.1 = e := by
  have hee : ({ e with tags := none, tag_strs := [] } : entry_ptrs) = e := by
    obtain ⟨time, tags, strs, content⟩ := e
    obtain ⟨h1, h2⟩ := he
    simp only at h1 h2
    subst h1 h2
    rfl
  cases h1 : strchr s '[' with
  | none =>
    have hres : parse_heap_from_tags copy e s h =
        parse_heap_from_level copy { e with tags := none, tag_strs := [] } s h := by
      simp only [parse_heap_from_tags, h1]
    rw [hres] at hfail ⊢
    have := parse_heap_from_level_fail copy { e with tags := none, tag_strs := [] } s h
      [] L (by simpa using hlive) (Or.inl ⟨rfl, rfl⟩) (by simp)
      (fun t ht' => ⟨(ht t ht').1, by simp⟩) hfail
    rw [this.1, this.2]
    exact ⟨rfl, hee⟩
  | some tp =>
    cases h2 : strchr tp ']' with
    | none =>
      have hres : parse_heap_from_tags copy e s h =
          (M3LOG_ERROR_INVALID_FORMAT, e, free_time e.time (h.free copy)) := by
        simp only [parse_heap_from_tags, h1, h2]
      have hh : h = { next := h.next, live := [] ++ (e.time.toList ++ copy :: L) } := by
        cases h
        simp only [Heap.mk.injEq, true_and, List.nil_append]
        exact hlive
      have hcl := level_fail_cleanup copy h.next e.time none [] [] L (Or.inl ⟨rfl, rfl⟩)
        (by simp) (fun t ht' => ⟨(ht t ht').1, by simp⟩)
      rw [← hh] at hcl
      simp only [m3log_free_tags_heap] at hcl
      rw [hres, hcl]
      exact ⟨rfl, rfl⟩
    | some te =>
      by_cases hin : nul_at tp.tail te = []
      · have hres : parse_heap_from_tags copy e s h =
            parse_heap_from_level copy { e with tags := none, tag_strs := [] } te.tail h := by
          simp only [parse_heap_from_tags, h1, h2, m3log_parse_tags_heap_eq, hin, if_true]
        rw [hres] at hfail ⊢
        have := parse_heap_from_level_fail copy { e with tags := none, tag_strs := [] }
          te.tail h [] L (by simpa using hlive) (Or.inl ⟨rfl, rfl⟩) (by simp)
          (fun t ht' => ⟨(ht t ht').1, by simp⟩) hfail
        rw [this.1, this.2]
        exact ⟨rfl, hee⟩
      · have hres : parse_heap_from_tags copy e s h =
            parse_heap_from_level copy
              { e with
                tags := some h.next,
                tag_strs := List.range' (h.next + 2)
                  ((strtok_all (nul_at tp.tail te) []).take
                    (count_tags (nul_at tp.tail te) false 1)).length }
              te.tail
              { next := h.next + 2 + ((strtok_all (nul_at tp.tail te) []).take
                  (count_tags (nul_at tp.tail te) false 1)).length,
                live := (List.range' (h.next + 2)
                  ((strtok_all (nul_at tp.tail te) []).take
                    (count_tags (nul_at tp.tail te) false 1)).length).reverse ++
                      h.next :: h.live } := by
          simp only [parse_heap_from_tags, h1, h2, m3log_parse_tags_heap_eq, hin, if_false]
        rw [hres] at hfail ⊢
        generalize ((strtok_all (nul_at tp.tail te) []).take
          (count_tags (nul_at tp.tail te) false 1)).length = k at hfail ⊢
        have := parse_heap_from_level_fail copy
          { e with tags := some h.next, tag_strs := List.range' (h.next + 2) k } te.tail
          { next := h.next + 2 + k,
            live := (List.range' (h.next + 2) k).reverse ++ h.next :: h.live }
          ((List.range' (h.next + 2) k).reverse ++ [h.next]) L
          (by simp [hlive])
          (Or.inr ⟨h.next, rfl, rfl, by rw [List.mem_range'_1]; omega,
            List.nodup_range' _ _⟩)
          (by
            simp only [List.mem_append, List.mem_reverse, List.mem_range'_1,
              List.mem_singleton]
            omega)
          (fun t ht' => ⟨(ht t ht').1, by
            have := (ht t ht').2
            simp only [List.mem_append, List.mem_reverse, List.mem_range'_1,
              List.mem_singleton]
            omega⟩) hfail
        rw [this.1, this.2]
        exact ⟨rfl, hee⟩

theorem parse_heap_from_level_code (copy : Nat) (ep : entry_ptrs) (e : m3log_entry_t)
    (s : CStr) (h : Heap) :
    (parse_heap_from_level copy ep s h).1 = (parse_from_level e s).1 := by
  cases h1 : strchr s '#' with
  | none =>
    cases h2 : strchr s ':' <;> simp [parse_heap_from_level, parse_from_level, h1, h2]
  | some lp =>
    cases h2 : strchr lp ':' <;> simp [parse_heap_from_level, parse_from_level, h1, h2]

theorem parse_heap_from_tags_code (copy : Nat) (ep : entry_ptrs) (e : m3log_entry_t)
    (s : CStr) (h : Heap) :
    (parse_heap_from_tags copy ep s h).1 = (parse_from_tags e s).1 := by
  cases h1 : strchr s '[' with
  | none =>
    simp only [parse_heap_from_tags, parse_from_tags, h1]
    exact parse_heap_from_level_code _ _ _ _ _
  | some tp =>
    cases h2 : strchr tp ']' with
    | none => simp [parse_heap_from_tags, parse_from_tags, h1, h2]
    | some te =>
      simp only [parse_heap_from_tags, parse_from_tags, h1, h2]
      exact parse_heap_from_level_code _ _ _ _ _

/-- C16: with its allocations tracked, `m3log_parse` returns the same code as the decoder
proper, and on every M3LOG_ERROR_INVALID_FORMAT return the allocations live after the call
are exactly those live before it (the working copy, the timestamp, the tag array and every
tag string have been released), and no address left in the entry is live. -/
theorem m3log_parse_releases_on_failure (line : CStr) (e0 : m3log_entry_t) (h : Heap)
    (hwf : ∀ p ∈ h.live, p < h.next) :
    (m3log_parse_heap line h).1 = (m3log_parse (some line) (some e0)).1 ∧
    ((m3log_parse_heap line h).1 = M3LOG_ERROR_INVALID_FORMAT →
      (m3log_parse_heap line h).2.2.live = h.live ∧
      ∀ p ∈ (m3log_parse_heap line h).2.1.all, p ∉ (m3log_parse_heap line h).2.2.live) := by
  have hnl : h.next ∉ h.live := fun hm => absurd (hwf _ hm) (by omega)
  have hnl1 : h.next + 1 ∉ h.live := fun hm => absurd (hwf _ hm) (by omega)
  by_cases hh : line.head? = some '@'
  · cases h1 : strchr line.tail ' ' with
    | none =>
      have hp : m3log_parse_heap line h =
          (M3LOG_ERROR_INVALID_FORMAT, entry_ptrs_zero, (h.alloc).2.free (h.alloc).1) := by
        simp only [m3log_parse_heap, hh, if_true, h1]
      have hq : m3log_parse (some line) (some e0) =
          (M3LOG_ERROR_INVALID_FORMAT, some entry_zero) := by
        rw [m3log_parse_stages]
        simp only [hh, if_true, h1]
      rw [hp, hq]
      refine ⟨rfl, fun _ => ⟨?_, ?_⟩⟩
      · simp [Heap.alloc, Heap.free]
      · intro p hp2
        simp [entry_ptrs.all, entry_ptrs_zero] at hp2
    | some te =>
      have hp : m3log_parse_heap line h =
          parse_heap_from_tags h.next { entry_ptrs_zero with time := some (h.next + 1) }
            te.tail { next := h.next + 2, live := (h.next + 1) :: h.next :: h.live } := by
        simp only [m3log_parse_heap, hh, if_true, h1, Heap.alloc]
      have hq : m3log_parse (some line) (some e0) =
          parse_from_tags { entry_zero with time := some (nul_at line.tail te) } te.tail := by
        rw [m3log_parse_stages]
        simp only [hh, if_true, h1]
      rw [hp, hq]
      refine ⟨parse_heap_from_tags_code _ _ _ _ _, fun hfail => ?_⟩
      obtain ⟨h2, h3⟩ := parse_heap_from_tags_fail h.next
        { entry_ptrs_zero with time := some (h.next + 1) } te.tail
        { next := h.next + 2, live := (h.next + 1) :: h.next :: h.live } h.live
        (by simp) ⟨rfl, rfl⟩ (by simp)
        (by
          intro t ht
          simp at ht
          subst ht
          simp) hfail
      rw [h2, h3]
      refine ⟨rfl, ?_⟩
      intro p hp2
      simp [entry_ptrs.all, entry_ptrs_zero] at hp2
      rw [hp2]
      exact hnl1
  · have hp : m3log_parse_heap line h =
        parse_heap_from_tags h.next entry_ptrs_zero line
          { next := h.next + 1, live := h.next :: h.live } := by
      simp only [m3log_parse_heap, hh, if_false, Heap.alloc]
    rw [hp, m3log_parse_no_at line e0 hh]
    refine ⟨parse_heap_from_tags_code _ _ _ _ _, fun hfail => ?_⟩
    obtain ⟨h2, h3⟩ := parse_heap_from_tags_fail h.next entry_ptrs_zero line
      { next := h.next + 1, live := h.next :: h.live } h.live
      (by simp [entry_ptrs_zero]) ⟨rfl, rfl⟩ (by simp)
      (by
        intro t ht
        simp [entry_ptrs_zero] at ht) hfail
    rw [h2, h3]
    refine ⟨rfl, ?_⟩
    intro p hp2
    simp [entry_ptrs.all, entry_ptrs_zero] at hp2

/-- C16, witness: `@t [a b] #INFO x` fails at the level search after the working copy, the
timestamp, the tag array and two tag strings were allocated; the allocator is left with the
two allocations it had before. -/
theorem m3log_parse_releases_on_failure_witness :
    m3log_parse_heap "@t [a b] #INFO x".toList { next := 7, live := [5, 2] } =
      (M3LOG_ERROR_INVALID_FORMAT,
        { time := some 8, tags := none, tag_strs := [], content := none },
        { next := 13, live := [5, 2] }) ∧
    ((m3log_parse_heap "@t [a b] #INFO x".toList { next := 7, live := [5, 2] }).1 =
        M3LOG_ERROR_INVALID_FORMAT →
      (m3log_parse_heap "@t [a b] #INFO x".toList { next := 7, live := [5, 2] }).2.2.live =
        [5, 2] ∧
      ∀ p ∈ (m3log_parse_heap "@t [a b] #INFO x".toList { next := 7, live := [5, 2] }).2.1.all,
        p ∉ (m3log_parse_heap "@t [a b] #INFO x".toList
          { next := 7, live := [5, 2] }).2.2.live) :=
  ⟨by decide,
   (m3log_parse_releases_on_failure "@t [a b] #INFO x".toList entry_zero
     { next := 7, live := [5, 2] } (by decide)).2⟩

/-! ## Theorems: the C++ encoder -/

theorem Logger_format_tags_eq (tags : List CStr) : Logger.format_tags tags = join_tags tags := by
  induction tags with
  | nil => rfl
  | cons t rest ih => rw [Logger.format_tags, ih, join_tags_cons]

theorem escapeMessage_eq_spec (m : List Char) : Logger.escapeMessage m = escape_spec m := by
  induction m with
  | nil => rfl
  | cons c rest ih =>
    by_cases hc : c = '\n'
    · simp only [Logger.escapeMessage, hc, if_true, ih]
      simp [escape_spec]
    · simp only [Logger.escapeMessage, hc, if_false, ih]
      simp [escape_spec, hc]

theorem escapeMessage_no_newline (m : List Char) : '\n' ∉ Logger.escapeMessage m := by
  induction m with
  | nil => simp [Logger.escapeMessage]
  | cons c rest ih =>
    by_cases hc : c = '\n'
    · simp only [Logger.escapeMessage, hc, if_true, List.mem_cons, not_or]
      exact ⟨by decide, by decide, ih⟩
    · simp only [Logger.escapeMessage, hc, if_false, List.mem_cons, not_or]
      exact ⟨fun h => hc h.symm, ih⟩

theorem escapeMessage_of_no_newline (m : List Char) (h : '\n' ∉ m) :
    Logger.escapeMessage m = m := by
  induction m with
  | nil => rfl
  | cons c rest ih =>
    have hc : c ≠ '\n' := fun e => h (by simp [e])
    have hr : '\n' ∉ rest := fun e => h (by simp [e])
    simp only [Logger.escapeMessage, hc, if_false, ih hr]

theorem levelToString_toC (level : LogLevel) :
    level_text level.toC = '#' :: Logger.levelToString level ++ [':', ' '] := by
  cases level <;> rfl

theorem format_output_eq (timestamp : CStr) (entry : m3log_entry_t) (buffer : List Char)
    (size : Nat) (hsize : size < 2 ^ 64) (hlen : buffer.length = size)
    (hcap : ((format_line timestamp entry).length < size ∧ size ≤ INT_MAX) ∨
      0 ≤ (m3log_format timestamp (some entry) (some buffer) size).1) :
    format_output timestamp entry buffer size = some (format_line timestamp entry) := by
  have hok : 0 ≤ (m3log_format timestamp (some entry) (some buffer) size).1 := by
    rcases hcap with ⟨h1, h2⟩ | h
    · obtain ⟨b, hb, _⟩ := m3log_format_fits timestamp entry buffer size hsize hlen
        (by rw [int_cast_of_le size h2]; exact_mod_cast h1)
      rw [hb]
      exact Int.natCast_nonneg _
    · exact h
  obtain ⟨b, hres, h6, _⟩ := m3log_format_ok timestamp entry buffer size hsize hlen hok
  simp only [format_output, hres, Int.toNat_ofNat, h6, Int.natCast_nonneg, if_true]

theorem generateTimestamp_ne_nil (date_time : List Char) (epoch_ms : Nat) :
    Logger.generateTimestamp date_time epoch_ms ≠ [] := by
  simp [Logger.generateTimestamp]

/-- The two encoders agree on every non-empty timestamp. -/
theorem cpp_c_format_agree_nonempty (T : CStr) (tags : List CStr) (level : LogLevel)
    (message generated : CStr) (buffer : List Char) (size : Nat)
    (hT : T ≠ []) (htags : tags ≠ []) (hmsg : '\n' ∉ message)
    (hsize : size < 2 ^ 64) (hlen : buffer.length = size)
    (hcap : ((format_line generated (record_of T level tags message)).length < size ∧
        size ≤ INT_MAX) ∨
      0 ≤ (m3log_format generated (some (record_of T level tags message))
        (some buffer) size).1) :
    format_output generated (record_of T level tags message) buffer size =
      some (Logger.format T level tags message) := by
  rw [format_output_eq generated _ buffer size hsize hlen hcap]
  have htt : time_text generated (some T) = T := by
    cases T with
    | nil => exact absurd rfl hT
    | cons x xs => rfl
  simp only [format_line, record_of, htt, levelToString_toC, Logger.format, htags, ne_eq,
    not_false_eq_true, if_true, Logger_format_tags_eq, escapeMessage_of_no_newline _ hmsg,
    m3log_tags_t.toList, Option.getD_some]
  simp

theorem trim_tail_decomp (r : CStr) :
    ∃ post, r = trim_tail r ++ post ∧ ∀ ch ∈ post, isspace ch = true := by
  refine ⟨(r.reverse.takeWhile isspace).reverse, ?_, ?_⟩
  · rw [trim_tail_eq, ← List.reverse_append, List.takeWhile_append_dropWhile,
      List.reverse_reverse]
  · intro ch hch
    rw [List.mem_reverse] at hch
    exact List.mem_takeWhile_imp hch

theorem m3log_trim_decomp (s : CStr) :
    ∃ pre post, s = pre ++ m3log_trim s ++ post ∧
      (∀ ch ∈ pre, isspace ch = true) ∧ (∀ ch ∈ post, isspace ch = true) := by
  have hs := List.takeWhile_append_dropWhile isspace s
  have hpre : ∀ ch ∈ s.takeWhile isspace, isspace ch = true :=
    fun ch hch => List.mem_takeWhile_imp hch
  unfold m3log_trim
  cases hd : s.dropWhile isspace with
  | nil =>
    refine ⟨s.takeWhile isspace, [], ?_, hpre, by simp⟩
    rw [hd] at hs
    simpa using hs.symm
  | cons c rest =>
    obtain ⟨post, h1, h2⟩ := trim_tail_decomp rest
    refine ⟨s.takeWhile isspace, post, ?_, hpre, h2⟩
    rw [hd] at hs
    simp only [List.append_assoc, List.cons_append, ← h1]
    exact hs.symm

/-- C22: `m3log_trim` is the reference trimming: for every string it equals the string with
its leading and trailing whitespace dropped; the input is the result with whitespace only
before and after it, so the result runs from the first to the last non-whitespace character
and whitespace inside is kept; the result is empty exactly when the input is empty or all
whitespace; and trimming twice is trimming once. -/
theorem m3log_trim_reference (s : CStr) :
    m3log_trim s = trim_spec s ∧
    (∃ pre post, s = pre ++ m3log_trim s ++ post ∧
      (∀ ch ∈ pre, isspace ch = true) ∧ (∀ ch ∈ post, isspace ch = true)) ∧
    Trimmed (m3log_trim s) ∧
    (m3log_trim s = [] ↔ ∀ ch ∈ s, isspace ch = true) ∧
    m3log_trim (m3log_trim s) = m3log_trim s ∧
    m3log_trim [] = [] ∧
    m3log_trim " \t\n ".toList = [] ∧
    m3log_trim "  a  b \t".toList = "a  b".toList := by
  refine ⟨m3log_trim_eq_spec s, m3log_trim_decomp s, m3log_trim_Trimmed s, ⟨?_, ?_⟩,
    m3log_trim_of_Trimmed _ (m3log_trim_Trimmed s), by decide, by decide, by decide⟩
  · intro h ch hch
    obtain ⟨pre, post, h1, h2, h3⟩ := m3log_trim_decomp s
    rw [h] at h1
    rw [h1] at hch
    simp only [List.append_nil, List.mem_append] at hch
    rcases hch with hch | hch
    · exact h2 ch hch
    · exact h3 ch hch
  · exact m3log_trim_whitespace s

/-! ## Theorems: the encoder with an `int` counter -/

theorem m3log_format_int_stages (timestamp : CStr) (entry : m3log_entry_t)
    (buffer : List Char) (buffer_size : Nat) :
    m3log_format_int timestamp (some entry) (some buffer) buffer_size =
      if buffer_size = 0 then some (-(M3LOG_ERROR_INVALID_ARGUMENT.toInt), some buffer)
      else
        (append_field_int buffer_size (buffer, 0)
          ('@' :: time_text timestamp entry.time ++ [' '])).bind fun st =>
          if st.2 ≥ int_cast buffer_size then
            some (-(M3LOG_ERROR_BUFFER_TOO_SMALL.toInt), some st.1)
          else
            (append_field_int buffer_size st ['[']).bind fun st =>
              (format_tags_int buffer_size entry.tags.toList st).bind fun r =>
                match r with
                | Except.error buffer =>
                  some (-(M3LOG_ERROR_BUFFER_TOO_SMALL.toInt), some buffer)
                | Except.ok st => format_from_close_int buffer_size entry st := by
  obtain ⟨time, tags, level, content⟩ := entry
  cases time with
  | none => rfl
  | some t => cases t <;> rfl

theorem append_field_int_eq (size : Nat) (st : List Char × Int) (s : CStr)
    (h0 : 0 ≤ st.2) (h1 : st.2 ≤ (size : Int))
    (h2 : st.2 + (s.length : Int) ≤ (INT_MAX : Int)) :
    append_field_int size st s = some (append_field size st s) := by
  have hs : s.length ≤ INT_MAX := by omega
  have hr : (snprintf st.1 st.2.toNat (size_sub size st.2) s).2 = (s.length : Int) := by
    unfold snprintf
    split <;> rfl
  have hc : ¬ (st.2 < 0 ∨ (size : Int) < st.2) := by omega
  have hd : ¬ ((INT_MAX : Int) < st.2 + (snprintf st.1 st.2.toNat (size_sub size st.2) s).2) := by
    rw [hr]
    omega
  simp only [append_field_int, snprintf_int, hs, if_true, hc, if_false, hd, append_field]

theorem format_from_content_int_eq (size : Nat) (entry : m3log_entry_t)
    (st : List Char × Int) (h0 : 0 ≤ st.2) (h1 : st.2 ≤ (size : Int))
    (h2 : st.2 + ((entry.content.getD []).length : Int) ≤ (INT_MAX : Int)) :
    format_from_content_int size entry st = some (format_from_content size entry st) := by
  obtain ⟨time, tags, level, content⟩ := entry
  cases content with
  | none =>
    simp only [format_from_content_int, format_from_content, Option.some_bind]
    split <;> rfl
  | some c =>
    simp only [format_from_content_int, format_from_content,
      append_field_int_eq size st c h0 h1 (by simpa using h2), Option.some_bind]
    split <;> rfl

theorem format_from_level_int_eq (size : Nat) (entry : m3log_entry_t)
    (st : List Char × Int) (h0 : 0 ≤ st.2) (h1 : st.2 ≤ (size : Int))
    (h2 : st.2 + ((level_text entry.level).length : Int) +
      ((entry.content.getD []).length : Int) ≤ (INT_MAX : Int)) :
    format_from_level_int size entry st = some (format_from_level size entry st) := by
  have hle := int_cast_le size
  have hi : (if entry.level ≠ M3LOG_LEVEL_UNKNOWN then
      append_field_int size st ('#' :: m3log_level_to_string entry.level ++ [':', ' '])
    else append_field_int size st [':', ' ']) =
      append_field_int size st (level_text entry.level) := by
    unfold level_text
    split <;> rfl
  have hst : (if entry.level ≠ M3LOG_LEVEL_UNKNOWN then
      append_field size st ('#' :: m3log_level_to_string entry.level ++ [':', ' '])
    else append_field size st [':', ' ']) = append_field size st (level_text entry.level) := by
    unfold level_text
    split <;> rfl
  have hw := append_field_written size st (level_text entry.level)
  simp only [format_from_level_int, format_from_level, hi, hst,
    append_field_int_eq size st (level_text entry.level) h0 h1 (by omega), Option.some_bind]
  by_cases hc : (append_field size st (level_text entry.level)).2 ≥ int_cast size
  · simp only [hc, if_true]
  · simp only [hc, if_false]
    exact format_from_content_int_eq size entry _ (by omega) (by omega) (by omega)

theorem format_from_close_int_eq (size : Nat) (entry : m3log_entry_t)
    (st : List Char × Int) (h0 : 0 ≤ st.2) (h1 : st.2 ≤ (size : Int))
    (h2 : st.2 + 2 + ((level_text entry.level).length : Int) +
      ((entry.content.getD []).length : Int) ≤ (INT_MAX : Int)) :
    format_from_close_int size entry st = some (format_from_close size entry st) := by
  have hle := int_cast_le size
  have hw := append_field_written size st [']', ' ']
  simp only [List.length_cons, List.length_nil] at hw
  simp only [format_from_close_int, format_from_close,
    append_field_int_eq size st [']', ' '] h0 h1
      (by simp only [List.length_cons, List.length_nil]; omega), Option.some_bind]
  by_cases hc : (append_field size st [']', ' ']).2 ≥ int_cast size
  · simp only [hc, if_true]
  · simp only [hc, if_false]
    exact format_from_level_int_eq size entry _ (by omega) (by omega) (by omega)

theorem format_tags_int_eq (size : Nat) (tags : List CStr) (st : List Char × Int)
    (h0 : 0 ≤ st.2) (h1 : st.2 ≤ (size : Int))
    (h2 : st.2 + ((join_tags tags).length : Int) ≤ (INT_MAX : Int)) :
    format_tags_int size tags st = some (format_tags size tags st) := by
  induction tags generalizing st with
  | nil => rfl
  | cons t rest ih =>
    have hle := int_cast_le size
    rw [join_tags_cons, List.length_append] at h2
    have hw := append_field_written size st (t ++ (if rest = [] then [] else [' ']))
    simp only [format_tags_int, format_tags,
      append_field_int_eq size st (t ++ (if rest = [] then [] else [' '])) h0 h1
        (by push_cast at h2; omega), Option.some_bind]
    by_cases hc : (append_field size st (t ++ (if rest = [] then [] else [' ']))).2 ≥
        int_cast size
    · simp only [hc, if_true]
    · simp only [hc, if_false]
      exact ih _ (by omega) (by omega) (by push_cast at h2; omega)

/-- The counter after the tag loop: what it was before plus the length of the joined tags. -/
theorem format_tags_written (size : Nat) (tags : List CStr) (st st2 : List Char × Int)
    (h : format_tags size tags st = Except.ok st2) :
    st2.2 = st.2 + ((join_tags tags).length : Int) ∧ (st2.2 < int_cast size ∨ tags = []) := by
  have hnil : (join_tags ([] : List CStr)).length = 0 := rfl
  induction tags generalizing st with
  | nil =>
    simp only [format_tags, Except.ok.injEq] at h
    rw [← h, hnil]
    exact ⟨by simp, Or.inr rfl⟩
  | cons t rest ih =>
    have hw := append_field_written size st (t ++ (if rest = [] then [] else [' ']))
    by_cases hc : (append_field size st (t ++ (if rest = [] then [] else [' ']))).2 ≥
        int_cast size
    · simp [format_tags, hc] at h
    · simp only [format_tags, hc, if_false] at h
      obtain ⟨e, k⟩ := ih _ h
      refine ⟨by rw [join_tags_cons, List.length_append]; push_cast; omega, Or.inl ?_⟩
      rcases k with k | k
      · exact k
      · subst k
        rw [hnil] at e
        omega

/-- While the full line is at most INT_MAX bytes long, the encoder with an `int` counter has
defined behaviour and is the encoder `m3log_format`. -/
theorem m3log_format_int_eq (timestamp : CStr) (entry : m3log_entry_t) (buffer : List Char)
    (size : Nat) (hline : (format_line timestamp entry).length ≤ INT_MAX) :
    m3log_format_int timestamp (some entry) (some buffer) size =
      some (m3log_format timestamp (some entry) (some buffer) size) := by
  have hle := int_cast_le size
  have hl : (format_line timestamp entry).length =
      ('@' :: time_text timestamp entry.time ++ [' ']).length + 1 +
        (join_tags entry.tags.toList).length + 2 + (level_text entry.level).length +
        (entry.content.getD []).length := by
    simp only [format_line, List.length_append, List.length_cons, List.length_nil]
    omega
  rw [hl] at hline
  rw [m3log_format_int_stages, m3log_format_stages]
  by_cases h0 : size = 0
  · simp only [h0, if_true]
  · simp only [h0, if_false]
    have hw1 := append_field_written size (buffer, 0)
      ('@' :: time_text timestamp entry.time ++ [' '])
    have hz : ((buffer, (0 : Int)) : List Char × Int).2 = 0 := rfl
    rw [hz] at hw1
    simp only [append_field_int_eq size (buffer, 0)
      ('@' :: time_text timestamp entry.time ++ [' ']) (le_refl _) (by rw [hz]; omega)
      (by rw [hz]; omega), Option.some_bind]
    by_cases hc : (append_field size (buffer, 0)
        ('@' :: time_text timestamp entry.time ++ [' '])).2 ≥ int_cast size
    · simp only [hc, if_true]
    · simp only [hc, if_false]
      have hw2 := append_field_written size (append_field size (buffer, 0)
        ('@' :: time_text timestamp entry.time ++ [' '])) ['[']
      simp only [List.length_singleton] at hw2
      rw [append_field_int_eq size _ ['['] (by omega) (by omega)
        (by simp only [List.length_singleton]; omega), Option.some_bind,
        format_tags_int_eq size _ _ (by omega) (by omega) (by omega), Option.some_bind]
      cases hft : format_tags size entry.tags.toList
          (append_field size (append_field size (buffer, 0)
            ('@' :: time_text timestamp entry.time ++ [' '])) ['[']) with
      | error b => rfl
      | ok st2 =>
        simp only []
        obtain ⟨k1, k2⟩ := format_tags_written size _ _ _ hft
        rcases k2 with k2 | k2
        · exact format_from_close_int_eq size entry st2 (by omega) (by omega) (by omega)
        · rw [k2] at k1 hline
          have hnil : (join_tags ([] : List CStr)).length = 0 := rfl
          rw [hnil] at k1 hline
          exact format_from_close_int_eq size entry st2 (by omega) (by omega) (by omega)

/-! ### A content of more than INT_MAX bytes -/

theorem append_field_int_huge (size : Nat) (st : List Char × Int) (c : CStr)
    (h0 : 0 ≤ st.2) (h1 : st.2 ≤ (size : Int)) (h2 : st.2 ≤ (INT_MAX : Int) + 1)
    (hc : INT_MAX < c.length) :
    append_field_int size st c =
      some ((snprintf st.1 st.2.toNat (size_sub size st.2) c).1, st.2 - 1) := by
  have hs : ¬ c.length ≤ INT_MAX := by omega
  have hb : ¬ (st.2 < 0 ∨ (size : Int) < st.2) := by omega
  have hd : ¬ ((INT_MAX : Int) < st.2 + -1) := by omega
  simp only [append_field_int, snprintf_int, hs, if_false, hb, hd]
  rfl

theorem format_from_content_int_huge (size : Nat) (entry : m3log_entry_t)
    (st : List Char × Int) (c : CStr) (hcontent : entry.content = some c)
    (hc : INT_MAX < c.length) (h0 : 0 ≤ st.2) (h1 : st.2 < (size : Int))
    (hmax : size ≤ INT_MAX) :
    ∃ b, format_from_content_int size entry st = some (st.2 - 1, some b) := by
  have hk := int_cast_of_le size hmax
  have hch : ¬ (st.2 - 1 ≥ int_cast size) := by omega
  simp only [format_from_content_int, hcontent,
    append_field_int_huge size st c h0 (by omega) (by omega) hc, Option.some_bind, hch,
    if_false]
  exact ⟨_, rfl⟩

theorem format_from_level_int_huge (size : Nat) (entry : m3log_entry_t)
    (st : List Char × Int) (c : CStr) (hcontent : entry.content = some c)
    (hc : INT_MAX < c.length) (h0 : 0 ≤ st.2)
    (h1 : st.2 + ((level_text entry.level).length : Int) < (size : Int))
    (hmax : size ≤ INT_MAX) :
    ∃ b, format_from_level_int size entry st =
      some (st.2 + ((level_text entry.level).length : Int) - 1, some b) := by
  have hk := int_cast_of_le size hmax
  have hi : (if entry.level ≠ M3LOG_LEVEL_UNKNOWN then
      append_field_int size st ('#' :: m3log_level_to_string entry.level ++ [':', ' '])
    else append_field_int size st [':', ' ']) =
      append_field_int size st (level_text entry.level) := by
    unfold level_text
    split <;> rfl
  have hw := append_field_written size st (level_text entry.level)
  have hch : ¬ ((append_field size st (level_text entry.level)).2 ≥ int_cast size) := by omega
  simp only [format_from_level_int, hi,
    append_field_int_eq size st (level_text entry.level) h0 (by omega) (by omega),
    Option.some_bind, hch, if_false]
  rw [← hw]
  exact format_from_content_int_huge size entry _ c hcontent hc (by omega) (by omega) hmax

theorem format_from_close_int_huge (size : Nat) (entry : m3log_entry_t)
    (st : List Char × Int) (c : CStr) (hcontent : entry.content = some c)
    (hc : INT_MAX < c.length) (h0 : 0 ≤ st.2)
    (h1 : st.2 + 2 + ((level_text entry.level).length : Int) < (size : Int))
    (hmax : size ≤ INT_MAX) :
    ∃ b, format_from_close_int size entry st =
      some (st.2 + 2 + ((level_text entry.level).length : Int) - 1, some b) := by
  have hk := int_cast_of_le size hmax
  have hw := append_field_written size st [']', ' ']
  simp only [List.length_cons, List.length_nil] at hw
  have hch : ¬ ((append_field size st [']', ' ']).2 ≥ int_cast size) := by omega
  simp only [format_from_close_int,
    append_field_int_eq size st [']', ' '] h0 (by omega)
      (by simp only [List.length_cons, List.length_nil]; omega),
    Option.some_bind, hch, if_false]
  have hw2 : st.2 + 2 = (append_field size st [']', ' ']).2 := by omega
  rw [hw2]
  exact format_from_level_int_huge size entry _ c hcontent hc (by omega) (by omega) hmax

theorem format_tags_ok (size : Nat) (tags : List CStr) (st : List Char × Int)
    (h : st.2 + ((join_tags tags).length : Int) < int_cast size) :
    ∃ st2, format_tags size tags st = Except.ok st2 := by
  induction tags generalizing st with
  | nil => exact ⟨st, rfl⟩
  | cons t rest ih =>
    rw [join_tags_cons, List.length_append] at h
    have hw := append_field_written size st (t ++ (if rest = [] then [] else [' ']))
    have hch : ¬ ((append_field size st (t ++ (if rest = [] then [] else [' ']))).2 ≥
        int_cast size) := by
      push_cast at h
      omega
    simp only [format_tags, hch, if_false]
    exact ih _ (by push_cast at h; omega)

/-- A record whose content is longer than INT_MAX bytes, in a buffer of at most INT_MAX
bytes that the line without the content fits in: the last `snprintf` fails with -1, no check
follows it but `written >= (int)buffer_size`, and the encoder returns the length of the line
without the content, less one. -/
theorem m3log_format_int_huge (timestamp : CStr) (entry : m3log_entry_t)
    (buffer : List Char) (size : Nat) (c : CStr) (hcontent : entry.content = some c)
    (hc : INT_MAX < c.length) (hmax : size ≤ INT_MAX)
    (hfit : ('@' :: time_text timestamp entry.time ++ [' ']).length + 1 +
      (join_tags entry.tags.toList).length + 2 + (level_text entry.level).length < size) :
    ∃ b, m3log_format_int timestamp (some entry) (some buffer) size =
      some (((('@' :: time_text timestamp entry.time ++ [' ']).length + 1 +
        (join_tags entry.tags.toList).length + 2 + (level_text entry.level).length : Nat) : Int)
          - 1, some b) := by
  have hk := int_cast_of_le size hmax
  have h0 : size ≠ 0 := by omega
  have hz : ((buffer, (0 : Int)) : List Char × Int).2 = 0 := rfl
  have hw1 := append_field_written size (buffer, 0)
    ('@' :: time_text timestamp entry.time ++ [' '])
  rw [hz] at hw1
  have hw2 := append_field_written size (append_field size (buffer, 0)
    ('@' :: time_text timestamp entry.time ++ [' '])) ['[']
  simp only [List.length_singleton] at hw2
  have hch : ¬ ((append_field size (buffer, 0)
      ('@' :: time_text timestamp entry.time ++ [' '])).2 ≥ int_cast size) := by omega
  obtain ⟨st2, hft⟩ := format_tags_ok size entry.tags.toList
    (append_field size (append_field size (buffer, 0)
      ('@' :: time_text timestamp entry.time ++ [' '])) ['[']) (by omega)
  obtain ⟨k1, _⟩ := format_tags_written size _ _ _ hft
  rw [m3log_format_int_stages, if_neg h0]
  simp only [append_field_int_eq size (buffer, 0)
    ('@' :: time_text timestamp entry.time ++ [' ']) (le_refl _) (by rw [hz]; omega)
    (by rw [hz]; omega), Option.some_bind, hch, if_false]
  rw [append_field_int_eq size _ ['['] (by omega) (by omega)
    (by simp only [List.length_singleton]; omega), Option.some_bind,
    format_tags_int_eq size _ _ (by omega) (by omega) (by omega), Option.some_bind, hft]
  simp only []
  obtain ⟨b, hb⟩ := format_from_close_int_huge size entry st2 c hcontent hc (by omega)
    (by omega) hmax
  have e : st2.2 + 2 + ((level_text entry.level).length : Int) - 1 =
      ((('@' :: time_text timestamp entry.time ++ [' ']).length + 1 +
        (join_tags entry.tags.toList).length + 2 + (level_text entry.level).length : Nat) : Int)
          - 1 := by
    push_cast
    omega
  rw [e] at hb
  exact ⟨b, hb⟩

/-- While the full line is at most INT_MAX bytes long and the capacity is between 1 and
INT_MAX, the encoder returns `-M3LOG_ERROR_BUFFER_TOO_SMALL` exactly when the capacity is at
most the length of the full line, and that length otherwise. -/
theorem m3log_format_int_too_small_iff (timestamp : CStr) (entry : m3log_entry_t)
    (buffer : List Char) (size : Nat) (hpos : 0 < size) (hmax : size ≤ INT_MAX)
    (hlen : buffer.length = size) (hline : (format_line timestamp entry).length ≤ INT_MAX) :
    ∃ r, m3log_format_int timestamp (some entry) (some buffer) size = some r ∧
      (r.1 = ERR_BUFFER_TOO_SMALL ↔ size ≤ (format_line timestamp entry).length) ∧
      ((format_line timestamp entry).length < size →
        r.1 = ((format_line timestamp entry).length : Int)) := by
  have hk := int_cast_of_le size hmax
  have hsize : size < 2 ^ 64 := by
    unfold INT_MAX at hmax
    omega
  have hret := m3log_format_ret timestamp entry buffer size hsize hpos hlen
  rw [hk] at hret
  have hneg : ERR_BUFFER_TOO_SMALL = -4 := rfl
  refine ⟨_, m3log_format_int_eq timestamp entry buffer size hline, ?_⟩
  by_cases hfit : (format_line timestamp entry).length < size
  · have h1 : ((format_line timestamp entry).length : Int) < (size : Int) := by omega
    rw [if_pos h1] at hret
    rw [hret, hneg]
    exact ⟨⟨fun h => by omega, fun h => by omega⟩, fun _ => rfl⟩
  · have h1 : ¬ ((format_line timestamp entry).length : Int) < (size : Int) := by omega
    rw [if_neg h1] at hret
    rw [hret]
    exact ⟨⟨fun _ => by omega, fun _ => rfl⟩, fun h => absurd h hfit⟩

theorem format_line_content_length (c : CStr) :
    (format_line "now".toList
      { time := some "t".toList, tags := { tags := none }, level := M3LOG_LEVEL_INFO,
        content := some c }).length = 13 + c.length := by
  simp only [format_line, time_text, level_text, join_tags, m3log_tags_t.toList,
    m3log_level_to_string, List.length_append, List.length_cons, List.length_nil,
    Option.getD_some]
  simp

/-- C8: the record with timestamp `t`, no tags, level INFO and a content of `2^31` bytes has
a full line of `2^31 + 13` bytes, which a buffer of 100 bytes cannot hold; yet
`m3log_format` returns 12 and not `-M3LOG_ERROR_BUFFER_TOO_SMALL`: the `snprintf` of the
content fails with -1, which is added to `written` unchecked, and 12 passes the final check
`written >= (int)buffer_size`. -/
theorem m3log_format_huge_content_accepted :
    (format_line "now".toList
      { time := some "t".toList, tags := { tags := none }, level := M3LOG_LEVEL_INFO,
        content := some (List.replicate 2147483648 'a') }).length = 2147483661 ∧
    (m3log_format_int "now".toList
      (some { time := some "t".toList, tags := { tags := none }, level := M3LOG_LEVEL_INFO,
              content := some (List.replicate 2147483648 'a') })
      (some (List.replicate 100 'x')) 100).map Prod.fst = some 12 ∧
    (12 : Int) ≠ ERR_BUFFER_TOO_SMALL := by
  refine ⟨?_, ?_, by decide⟩
  · rw [format_line_content_length, List.length_replicate]
  · obtain ⟨b, hb⟩ := m3log_format_int_huge "now".toList
      { time := some "t".toList, tags := { tags := none }, level := M3LOG_LEVEL_INFO,
        content := some (List.replicate 2147483648 'a') }
      (List.replicate 100 'x') 100 (List.replicate 2147483648 'a') rfl
      (by rw [List.length_replicate]; decide) (by decide) (by decide)
    rw [hb]
    rfl

end M3log
